import Mathlib

/-!
# alignhash: open-addressing hash table of `src/base/alignhash_tpl.h`

Shallow embedding of the table generated by `DEFINE_ALIGNHASH` in the default
32-bit build (`ah_size_t = ah_iter_t = uint32_t`, sixteen 2-bit tags per flag
word).  The macro parameters `_hashfn`, `_hasheq`, `_ismap` and the build switch
`AH_TIER_PROBING` are the fields of `Params`.  Arrays are lists; machine integers
are naturals reduced modulo `2 ^ 32` where the C code can wrap.  Loops whose
termination depends on the table contents carry a fuel argument and return
`none` when the fuel runs out.  Allocation is taken to succeed.
-/

set_option autoImplicit false
set_option linter.unusedSectionVars false
set_option linter.unusedVariables false

namespace AlignHash

/-! ## Flag macros (lines 56-64) -/

/-- `AH_ISDEL(flag, i)`: bit 0 of the 2-bit tag of bucket `i`. -/
def AH_ISDEL (flag : List Nat) (i : Nat) : Nat :=
  (flag.getD (i >>> 4) 0 >>> ((i &&& 0xf) <<< 1)) &&& 1

/-- `AH_ISEMPTY(flag, i)`: bit 1 of the 2-bit tag of bucket `i`. -/
def AH_ISEMPTY (flag : List Nat) (i : Nat) : Nat :=
  (flag.getD (i >>> 4) 0 >>> ((i &&& 0xf) <<< 1)) &&& 2

/-- `AH_ISEITHER(flag, i)`: both bits of the tag of bucket `i`; `0` means occupied. -/
def AH_ISEITHER (flag : List Nat) (i : Nat) : Nat :=
  (flag.getD (i >>> 4) 0 >>> ((i &&& 0xf) <<< 1)) &&& 3

/-- `AH_CLEAR_EMPTY(flag, i)`: `flag[i >> 4] &= ~(2ul << ((i & 0xf) << 1))`,
the complement taken in 64 bits and the result stored back into a 32-bit word. -/
def AH_CLEAR_EMPTY (flag : List Nat) (i : Nat) : List Nat :=
  flag.set (i >>> 4)
    ((flag.getD (i >>> 4) 0 &&& ((2 <<< ((i &&& 0xf) <<< 1)) ^^^ (2 ^ 64 - 1))) % 2 ^ 32)

/-- `AH_CLEAR_BOTH(flag, i)`: `flag[i >> 4] &= ~(3ul << ((i & 0xf) << 1))`. -/
def AH_CLEAR_BOTH (flag : List Nat) (i : Nat) : List Nat :=
  flag.set (i >>> 4)
    ((flag.getD (i >>> 4) 0 &&& ((3 <<< ((i &&& 0xf) <<< 1)) ^^^ (2 ^ 64 - 1))) % 2 ^ 32)

/-- `AH_SET_DEL(flag, i)`: `flag[i >> 4] |= (1ul << ((i & 0xf) << 1))`. -/
def AH_SET_DEL (flag : List Nat) (i : Nat) : List Nat :=
  flag.set (i >>> 4)
    ((flag.getD (i >>> 4) 0 ||| (1 <<< ((i &&& 0xf) <<< 1))) % 2 ^ 32)

/-- `AH_FLAGS_BYTE(nb)`: size in bytes of the packed tag array. -/
def AH_FLAGS_BYTE (nb : Nat) : Nat :=
  if nb < 16 then 4 else nb >>> 2

/-! ## Outcome codes of `alignhash_set` (lines 68-73) -/

/-- The inserted element already exists. -/
def AH_INS_ERR : Nat := 0

/-- Element was placed at a new bucket. -/
def AH_INS_NEW : Nat := 1

/-- Element was placed at a deleted bucket. -/
def AH_INS_DEL : Nat := 2

/-! ## Probing (lines 83-91) -/

/-- `AH_PROBE_STEP(h)`: `((h * 0xc6a4a7935bd1e995ULL >> 47) | 1)` computed in 64 bits
under `AH_TIER_PROBING`, otherwise `1`. -/
def AH_PROBE_STEP (tier : Bool) (h : Nat) : Nat :=
  if tier then (((h * 0xc6a4a7935bd1e995) % 2 ^ 64) >>> 47) ||| 1 else 1

/-- The threshold `(ah_size_t)(nb * AH_LOAD_FACTOR + 0.5)` of lines 162 and 233, with
`AH_LOAD_FACTOR` 0.80 under tier probing and 0.50 otherwise.  For a 32-bit `nb` the
double `nb * 0.5 + 0.5` is exact, and `nb * 0.8 + 0.5` is within `2 ^ (-20)` of
`(8 * nb + 5) / 10`, a fraction whose distance to the nearest integer is at least
`1 / 10`; so the truncating cast is the integer quotient written here. -/
def load_threshold (tier : Bool) (nb : Nat) : Nat :=
  if tier then (8 * nb + 5) / 10 else (nb + 1) / 2

/-- The next index of the probe sequence: `i = (i + step) & mask` in 32-bit arithmetic. -/
def probe_next (step mask i : Nat) : Nat :=
  ((i + step) % 2 ^ 32) &&& mask

/-- The probe sequence `i, (i + step) & mask, ...` after `t` steps. -/
def probe_seq (step mask start : Nat) : Nat → Nat
  | 0 => start
  | t + 1 => probe_next step mask (probe_seq step mask start t)

/-! ## The table (lines 93-102) -/

/-- Macro parameters of `DEFINE_ALIGNHASH` and the probing build switch. -/
structure Params (K : Type) where
  /-- The hash function `_hashfn`. -/
  hashfn : K → Nat
  /-- The equality function `_hasheq`. -/
  hasheq : K → K → Bool
  /-- The flag `_ismap`: whether the value array exists. -/
  ismap : Bool
  /-- Whether `AH_TIER_PROBING` is defined. -/
  tier : Bool

/-- The record `alignhash_##_name##_t`; a null array is the empty list. -/
structure Table (K V : Type) where
  /-- Number of buckets. -/
  nbucket : Nat
  /-- Number of elements. -/
  size : Nat
  /-- Number of buckets used (occupied or deleted). -/
  nused : Nat
  /-- Upper bound of `nused` before growth. -/
  sup : Nat
  /-- Packed 2-bit tags, sixteen per 32-bit word. -/
  flags : List Nat
  /-- Key array. -/
  keys : List K
  /-- Value array (map mode). -/
  vals : List V
deriving DecidableEq, Repr

section Code

variable {K V : Type} [Inhabited K] [Inhabited V]

/-- Modelled from the spec: the macro `swap(a, b)` of `common.h`, which is not among the
source files; the specification has the carried entry and the resident one exchanged
("swap the carried entry with the one resident there").  The pair is the new `a` and
the new `b`. -/
def swap {α : Type} (a b : α) : α × α :=
  (b, a)

/-- The array produced by `realloc(xs, n * sizeof(elem))`: `n` elements, the common
prefix kept, fresh elements (uninitialised in C) read as `default`. -/
def realloc {α : Type} [Inhabited α] (xs : List α) (n : Nat) : List α :=
  (List.range n).map (fun i => xs.getD i default)

/-- The effect of `memset(flags, 0xaa, nwords * 4)` on the flag words. -/
def memset_aa : List Nat → Nat → List Nat
  | [], _ => []
  | w :: ws, nwords => if nwords = 0 then w :: ws else 0xaaaaaaaa :: memset_aa ws (nwords - 1)

/-- The table returned by `alignhash_init`: `calloc` zeroes every field. -/
def alignhash_init : Table K V :=
  { nbucket := 0, size := 0, nused := 0, sup := 0, flags := [], keys := [], vals := [] }

/-- The function `alignhash_clear` (lines 122-130). -/
def alignhash_clear (h : Table K V) : Table K V :=
  if h.flags ≠ [] then
    { h with flags := memset_aa h.flags (AH_FLAGS_BYTE h.nbucket / 4), size := 0, nused := 0 }
  else h

/-- The probe loop of `alignhash_get` (lines 143-149), started at index `i`, with fuel
for `fuel` evaluations of the loop condition. -/
def get_loop (P : Params K) (h : Table K V) (key : K) (step mask last : Nat) :
    Nat → Nat → Option Nat
  | 0, _ => none
  | fuel + 1, i =>
    if AH_ISEMPTY h.flags i = 0 ∧
        (AH_ISDEL h.flags i ≠ 0 ∨ P.hasheq (h.keys.getD i default) key = false) then
      if probe_next step mask i = last then some h.nbucket
      else get_loop P h key step mask last fuel (probe_next step mask i)
    else some (if AH_ISEMPTY h.flags i ≠ 0 then h.nbucket else i)

/-- The function `alignhash_get` (lines 132-152); the loop gets `nbucket` rounds. -/
def alignhash_get (P : Params K) (h : Table K V) (key : K) : Option Nat :=
  if h.nbucket ≠ 0 then
    let mask := (h.nbucket + 2 ^ 32 - 1) % 2 ^ 32
    let k := P.hashfn key % 2 ^ 32
    let i := k &&& mask
    let step := AH_PROBE_STEP P.tier k % 2 ^ 32
    get_loop P h key step mask i h.nbucket i
  else some 0

/-- The arrays a running `alignhash_resize` works on. -/
structure Rehash (K V : Type) where
  /-- The old tag array `h->flags`. -/
  flags : List Nat
  /-- The fresh tag array `new_flags`. -/
  new_flags : List Nat
  /-- The key array, shared by the old and the new layout. -/
  keys : List K
  /-- The value array, shared by the old and the new layout. -/
  vals : List V
deriving DecidableEq, Repr

/-- The loop `while (!AH_ISEMPTY(new_flags, i)) i = (i + step) & new_mask` (lines
200-201), with fuel for `fuel` evaluations of its condition. -/
def resize_find (new_flags : List Nat) (step new_mask : Nat) : Nat → Nat → Option Nat
  | 0, _ => none
  | fuel + 1, i =>
    if AH_ISEMPTY new_flags i = 0 then
      resize_find new_flags step new_mask fuel (probe_next step new_mask i)
    else some i

/-- The displacement loop `for (;;)` of lines 194-214 carrying `key` and `val`, with
fuel for `fuel` rounds; the search of each round gets `new_nbucket` steps. -/
def resize_kick (P : Params K) (nbucket new_nbucket new_mask : Nat) :
    Nat → Rehash K V → K → V → Option (Rehash K V)
  | 0, _, _, _ => none
  | fuel + 1, s, key, val =>
    let k := P.hashfn key % 2 ^ 32
    let step := AH_PROBE_STEP P.tier k % 2 ^ 32
    match resize_find s.new_flags step new_mask new_nbucket (k &&& new_mask) with
    | none => none
    | some i =>
      if i < nbucket ∧ AH_ISEITHER s.flags i = 0 then
        resize_kick P nbucket new_nbucket new_mask fuel
          { flags := AH_SET_DEL s.flags i
            new_flags := AH_CLEAR_EMPTY s.new_flags i
            keys := s.keys.set i (swap (s.keys.getD i default) key).1
            vals := if P.ismap then s.vals.set i (swap (s.vals.getD i default) val).1
                    else s.vals }
          (swap (s.keys.getD i default) key).2
          (if P.ismap then (swap (s.vals.getD i default) val).2 else val)
      else
        some { flags := s.flags
               new_flags := AH_CLEAR_EMPTY s.new_flags i
               keys := s.keys.set i key
               vals := if P.ismap then s.vals.set i val else s.vals }

/-- The loop `for (j = 0; j != h->nbucket; ++j)` of lines 187-216 with `cnt` rounds
left; an entry picked up is uninitialised in `val` outside map mode (read as `default`),
and its displacement loop gets `nbucket` rounds. -/
def resize_rehash (P : Params K) (nbucket new_nbucket new_mask : Nat) :
    Nat → Nat → Rehash K V → Option (Rehash K V)
  | 0, _, s => some s
  | cnt + 1, j, s =>
    if AH_ISEITHER s.flags j = 0 then
      match resize_kick P nbucket new_nbucket new_mask nbucket
          { s with flags := AH_SET_DEL s.flags j }
          (s.keys.getD j default)
          (if P.ismap then s.vals.getD j default else default) with
      | none => none
      | some s1 => resize_rehash P nbucket new_nbucket new_mask cnt (j + 1) s1
    else resize_rehash P nbucket new_nbucket new_mask cnt (j + 1) s

/-- The function `alignhash_resize` (lines 154-235): the return code and the table. -/
def alignhash_resize (P : Params K) (h : Table K V) (new_nbucket : Nat) :
    Option (Int × Table K V) :=
  let new_mask := (new_nbucket + 2 ^ 32 - 1) % 2 ^ 32
  if h.size ≥ load_threshold P.tier new_nbucket then some (-1, h)
  else
    let new_flags := List.replicate (AH_FLAGS_BYTE new_nbucket / 4) 0xaaaaaaaa
    let keys := if h.nbucket < new_nbucket then realloc h.keys new_nbucket else h.keys
    let vals :=
      if h.nbucket < new_nbucket ∧ P.ismap = true then realloc h.vals new_nbucket else h.vals
    match resize_rehash P h.nbucket new_nbucket new_mask h.nbucket 0
        { flags := h.flags, new_flags := new_flags, keys := keys, vals := vals } with
    | none => none
    | some s =>
      some (0,
        { nbucket := new_nbucket
          size := h.size
          nused := h.size
          sup := load_threshold P.tier new_nbucket
          flags := s.new_flags
          keys := if h.nbucket > new_nbucket then realloc s.keys new_nbucket else s.keys
          vals :=
            if h.nbucket > new_nbucket ∧ P.ismap = true then realloc s.vals new_nbucket
            else s.vals })

/-- The probe loop of `alignhash_set` (lines 261-270): the final `i`, `site` and `x`,
with fuel for `fuel` evaluations of the loop condition. -/
def set_probe (P : Params K) (h : Table K V) (key : K) (step mask last : Nat) :
    Nat → Nat → Nat → Option (Nat × Nat × Nat)
  | 0, _, _ => none
  | fuel + 1, i, site =>
    if AH_ISEMPTY h.flags i = 0 ∧
        (AH_ISDEL h.flags i ≠ 0 ∨ P.hasheq (h.keys.getD i default) key = false) then
      let site1 := if AH_ISDEL h.flags i ≠ 0 then i else site
      if probe_next step mask i = last then some (probe_next step mask i, site1, site1)
      else set_probe P h key step mask last fuel (probe_next step mask i) site1
    else some (i, site, h.nbucket)

/-- The bucket `x` chosen by lines 251-277 of `alignhash_set`; the loop gets `nbucket`
rounds. -/
def set_target (P : Params K) (h : Table K V) (key : K) : Option Nat :=
  let mask := (h.nbucket + 2 ^ 32 - 1) % 2 ^ 32
  let k := P.hashfn key % 2 ^ 32
  let i := k &&& mask
  if AH_ISEMPTY h.flags i ≠ 0 then some i
  else
    let step := AH_PROBE_STEP P.tier k % 2 ^ 32
    match set_probe P h key step mask i h.nbucket i h.nbucket with
    | none => none
    | some (i1, site, x) =>
      if x = h.nbucket then
        if AH_ISEMPTY h.flags i1 ≠ 0 ∧ site ≠ h.nbucket then some site else some i1
      else some x

/-- The store of lines 278-291 of `alignhash_set` at the chosen bucket `x`: the table
and the code written to `*ret`. -/
def set_store (h : Table K V) (key : K) (x : Nat) : Table K V × Nat :=
  if AH_ISEMPTY h.flags x ≠ 0 then
    ({ h with keys := h.keys.set x key
              flags := AH_CLEAR_BOTH h.flags x
              size := (h.size + 1) % 2 ^ 32
              nused := (h.nused + 1) % 2 ^ 32 }, AH_INS_NEW)
  else if AH_ISDEL h.flags x ≠ 0 then
    ({ h with keys := h.keys.set x key
              flags := AH_CLEAR_BOTH h.flags x
              size := (h.size + 1) % 2 ^ 32 }, AH_INS_DEL)
  else (h, AH_INS_ERR)

/-- Lines 251-291 of `alignhash_set`, after the growth check. -/
def set_insert (P : Params K) (h : Table K V) (key : K) :
    Option (Table K V × Nat × Option Nat) :=
  match set_target P h key with
  | none => none
  | some x => some ((set_store h key x).1, x, some (set_store h key x).2)

/-- The function `alignhash_set` (lines 237-292): the table, the returned iterator and
the code written to `*ret` (`none` when `*ret` is left unwritten). -/
def alignhash_set (P : Params K) (h : Table K V) (key : K) :
    Option (Table K V × Nat × Option Nat) :=
  if h.nused ≥ h.sup then
    match alignhash_resize P h (if h.nbucket ≠ 0 then (h.nbucket * 2) % 2 ^ 32 else 2) with
    | none => none
    | some (r, h1) => if r ≠ 0 then some (h1, h1.nbucket, none) else set_insert P h1 key
  else set_insert P h key

/-- The function `alignhash_del` (lines 294-301); `--h->size` wraps at zero. -/
def alignhash_del (h : Table K V) (x : Nat) : Table K V :=
  if x ≠ h.nbucket ∧ AH_ISEITHER h.flags x = 0 then
    { h with flags := AH_SET_DEL h.flags x, size := (h.size + 2 ^ 32 - 1) % 2 ^ 32 }
  else h

/-- The macro `alignhash_exist(h, x)` (line 347). -/
def alignhash_exist (h : Table K V) (x : Nat) : Bool :=
  AH_ISEITHER h.flags x = 0

/-- The macro `alignhash_value(h, x)` (line 320), read: the value stored at bucket `x`. -/
def alignhash_value (h : Table K V) (x : Nat) : V :=
  h.vals.getD x default

/-- The macro `alignhash_value(h, x)` (line 320), assigned: `alignhash_value(h, x) = v`. -/
def alignhash_value_assign (h : Table K V) (x : Nat) (v : V) : Table K V :=
  { h with vals := h.vals.set x v }

end Code

/-! ## Predicates of the specification -/

section Spec

variable {K V : Type} [Inhabited K] [Inhabited V]

/-- The number of indices below `n` on which `p` holds. -/
def count_upto (p : Nat → Bool) : Nat → Nat
  | 0 => 0
  | n + 1 => count_upto p n + (if p n then 1 else 0)

/-- The equality function is equality of keys, as the built-in `alignhash_equalfn` is. -/
def lawful_eq (P : Params K) : Prop :=
  ∀ a b : K, P.hasheq a b = true ↔ a = b

/-- Some occupied bucket holds a key equal to `key`. -/
def present (P : Params K) (h : Table K V) (key : K) : Prop :=
  ∃ i, i < h.nbucket ∧ AH_ISEITHER h.flags i = 0 ∧ P.hasheq (h.keys.getD i default) key = true

/-- The bucket count is a power of two that fits `ah_size_t`. -/
def is_pow2 (n : Nat) : Prop :=
  ∃ m, m < 32 ∧ n = 2 ^ m

/-- Well-formed table: the bucket count is zero or a power of two, the arrays have the
allocated lengths, `size` counts the occupied buckets, `nused` counts the non-empty
buckets, `sup` is the threshold of the bucket count, and every occupied key is found by
`alignhash_get` at its own bucket. -/
def WF (P : Params K) (h : Table K V) : Prop :=
  (h.nbucket = 0 ∨ is_pow2 h.nbucket) ∧
  h.flags.length = (if h.nbucket = 0 then 0 else AH_FLAGS_BYTE h.nbucket / 4) ∧
  h.keys.length = h.nbucket ∧
  (P.ismap = true → h.vals.length = h.nbucket) ∧
  h.size = count_upto (fun i => decide (AH_ISEITHER h.flags i = 0)) h.nbucket ∧
  h.nused = count_upto (fun i => decide (AH_ISEMPTY h.flags i = 0)) h.nbucket ∧
  h.sup = load_threshold P.tier h.nbucket ∧
  ∀ i, i < h.nbucket → AH_ISEITHER h.flags i = 0 →
    alignhash_get P h (h.keys.getD i default) = some i

instance (n : Nat) : Decidable (is_pow2 n) := by
  unfold is_pow2; infer_instance

instance (P : Params K) (h : Table K V) : Decidable (WF P h) := by
  unfold WF; infer_instance

/-- The condition of the `while` loops of lines 143-144 and 261-262 at bucket `i`: the
bucket is not empty, and it is deleted or holds another key. -/
def probe_cont (P : Params K) (h : Table K V) (key : K) (i : Nat) : Prop :=
  AH_ISEMPTY h.flags i = 0 ∧
    (AH_ISDEL h.flags i ≠ 0 ∨ P.hasheq (h.keys.getD i default) key = false)

instance (P : Params K) (h : Table K V) (key : K) (i : Nat) :
    Decidable (probe_cont P h key i) := by
  unfold probe_cont; infer_instance

/-- The first probed bucket `hash(key) & mask` of a table with `nbucket` buckets. -/
def probe_start (P : Params K) (nbucket : Nat) (key : K) : Nat :=
  (P.hashfn key % 2 ^ 32) &&& ((nbucket + 2 ^ 32 - 1) % 2 ^ 32)

/-- The probe step `AH_PROBE_STEP(hash(key))` as stored in `ah_size_t`. -/
def probe_step (P : Params K) (key : K) : Nat :=
  AH_PROBE_STEP P.tier (P.hashfn key % 2 ^ 32) % 2 ^ 32

/-- The record describes an allocated table: the bucket count fits `ah_size_t`, the tag
array covers every bucket, and `size` counts the occupied buckets. -/
def table_ok (h : Table K V) : Prop :=
  h.nbucket < 2 ^ 32 ∧ h.nbucket ≤ 16 * h.flags.length ∧
    h.size = count_upto (fun i => decide (AH_ISEITHER h.flags i = 0)) h.nbucket

instance (h : Table K V) : Decidable (table_ok h) := by
  unfold table_ok; infer_instance

/-- The value of `site` after the first `t` rounds of the loop of lines 261-270 started
at `start` with `site` set to `site0`: the last deleted bucket among the first `t` probed. -/
def site_seq (h : Table K V) (step mask start site0 : Nat) : Nat → Nat
  | 0 => site0
  | t + 1 =>
    if AH_ISDEL h.flags (probe_seq step mask start t) ≠ 0 then probe_seq step mask start t
    else site_seq h step mask start site0 t

/-- The table after the store of lines 279-282 or 285-287 at bucket `x`, with the new
values `sz` of `size` and `nu` of `nused`. -/
def put (h : Table K V) (key : K) (x sz nu : Nat) : Table K V :=
  { h with keys := h.keys.set x key, flags := AH_CLEAR_BOTH h.flags x, size := sz, nused := nu }

/-- The probe path of `key` meets a deleted bucket before its first empty bucket. -/
def tomb_before (P : Params K) (h : Table K V) (key : K) : Prop :=
  ∃ t, AH_ISDEL h.flags (probe_seq (probe_step P key) ((h.nbucket + 2 ^ 32 - 1) % 2 ^ 32)
      (probe_start P h.nbucket key) t) ≠ 0 ∧
    ∀ s, s ≤ t → AH_ISEMPTY h.flags (probe_seq (probe_step P key)
      ((h.nbucket + 2 ^ 32 - 1) % 2 ^ 32) (probe_start P h.nbucket key) s) = 0

instance (P : Params K) (h : Table K V) (key : K) : Decidable (present P h key) := by
  unfold present; infer_instance

/-- The table seen through the fresh tag array during a rehash to `n` buckets. -/
def new_view (n : Nat) (s : Rehash K V) : Table K V :=
  { nbucket := n, size := 0, nused := 0, sup := 0,
    flags := s.new_flags, keys := s.keys, vals := s.vals }

/-- The invariant of the rehash of `h` into `n` buckets, at state `s` with the carried
entry `c` (the local `key`, `val` inside the displacement loop, none outside it):
buckets still occupied in the old tags are untouched and empty in the new tags; every
bucket occupied in the new tags holds an entry of `h` whose old bucket is vacated, and
is found by the lookup through the new tags; every vacated entry of `h` is carried or
sits in the new layout; the entries still to move, the entries moved and the carried
one add up to `size`; the carried key is an entry of `h` different from every key of
the new layout. -/
structure RInv (P : Params K) (h : Table K V) (n : Nat) (s : Rehash K V)
    (c : Option (K × V)) : Prop where
  /-- The old tag array keeps its length. -/
  flags_len : s.flags.length = h.flags.length
  /-- The new tag array has the allocated length. -/
  new_len : s.new_flags.length = AH_FLAGS_BYTE n / 4
  /-- The key array covers both layouts. -/
  keys_len : s.keys.length = max h.nbucket n
  /-- The value array covers both layouts. -/
  vals_len : P.ismap = true → s.vals.length = max h.nbucket n
  /-- The new tags hold no deleted bucket. -/
  new_nodel : ∀ i, AH_ISDEL s.new_flags i = 0
  /-- Buckets still occupied in the old tags are untouched. -/
  old : ∀ i, i < h.nbucket → AH_ISEITHER s.flags i = 0 →
    AH_ISEITHER h.flags i = 0 ∧ s.keys.getD i default = h.keys.getD i default ∧
      (P.ismap = true → s.vals.getD i default = h.vals.getD i default) ∧
      (i < n → AH_ISEMPTY s.new_flags i ≠ 0)
  /-- Buckets occupied in the new tags hold moved entries, found by lookup. -/
  new : ∀ i, i < n → AH_ISEMPTY s.new_flags i = 0 →
    (∃ i0, i0 < h.nbucket ∧ AH_ISEITHER h.flags i0 = 0 ∧ AH_ISEITHER s.flags i0 ≠ 0 ∧
      h.keys.getD i0 default = s.keys.getD i default ∧
      (P.ismap = true → h.vals.getD i0 default = s.vals.getD i default)) ∧
    alignhash_get P (new_view n s) (s.keys.getD i default) = some i
  /-- Vacated entries are carried or moved. -/
  moved : ∀ i0, i0 < h.nbucket → AH_ISEITHER h.flags i0 = 0 → AH_ISEITHER s.flags i0 ≠ 0 →
    (∃ cv, c = some cv ∧ cv.1 = h.keys.getD i0 default ∧
      (P.ismap = true → cv.2 = h.vals.getD i0 default)) ∨
    (∃ i, i < n ∧ AH_ISEMPTY s.new_flags i = 0 ∧
      s.keys.getD i default = h.keys.getD i0 default ∧
      (P.ismap = true → s.vals.getD i default = h.vals.getD i0 default))
  /-- The entries add up to `size`. -/
  count : count_upto (fun i => decide (AH_ISEITHER s.flags i = 0)) h.nbucket +
    count_upto (fun i => decide (AH_ISEMPTY s.new_flags i = 0)) n +
    (if c.isSome then 1 else 0) = h.size
  /-- The carried entry comes from a vacated bucket and its key is new to the new layout. -/
  carry : ∀ cv, c = some cv →
    (∃ c0, c0 < h.nbucket ∧ AH_ISEITHER h.flags c0 = 0 ∧ AH_ISEITHER s.flags c0 ≠ 0 ∧
      h.keys.getD c0 default = cv.1 ∧ (P.ismap = true → h.vals.getD c0 default = cv.2)) ∧
    (∀ i, i < n → AH_ISEMPTY s.new_flags i = 0 → s.keys.getD i default ≠ cv.1)

/-- The rehash state after lines 202 and 204-206 or 209-211 have put the carried entry
into bucket `e` of the new layout (the old tags not yet updated). -/
def placed (P : Params K) (s : Rehash K V) (e : Nat) (key : K) (val : V) : Rehash K V :=
  { flags := s.flags
    new_flags := AH_CLEAR_EMPTY s.new_flags e
    keys := s.keys.set e key
    vals := if P.ismap then s.vals.set e val else s.vals }

/-- The arrays of `alignhash_resize` when the loop over the old buckets starts (after
lines 164-186). -/
def resize_start (P : Params K) (h : Table K V) (n : Nat) : Rehash K V :=
  { flags := h.flags
    new_flags := List.replicate (AH_FLAGS_BYTE n / 4) 0xaaaaaaaa
    keys := if h.nbucket < n then realloc h.keys n else h.keys
    vals := if h.nbucket < n ∧ P.ismap = true then realloc h.vals n else h.vals }

/-- The table left by lines 217-233 of `alignhash_resize` from the final arrays `s`. -/
def resize_finish (P : Params K) (h : Table K V) (n : Nat) (s : Rehash K V) : Table K V :=
  { nbucket := n
    size := h.size
    nused := h.size
    sup := load_threshold P.tier n
    flags := s.new_flags
    keys := if h.nbucket > n then realloc s.keys n else s.keys
    vals := if h.nbucket > n ∧ P.ismap = true then realloc s.vals n else s.vals }

/-- The bucket count `alignhash_set` asks `alignhash_resize` for (lines 243-248):
`h->nbucket * 2` in 32-bit arithmetic, or 2 for a table without buckets. -/
def grow_size (h : Table K V) : Nat :=
  if h.nbucket ≠ 0 then (h.nbucket * 2) % 2 ^ 32 else 2

/-- Follows the words of the specification: `live_count >= new_bucket_count *
load_factor`, the load factor being 4/5 under tier probing and 1/2 otherwise. -/
def spec_infeasible (tier : Bool) (live_count new_bucket_count : Nat) : Prop :=
  if tier then 4 * new_bucket_count ≤ 5 * live_count else new_bucket_count ≤ 2 * live_count

instance (tier : Bool) (a b : Nat) : Decidable (spec_infeasible tier a b) := by
  unfold spec_infeasible; infer_instance

/-- The tables reachable from `alignhash_init` by calls of `alignhash_set`,
`alignhash_del` on an iterator up to `alignhash_end`, `alignhash_clear`, successful
`alignhash_resize` to a power of two, and stores through `alignhash_value`. -/
inductive Reachable (P : Params K) : Table K V → Prop
  | init : Reachable P alignhash_init
  | set (h : Table K V) (key : K) (h1 : Table K V) (x : Nat) (r : Option Nat) :
      Reachable P h → alignhash_set P h key = some (h1, x, r) → Reachable P h1
  | del (h : Table K V) (x : Nat) : Reachable P h → x ≤ h.nbucket →
      Reachable P (alignhash_del h x)
  | clear (h : Table K V) : Reachable P h → Reachable P (alignhash_clear h)
  | resize (h : Table K V) (n : Nat) (h1 : Table K V) : Reachable P h → is_pow2 n →
      alignhash_resize P h n = some (0, h1) → Reachable P h1
  | setval (h : Table K V) (x : Nat) (v : V) : Reachable P h → x < h.nbucket →
      Reachable P { h with vals := h.vals.set x v }

/-- The bucket probed in round `t` for `key`: the sequence `i`, `(i + step) & mask`, ...
of lines 136-148 and 253-268, started at `hash(key) & mask`. -/
def probe_path (P : Params K) (h : Table K V) (key : K) (t : Nat) : Nat :=
  probe_seq (probe_step P key) ((h.nbucket + 2 ^ 32 - 1) % 2 ^ 32)
    (probe_start P h.nbucket key) t

/-- The tags of the array `f` that belong to no bucket of a table of `n` buckets (the
padding of a tag word) are empty. -/
def pad_empty (f : List Nat) (n : Nat) : Prop :=
  ∀ i, n ≤ i → i / 16 < f.length → AH_ISEMPTY f i ≠ 0

/-- The macro `alignhash_exist(h, x)` (line 347) with its read of `flags[x >> 4]` made
explicit: `none` when that word lies outside the tag array. -/
def alignhash_exist_checked (h : Table K V) (x : Nat) : Option Bool :=
  if x >>> 4 < h.flags.length then some (alignhash_exist h x) else none

/-- The function `alignhash_del` (lines 294-301) with its read of `flags[x >> 4]` made
explicit: the test `x != h->nbucket` comes first and skips the read; otherwise the result
is `none` when the word lies outside the tag array. -/
def alignhash_del_checked (h : Table K V) (x : Nat) : Option (Table K V) :=
  if x = h.nbucket then some h
  else if x >>> 4 < h.flags.length then some (alignhash_del h x) else none

/-- A caller storing a pair: `x = alignhash_set(h, key, &ret); alignhash_value(h, x) = v`;
the table and the outcome code, `none` when the call reports no outcome. -/
def set_with_value (P : Params K) (h : Table K V) (key : K) (v : V) :
    Option (Table K V × Nat) :=
  match alignhash_set P h key with
  | some (h1, x, some c) => some (alignhash_value_assign h1 x v, c)
  | _ => none

/-- A caller reading a value: `x = alignhash_get(h, key)`, then `alignhash_value(h, x)`
unless `x` is `nbucket`. -/
def get_value (P : Params K) (h : Table K V) (key : K) : Option (Option V) :=
  match alignhash_get P h key with
  | some x => some (if x = h.nbucket then none else some (alignhash_value h x))
  | none => none

/-- The number of changes between neighbours in a list of bucket counts. -/
def count_changes : List Nat → Nat
  | a :: b :: rest => (if a ≠ b then 1 else 0) + count_changes (b :: rest)
  | _ => 0

/-- The probe invariant: `alignhash_get` of the key of every occupied bucket returns that
bucket. -/
def probe_inv (P : Params K) (h : Table K V) : Prop :=
  ∀ i, i < h.nbucket → AH_ISEITHER h.flags i = 0 →
    alignhash_get P h (h.keys.getD i default) = some i

instance (P : Params K) (h : Table K V) : Decidable (probe_inv P h) := by
  unfold probe_inv; infer_instance

/-- Every occupied bucket lies on the probe path of its own key, within the first
`nbucket` rounds, and no bucket before it on that path is empty.  The predicate speaks of
the tags, the keys and the probe sequence only. -/
def probe_reach (P : Params K) (h : Table K V) : Prop :=
  ∀ i, i < h.nbucket → AH_ISEITHER h.flags i = 0 →
    ∃ t, t < h.nbucket ∧ probe_path P h (h.keys.getD i default) t = i ∧
      ∀ s, s < t → AH_ISEMPTY h.flags (probe_path P h (h.keys.getD i default) s) = 0

instance (P : Params K) (h : Table K V) : Decidable (probe_reach P h) := by
  unfold probe_reach; infer_instance

/-- No two occupied buckets hold equal keys. -/
def keys_distinct (P : Params K) (h : Table K V) : Prop :=
  ∀ i, i < h.nbucket → ∀ j, j < h.nbucket → AH_ISEITHER h.flags i = 0 →
    AH_ISEITHER h.flags j = 0 →
    P.hasheq (h.keys.getD i default) (h.keys.getD j default) = true → i = j

instance (P : Params K) (h : Table K V) : Decidable (keys_distinct P h) := by
  unfold keys_distinct; infer_instance

end Spec

/-! ## Sample tables -/

/-- Integer keys with the identity hash `alignhash_hashfn`, `alignhash_equalfn`, map mode,
linear probing. -/
def ex_params : Params Nat :=
  { hashfn := fun k => k, hasheq := fun a b => a == b, ismap := true, tier := false }

/-- The same instance built with `AH_TIER_PROBING`. -/
def ex_params_tier : Params Nat :=
  { hashfn := fun k => k, hasheq := fun a b => a == b, ismap := true, tier := true }

/-- The table holding keys 1, 2, 3 with values a, b, c in 8 buckets. -/
def ex_table3 : Table Nat String :=
  { nbucket := 8, size := 3, nused := 3, sup := 4, flags := [2863311362],
    keys := [0, 1, 2, 3, 0, 0, 0, 0], vals := ["", "a", "b", "c", "", "", "", ""] }

/-- The table `ex_table3` after `alignhash_set` of key 11: four keys in 8 buckets. -/
def ex_table4 : Table Nat String :=
  { nbucket := 8, size := 4, nused := 4, sup := 4, flags := [2863310850],
    keys := [0, 1, 2, 3, 11, 0, 0, 0], vals := ["", "a", "b", "c", "", "", "", ""] }

/-- A table of one bucket, empty: what `alignhash_resize` to 1 makes of a fresh table. -/
def ex_table1 : Table Nat String :=
  { nbucket := 1, size := 0, nused := 0, sup := 1, flags := [2863311530],
    keys := [0], vals := [""] }

/-- The table of one bucket holding key 7. -/
def ex_table1_full : Table Nat String :=
  { nbucket := 1, size := 1, nused := 1, sup := 1, flags := [2863311528],
    keys := [7], vals := [""] }

/-- The table holding keys 1, 2, 3 in 4 buckets, built with `AH_TIER_PROBING`. -/
def ex_table3_tier : Table Nat String :=
  { nbucket := 4, size := 3, nused := 3, sup := 3, flags := [2863311362],
    keys := [2, 1, 2, 3], vals := ["b", "a", "b", "c"] }

/-- The linear-probing table of 8 buckets holding the colliding keys 0, 8, 16 in buckets
0, 1, 2. -/
def ex_table_chain3 : Table Nat String :=
  { nbucket := 8, size := 3, nused := 3, sup := 4, flags := [2863311488],
    keys := [0, 8, 16, 0, 0, 0, 0, 0], vals := ["", "", "", "", "", "", "", ""] }

/-- The table `ex_table_chain3` after the deletion of buckets 0 and 1. -/
def ex_table_tombs : Table Nat String :=
  { nbucket := 8, size := 1, nused := 3, sup := 4, flags := [2863311493],
    keys := [0, 8, 16, 0, 0, 0, 0, 0], vals := ["", "", "", "", "", "", "", ""] }

/-- The linear-probing table of 8 buckets holding the colliding keys 0, 8, 16, 24 in
buckets 0, 1, 2, 3. -/
def ex_table_chain4 : Table Nat String :=
  { nbucket := 8, size := 4, nused := 4, sup := 4, flags := [2863311360],
    keys := [0, 8, 16, 24, 0, 0, 0, 0], vals := ["", "", "", "", "", "", "", ""] }

/-- The table `ex_table_chain4` after the deletion of buckets 0 and 1. -/
def ex_table_chain4_tombs : Table Nat String :=
  { nbucket := 8, size := 2, nused := 4, sup := 4, flags := [2863311365],
    keys := [0, 8, 16, 24, 0, 0, 0, 0], vals := ["", "", "", "", "", "", "", ""] }

/-- A table of 4 buckets in which every bucket is a tombstone. -/
def ex_table_saturated : Table Nat String :=
  { nbucket := 4, size := 0, nused := 4, sup := 2, flags := [2863311445],
    keys := [0, 1, 2, 3], vals := ["", "", "", ""] }

/-! ## Lists and tag words -/

theorem getD_set_eq {α : Type} (l : List α) (i : Nat) (v d : α) (h : i < l.length) :
    (l.set i v).getD i d = v := by
  simp [List.getD_eq_getElem?_getD, List.getElem?_set, h]

theorem getD_set_ne {α : Type} (l : List α) (i j : Nat) (v d : α) (h : i ≠ j) :
    (l.set i v).getD j d = l.getD j d := by
  simp [List.getD_eq_getElem?_getD, List.getElem?_set, h]

theorem getD_set_oob {α : Type} (l : List α) (i j : Nat) (v d : α) (h : l.length ≤ i) :
    (l.set i v).getD j d = l.getD j d := by
  by_cases hij : i = j
  · subst hij
    simp [List.getD_eq_getElem?_getD, List.getElem?_set, Nat.not_lt.mpr h,
      List.getElem?_eq_none h]
  · exact getD_set_ne l i j v d hij

theorem getD_oob {α : Type} (l : List α) (i : Nat) (d : α) (h : l.length ≤ i) :
    l.getD i d = d := by
  simp [List.getD_eq_getElem?_getD, List.getElem?_eq_none h]

theorem getD_replicate_lt {α : Type} (n i : Nat) (v d : α) (h : i < n) :
    (List.replicate n v).getD i d = v := by
  simp [List.getD_eq_getElem?_getD, List.getElem?_replicate, h]

theorem getD_realloc {α : Type} [Inhabited α] (xs : List α) (n i : Nat) (h : i < n) :
    (realloc xs n).getD i default = xs.getD i default := by
  simp [realloc, List.getD_eq_getElem?_getD, List.getElem?_map, List.getElem?_range h]

theorem length_realloc {α : Type} [Inhabited α] (xs : List α) (n : Nat) :
    (realloc xs n).length = n := by
  simp [realloc]

theorem tag_word (i : Nat) : i >>> 4 = i / 16 := by
  rw [Nat.shiftRight_eq_div_pow]

theorem tag_off (i : Nat) : (i &&& 0xf) <<< 1 = 2 * (i % 16) := by
  have h := Nat.and_pow_two_sub_one_eq_mod i 4
  have h2 : (2:Nat) ^ 4 - 1 = 0xf := by norm_num
  rw [h2] at h
  rw [h, Nat.shiftLeft_eq]; norm_num; omega

theorem testBit_two (b : Nat) : (2 : Nat).testBit b = decide (1 = b) := by
  have := @Nat.testBit_two_pow 1 b
  simpa using this

theorem testBit_one_dec (b : Nat) : (1 : Nat).testBit b = decide (0 = b) := by
  have := @Nat.testBit_two_pow 0 b
  simpa using this

theorem testBit_three (b : Nat) : (3 : Nat).testBit b = decide (b < 2) := by
  have := Nat.testBit_two_pow_sub_one 2 b
  simpa using this

theorem word_isempty (w s : Nat) :
    (w >>> s) &&& 2 = if w.testBit (s + 1) then 2 else 0 := by
  apply Nat.eq_of_testBit_eq
  intro b
  rw [Nat.testBit_and, Nat.testBit_shiftRight, testBit_two]
  by_cases hb : 1 = b
  · subst hb; cases h : w.testBit (s + 1) <;> simp [testBit_two]
  · cases h : w.testBit (s + 1) <;> simp [hb, testBit_two]

theorem word_isdel (w s : Nat) :
    (w >>> s) &&& 1 = if w.testBit s then 1 else 0 := by
  apply Nat.eq_of_testBit_eq
  intro b
  rw [Nat.testBit_and, Nat.testBit_shiftRight, testBit_one_dec]
  by_cases hb : 0 = b
  · subst hb; cases h : w.testBit s <;> simp [testBit_one_dec, h]
  · cases h : w.testBit s <;> simp [hb, testBit_one_dec]

theorem word_iseither (w s : Nat) :
    (w >>> s) &&& 3 = ((w >>> s) &&& 2) + ((w >>> s) &&& 1) := by
  rw [word_isempty, word_isdel]
  apply Nat.eq_of_testBit_eq
  intro b
  rw [Nat.testBit_and, Nat.testBit_shiftRight, testBit_three]
  cases h1 : w.testBit (s + 1) <;> cases h0 : w.testBit s <;>
  rcases b with _ | _ | b <;> simp [h0, h1, testBit_two, testBit_one_dec, testBit_three]

/-- Bits of a word after `|= 1 << s`. -/
theorem word_set_del (w s p : Nat) (hp : p < 32) :
    ((w ||| (1 <<< s)) % 2 ^ 32).testBit p = (w.testBit p || decide (p = s)) := by
  rw [Nat.testBit_mod_two_pow, Nat.testBit_or, Nat.testBit_shiftLeft, testBit_one_dec]
  by_cases h : p = s
  · subst h; simp [hp]
  · have : ¬ (0 = p - s ∧ p ≥ s) := by omega
    by_cases h1 : p ≥ s
    · have h2 : ¬ (0 = p - s) := by omega
      simp [hp, h, h1, h2]
    · simp [hp, h, h1]

/-- Bits of a word after `&= ~(c << s)` for a mask `c` below 4. -/
theorem word_clear (w c s p : Nat) (hp : p < 32) :
    ((w &&& ((c <<< s) ^^^ (2 ^ 64 - 1))) % 2 ^ 32).testBit p =
      (w.testBit p && !(decide (p ≥ s) && c.testBit (p - s))) := by
  rw [Nat.testBit_mod_two_pow, Nat.testBit_and, Nat.testBit_xor, Nat.testBit_shiftLeft,
    Nat.testBit_two_pow_sub_one]
  have h64 : p < 64 := by omega
  simp [hp, h64]


theorem getD_set_word (f : List Nat) (a b v : Nat) :
    (f.set a v).getD b 0 = if a = b ∧ a < f.length then v else f.getD b 0 := by
  by_cases hab : a = b
  · subst hab
    by_cases hl : a < f.length
    · simp only [hl, and_self, if_true]; exact getD_set_eq f a v 0 hl
    · simp only [hl, and_false, if_false]; exact getD_set_oob f a a v 0 (Nat.le_of_not_lt hl)
  · simp only [hab, false_and, if_false]; exact getD_set_ne f a b v 0 hab

theorem isempty_tb (f : List Nat) (i : Nat) :
    AH_ISEMPTY f i = if (f.getD (i / 16) 0).testBit (2 * (i % 16) + 1) then 2 else 0 := by
  unfold AH_ISEMPTY; rw [tag_word, tag_off, word_isempty]

theorem isdel_tb (f : List Nat) (i : Nat) :
    AH_ISDEL f i = if (f.getD (i / 16) 0).testBit (2 * (i % 16)) then 1 else 0 := by
  unfold AH_ISDEL; rw [tag_word, tag_off, word_isdel]

theorem iseither_eq (f : List Nat) (i : Nat) :
    AH_ISEITHER f i = AH_ISEMPTY f i + AH_ISDEL f i := by
  unfold AH_ISEITHER AH_ISEMPTY AH_ISDEL; exact word_iseither _ _

theorem iseither_zero (f : List Nat) (i : Nat) :
    AH_ISEITHER f i = 0 ↔ AH_ISEMPTY f i = 0 ∧ AH_ISDEL f i = 0 := by
  rw [iseither_eq]; omega

theorem set_del_word (f : List Nat) (i : Nat) :
    AH_SET_DEL f i = f.set (i / 16) ((f.getD (i / 16) 0 ||| (1 <<< (2 * (i % 16)))) % 2 ^ 32) := by
  unfold AH_SET_DEL; rw [tag_word, tag_off]

theorem clear_empty_word (f : List Nat) (i : Nat) :
    AH_CLEAR_EMPTY f i = f.set (i / 16)
      ((f.getD (i / 16) 0 &&& ((2 <<< (2 * (i % 16))) ^^^ (2 ^ 64 - 1))) % 2 ^ 32) := by
  unfold AH_CLEAR_EMPTY; rw [tag_word, tag_off]

theorem clear_both_word (f : List Nat) (i : Nat) :
    AH_CLEAR_BOTH f i = f.set (i / 16)
      ((f.getD (i / 16) 0 &&& ((3 <<< (2 * (i % 16))) ^^^ (2 ^ 64 - 1))) % 2 ^ 32) := by
  unfold AH_CLEAR_BOTH; rw [tag_word, tag_off]

theorem length_set_del (f : List Nat) (i : Nat) : (AH_SET_DEL f i).length = f.length := by
  unfold AH_SET_DEL; exact List.length_set _ _ _

theorem length_clear_empty (f : List Nat) (i : Nat) :
    (AH_CLEAR_EMPTY f i).length = f.length := by
  unfold AH_CLEAR_EMPTY; exact List.length_set _ _ _

theorem length_clear_both (f : List Nat) (i : Nat) :
    (AH_CLEAR_BOTH f i).length = f.length := by
  unfold AH_CLEAR_BOTH; exact List.length_set _ _ _

theorem isempty_set_del (f : List Nat) (i j : Nat) :
    AH_ISEMPTY (AH_SET_DEL f i) j = AH_ISEMPTY f j := by
  rw [isempty_tb, isempty_tb, set_del_word, getD_set_word]
  split
  · rename_i h
    rw [word_set_del _ _ _ (by omega), ← h.1]
    have : ¬ (2 * (j % 16) + 1 = 2 * (i % 16)) := by omega
    simp [this]
  · rfl

theorem isdel_set_del_ne (f : List Nat) (i j : Nat) (hij : j ≠ i) :
    AH_ISDEL (AH_SET_DEL f i) j = AH_ISDEL f j := by
  rw [isdel_tb, isdel_tb, set_del_word, getD_set_word]
  split
  · rename_i h
    rw [word_set_del _ _ _ (by omega), ← h.1]
    have : ¬ (2 * (j % 16) = 2 * (i % 16)) := by omega
    simp [this]
  · rfl

theorem isdel_set_del_eq (f : List Nat) (i : Nat) (hi : i / 16 < f.length) :
    AH_ISDEL (AH_SET_DEL f i) i = 1 := by
  rw [isdel_tb, set_del_word, getD_set_word]
  simp only [hi, and_self, if_true]
  rw [word_set_del _ _ _ (by omega)]
  simp

theorem isdel_clear_empty (f : List Nat) (i j : Nat) :
    AH_ISDEL (AH_CLEAR_EMPTY f i) j = AH_ISDEL f j := by
  rw [isdel_tb, isdel_tb, clear_empty_word, getD_set_word]
  split
  · rename_i h
    rw [word_clear _ _ _ _ (by omega), ← h.1, testBit_two]
    have : ¬ (1 = 2 * (j % 16) - 2 * (i % 16) ∧ 2 * (j % 16) ≥ 2 * (i % 16)) := by omega
    by_cases h1 : 2 * (j % 16) ≥ 2 * (i % 16)
    · have h2 : ¬ (1 = 2 * (j % 16) - 2 * (i % 16)) := by omega
      simp [h1, h2]
    · simp [h1]
  · rfl

theorem isempty_clear_empty_ne (f : List Nat) (i j : Nat) (hij : j ≠ i) :
    AH_ISEMPTY (AH_CLEAR_EMPTY f i) j = AH_ISEMPTY f j := by
  rw [isempty_tb, isempty_tb, clear_empty_word, getD_set_word]
  split
  · rename_i h
    rw [word_clear _ _ _ _ (by omega), ← h.1, testBit_two]
    by_cases h1 : 2 * (j % 16) + 1 ≥ 2 * (i % 16)
    · have h2 : ¬ (1 = 2 * (j % 16) + 1 - 2 * (i % 16)) := by omega
      simp [h1, h2]
    · simp [h1]
  · rfl

theorem isempty_clear_empty_eq (f : List Nat) (i : Nat) (hi : i / 16 < f.length) :
    AH_ISEMPTY (AH_CLEAR_EMPTY f i) i = 0 := by
  rw [isempty_tb, clear_empty_word, getD_set_word]
  simp only [hi, and_self, if_true]
  rw [word_clear _ _ _ _ (by omega), testBit_two]
  simp

theorem isempty_clear_both_ne (f : List Nat) (i j : Nat) (hij : j ≠ i) :
    AH_ISEMPTY (AH_CLEAR_BOTH f i) j = AH_ISEMPTY f j := by
  rw [isempty_tb, isempty_tb, clear_both_word, getD_set_word]
  split
  · rename_i h
    rw [word_clear _ _ _ _ (by omega), ← h.1, testBit_three]
    by_cases h1 : 2 * (j % 16) + 1 ≥ 2 * (i % 16)
    · have h2 : ¬ (2 * (j % 16) + 1 - 2 * (i % 16) < 2) := by omega
      simp [h1, h2]
    · simp [h1]
  · rfl

theorem isdel_clear_both_ne (f : List Nat) (i j : Nat) (hij : j ≠ i) :
    AH_ISDEL (AH_CLEAR_BOTH f i) j = AH_ISDEL f j := by
  rw [isdel_tb, isdel_tb, clear_both_word, getD_set_word]
  split
  · rename_i h
    rw [word_clear _ _ _ _ (by omega), ← h.1, testBit_three]
    by_cases h1 : 2 * (j % 16) ≥ 2 * (i % 16)
    · have h2 : ¬ (2 * (j % 16) - 2 * (i % 16) < 2) := by omega
      simp [h1, h2]
    · simp [h1]
  · rfl

theorem isempty_clear_both_eq (f : List Nat) (i : Nat) (hi : i / 16 < f.length) :
    AH_ISEMPTY (AH_CLEAR_BOTH f i) i = 0 := by
  rw [isempty_tb, clear_both_word, getD_set_word]
  simp only [hi, and_self, if_true]
  rw [word_clear _ _ _ _ (by omega), testBit_three]
  simp

theorem isdel_clear_both_eq (f : List Nat) (i : Nat) (hi : i / 16 < f.length) :
    AH_ISDEL (AH_CLEAR_BOTH f i) i = 0 := by
  rw [isdel_tb, clear_both_word, getD_set_word]
  simp only [hi, and_self, if_true]
  rw [word_clear _ _ _ _ (by omega), testBit_three]
  simp

theorem isempty_fresh (n i : Nat) (hi : i / 16 < n) :
    AH_ISEMPTY (List.replicate n 0xaaaaaaaa) i = 2 := by
  rw [isempty_tb, getD_replicate_lt _ _ _ _ hi]
  have h : i % 16 < 16 := Nat.mod_lt _ (by norm_num)
  have : (0xaaaaaaaa : Nat).testBit (2 * (i % 16) + 1) = true := by
    generalize i % 16 = r at h
    interval_cases r <;> decide
  simp [this]

theorem isdel_fresh (n i : Nat) :
    AH_ISDEL (List.replicate n 0xaaaaaaaa) i = 0 := by
  rw [isdel_tb]
  by_cases hi : i / 16 < n
  · rw [getD_replicate_lt _ _ _ _ hi]
    have h : i % 16 < 16 := Nat.mod_lt _ (by norm_num)
    have : (0xaaaaaaaa : Nat).testBit (2 * (i % 16)) = false := by
      generalize i % 16 = r at h
      interval_cases r <;> decide
    simp [this]
  · rw [getD_oob _ _ _ (by simpa using Nat.le_of_not_lt hi)]
    simp

/-! ## The probe sequence -/

theorem mask_pow2 (m : Nat) (hm : m < 32) : (2 ^ m + 2 ^ 32 - 1) % 2 ^ 32 = 2 ^ m - 1 := by
  have h1 : 0 < 2 ^ m := Nat.two_pow_pos _
  have h2 : 2 ^ m < 2 ^ 32 := Nat.pow_lt_pow_right (by norm_num) hm
  have h3 : 2 ^ m + 2 ^ 32 - 1 = (2 ^ m - 1) + 2 ^ 32 := by omega
  rw [h3, Nat.add_mod_right, Nat.mod_eq_of_lt (by omega)]

theorem probe_next_le (step mask i : Nat) : probe_next step mask i ≤ mask := by
  unfold probe_next; exact Nat.and_le_right

theorem probe_next_pow2 (step m i : Nat) (hm : m ≤ 32) :
    probe_next step (2 ^ m - 1) i = (i + step) % 2 ^ m := by
  unfold probe_next
  rw [Nat.and_pow_two_sub_one_eq_mod, Nat.mod_mod_of_dvd _ (Nat.pow_dvd_pow 2 hm)]

theorem probe_seq_succ_left (step mask i : Nat) (t : Nat) :
    probe_seq step mask i (t + 1) = probe_seq step mask (probe_next step mask i) t := by
  induction t with
  | zero => rfl
  | succ t ih => rw [probe_seq, ih]; rfl

theorem probe_seq_add (step mask i : Nat) (s t : Nat) :
    probe_seq step mask i (s + t) = probe_seq step mask (probe_seq step mask i s) t := by
  induction t with
  | zero => rfl
  | succ t ih => rw [← Nat.add_assoc, probe_seq, ih]; rfl

theorem probe_seq_le (step mask i : Nat) (hi : i ≤ mask) (t : Nat) :
    probe_seq step mask i t ≤ mask := by
  cases t with
  | zero => exact hi
  | succ t => exact probe_next_le _ _ _

theorem probe_seq_pow2 (step m i : Nat) (hm : m ≤ 32) (hi : i < 2 ^ m) (t : Nat) :
    probe_seq step (2 ^ m - 1) i t = (i + t * step) % 2 ^ m := by
  induction t with
  | zero => simp [probe_seq, Nat.mod_eq_of_lt hi]
  | succ t ih =>
    rw [probe_seq, ih, probe_next_pow2 _ _ _ hm, Nat.add_mod, Nat.mod_mod, ← Nat.add_mod]
    congr 1; ring

theorem probe_seq_cycle (step m i : Nat) (hm : m ≤ 32) (hi : i < 2 ^ m) :
    probe_seq step (2 ^ m - 1) i (2 ^ m) = i := by
  rw [probe_seq_pow2 _ _ _ hm hi, Nat.add_mul_mod_self_left, Nat.mod_eq_of_lt hi]

theorem probe_seq_inj (step m i : Nat) (hm : m ≤ 32) (hi : i < 2 ^ m) (hodd : step % 2 = 1)
    (t1 t2 : Nat) (h1 : t1 < 2 ^ m) (h2 : t2 < 2 ^ m)
    (h : probe_seq step (2 ^ m - 1) i t1 = probe_seq step (2 ^ m - 1) i t2) : t1 = t2 := by
  rw [probe_seq_pow2 _ _ _ hm hi, probe_seq_pow2 _ _ _ hm hi] at h
  have hc : Nat.Coprime (2 ^ m) step := by
    apply Nat.Coprime.pow_left
    rw [Nat.coprime_two_left]
    exact Nat.odd_iff.mpr hodd
  have h3 : t1 * step ≡ t2 * step [MOD 2 ^ m] := Nat.ModEq.add_left_cancel' i h
  have h4 : t1 ≡ t2 [MOD 2 ^ m] := Nat.ModEq.cancel_right_of_coprime hc h3
  exact Nat.ModEq.eq_of_lt_of_lt h4 h1 h2

theorem probe_seq_cover (step m i : Nat) (hm : m ≤ 32) (hi : i < 2 ^ m) (hodd : step % 2 = 1)
    (e : Nat) (he : e < 2 ^ m) : ∃ t, t < 2 ^ m ∧ probe_seq step (2 ^ m - 1) i t = e := by
  have hlt : ∀ t, probe_seq step (2 ^ m - 1) i t < 2 ^ m := by
    intro t
    rw [probe_seq_pow2 _ _ _ hm hi]
    exact Nat.mod_lt _ (Nat.two_pow_pos _)
  let f : Fin (2 ^ m) → Fin (2 ^ m) := fun t => ⟨probe_seq step (2 ^ m - 1) i t.1, hlt t.1⟩
  have hinj : Function.Injective f := by
    intro a b hab
    have : probe_seq step (2 ^ m - 1) i a.1 = probe_seq step (2 ^ m - 1) i b.1 :=
      congrArg Fin.val hab
    exact Fin.ext (probe_seq_inj step m i hm hi hodd a.1 b.1 a.2 b.2 this)
  have hsurj : Function.Surjective f := Finite.surjective_of_injective hinj
  obtain ⟨t, ht⟩ := hsurj ⟨e, he⟩
  exact ⟨t.1, t.2, congrArg Fin.val ht⟩

theorem probe_step_odd (tier : Bool) (k : Nat) : (AH_PROBE_STEP tier k % 2 ^ 32) % 2 = 1 := by
  rw [Nat.mod_mod_of_dvd _ (by norm_num : 2 ∣ 2 ^ 32)]
  unfold AH_PROBE_STEP
  cases tier
  · simp
  · simp [Nat.or_mod_two_eq_one]

/-! ## The lookup loop -/


section Loops

variable {K V : Type} [Inhabited K] [Inhabited V]

theorem get_loop_stop (P : Params K) (h : Table K V) (key : K) (step mask last fuel i : Nat)
    (hc : ¬ probe_cont P h key i) :
    get_loop P h key step mask last (fuel + 1) i =
      some (if AH_ISEMPTY h.flags i ≠ 0 then h.nbucket else i) := by
  unfold probe_cont at hc
  rw [get_loop, if_neg hc]

theorem get_loop_step (P : Params K) (h : Table K V) (key : K) (step mask last fuel i : Nat)
    (hc : probe_cont P h key i) (hne : probe_next step mask i ≠ last) :
    get_loop P h key step mask last (fuel + 1) i =
      get_loop P h key step mask last fuel (probe_next step mask i) := by
  unfold probe_cont at hc
  rw [get_loop, if_pos hc, if_neg hne]

theorem get_loop_wrap (P : Params K) (h : Table K V) (key : K) (step mask last fuel i : Nat)
    (hc : probe_cont P h key i) (hne : probe_next step mask i = last) :
    get_loop P h key step mask last (fuel + 1) i = some h.nbucket := by
  unfold probe_cont at hc
  rw [get_loop, if_pos hc, if_pos hne]

theorem get_loop_walk (P : Params K) (h : Table K V) (key : K) (step mask last : Nat) :
    ∀ (t i fuel : Nat),
      (∀ s, s < t → probe_cont P h key (probe_seq step mask i s) ∧
        probe_seq step mask i (s + 1) ≠ last) →
      get_loop P h key step mask last (fuel + t) i =
        get_loop P h key step mask last fuel (probe_seq step mask i t) := by
  intro t
  induction t with
  | zero => intro i fuel _; rfl
  | succ t ih =>
    intro i fuel hX
    have h0 := hX 0 (Nat.succ_pos t)
    rw [← Nat.add_assoc, get_loop_step P h key step mask last (fuel + t) i h0.1 h0.2,
      probe_seq_succ_left]
    apply ih
    intro s hs
    have := hX (s + 1) (Nat.succ_lt_succ hs)
    rw [probe_seq_succ_left, probe_seq_succ_left] at this
    exact this

theorem get_loop_sound (P : Params K) (h : Table K V) (key : K) (step mask last : Nat) :
    ∀ (fuel i r : Nat), i ≤ mask → get_loop P h key step mask last fuel i = some r →
      r = h.nbucket ∨
        (r ≤ mask ∧ AH_ISEITHER h.flags r = 0 ∧ P.hasheq (h.keys.getD r default) key = true) := by
  intro fuel
  induction fuel with
  | zero => intro i r _ h0; simp [get_loop] at h0
  | succ f ih =>
    intro i r hi hr
    by_cases hc : probe_cont P h key i
    · by_cases hn : probe_next step mask i = last
      · rw [get_loop_wrap P h key step mask last f i hc hn] at hr
        left; exact (Option.some.inj hr).symm
      · rw [get_loop_step P h key step mask last f i hc hn] at hr
        exact ih _ r (probe_next_le _ _ _) hr
    · rw [get_loop_stop P h key step mask last f i hc] at hr
      have hr := Option.some.inj hr
      by_cases he : AH_ISEMPTY h.flags i ≠ 0
      · rw [if_pos he] at hr; left; exact hr.symm
      · rw [if_neg he] at hr
        right
        subst hr
        have he0 : AH_ISEMPTY h.flags i = 0 := not_not.mp he
        unfold probe_cont at hc
        have hd : AH_ISDEL h.flags i = 0 := by
          by_contra hd; exact hc ⟨he0, Or.inl hd⟩
        have hq : P.hasheq (h.keys.getD i default) key = true := by
          cases hq : P.hasheq (h.keys.getD i default) key
          · exact absurd ⟨he0, Or.inr hq⟩ hc
          · rfl
        exact ⟨hi, (iseither_zero _ _).mpr ⟨he0, hd⟩, hq⟩

theorem get_loop_total (P : Params K) (h : Table K V) (key : K) (step m start : Nat)
    (hm : m ≤ 32) (hs : start < 2 ^ m) :
    ∀ (d s : Nat), s + d = 2 ^ m → 1 ≤ d →
      ∃ r, get_loop P h key step (2 ^ m - 1) start d (probe_seq step (2 ^ m - 1) start s) =
        some r := by
  intro d
  induction d with
  | zero => intro s _ h1; omega
  | succ d ih =>
    intro s hsd _
    by_cases hc : probe_cont P h key (probe_seq step (2 ^ m - 1) start s)
    · by_cases hn : probe_next step (2 ^ m - 1) (probe_seq step (2 ^ m - 1) start s) = start
      · exact ⟨_, get_loop_wrap P h key step _ start d _ hc hn⟩
      · rw [get_loop_step P h key step _ start d _ hc hn]
        have hd : 1 ≤ d := by
          rcases Nat.eq_zero_or_pos d with h0 | h0
          · exfalso
            apply hn
            subst h0
            have : probe_seq step (2 ^ m - 1) start (s + 1) = start := by
              rw [hsd]; exact probe_seq_cycle step m start hm hs
            exact this
          · exact h0
        have := ih (s + 1) (by omega) hd
        exact this
    · exact ⟨_, get_loop_stop P h key step _ start d _ hc⟩

/-- Two tables that agree, on the buckets up to `mask`, about where the probe for `key`
continues and about which buckets are empty give the same lookup. -/
theorem get_loop_frame (P : Params K) (h h1 : Table K V) (key : K) (step mask last : Nat)
    (hnb : h1.nbucket = h.nbucket)
    (hag : ∀ i, i ≤ mask → (probe_cont P h1 key i ↔ probe_cont P h key i) ∧
      (AH_ISEMPTY h1.flags i = 0 ↔ AH_ISEMPTY h.flags i = 0)) :
    ∀ (fuel i : Nat), i ≤ mask →
      get_loop P h1 key step mask last fuel i = get_loop P h key step mask last fuel i := by
  intro fuel
  induction fuel with
  | zero => intro i _; rfl
  | succ f ih =>
    intro i hi
    by_cases hc : probe_cont P h key i
    · have hc1 := (hag i hi).1.mpr hc
      by_cases hn : probe_next step mask i = last
      · rw [get_loop_wrap P h key step mask last f i hc hn,
          get_loop_wrap P h1 key step mask last f i hc1 hn, hnb]
      · rw [get_loop_step P h key step mask last f i hc hn,
          get_loop_step P h1 key step mask last f i hc1 hn]
        exact ih _ (probe_next_le _ _ _)
    · have hc1 : ¬ probe_cont P h1 key i := fun hx => hc ((hag i hi).1.mp hx)
      rw [get_loop_stop P h key step mask last f i hc,
        get_loop_stop P h1 key step mask last f i hc1, hnb]
      by_cases he : AH_ISEMPTY h.flags i = 0
      · have he1 := (hag i hi).2.mpr he
        simp [he, he1]
      · have he1 : ¬ AH_ISEMPTY h1.flags i = 0 := fun hx => he ((hag i hi).2.mp hx)
        simp [he, he1]

/-- Filling a bucket that was empty keeps every successful lookup. -/
theorem get_loop_fill (P : Params K) (h h1 : Table K V) (key : K) (step mask last e : Nat)
    (hE : AH_ISEMPTY h.flags e ≠ 0)
    (hag : ∀ i, i ≤ mask → i ≠ e → (probe_cont P h1 key i ↔ probe_cont P h key i) ∧
      (AH_ISEMPTY h1.flags i = 0 ↔ AH_ISEMPTY h.flags i = 0)) :
    ∀ (fuel i r : Nat), i ≤ mask → r ≠ h.nbucket →
      get_loop P h key step mask last fuel i = some r →
      get_loop P h1 key step mask last fuel i = some r := by
  intro fuel
  induction fuel with
  | zero => intro i r _ _ h0; simp [get_loop] at h0
  | succ f ih =>
    intro i r hi hr hg
    by_cases hie : i = e
    · subst hie
      have hc : ¬ probe_cont P h key i := fun hx => hE hx.1
      rw [get_loop_stop P h key step mask last f i hc, if_pos hE] at hg
      exact absurd (Option.some.inj hg).symm hr
    · by_cases hc : probe_cont P h key i
      · have hc1 := (hag i hi hie).1.mpr hc
        by_cases hn : probe_next step mask i = last
        · rw [get_loop_wrap P h key step mask last f i hc hn] at hg
          exact absurd (Option.some.inj hg).symm hr
        · rw [get_loop_step P h key step mask last f i hc hn] at hg
          rw [get_loop_step P h1 key step mask last f i hc1 hn]
          exact ih _ r (probe_next_le _ _ _) hr hg
      · have hc1 : ¬ probe_cont P h1 key i := fun hx => hc ((hag i hi hie).1.mp hx)
        rw [get_loop_stop P h key step mask last f i hc] at hg
        rw [get_loop_stop P h1 key step mask last f i hc1]
        by_cases he : AH_ISEMPTY h.flags i = 0
        · have he1 := (hag i hi hie).2.mpr he
          simp [he] at hg
          subst hg
          simp [he1]
        · simp [he] at hg
          exact absurd hg.symm hr

theorem alignhash_get_eq (P : Params K) (h : Table K V) (key : K) (hnb : h.nbucket ≠ 0) :
    alignhash_get P h key =
      get_loop P h key (probe_step P key) ((h.nbucket + 2 ^ 32 - 1) % 2 ^ 32)
        (probe_start P h.nbucket key) h.nbucket (probe_start P h.nbucket key) := by
  unfold alignhash_get probe_step probe_start
  rw [if_pos hnb]

theorem probe_start_le (P : Params K) (nbucket : Nat) (key : K) :
    probe_start P nbucket key ≤ (nbucket + 2 ^ 32 - 1) % 2 ^ 32 := by
  unfold probe_start; exact Nat.and_le_right

theorem probe_start_lt (P : Params K) (m : Nat) (hm : m < 32) (key : K) :
    probe_start P (2 ^ m) key < 2 ^ m := by
  have := probe_start_le P (2 ^ m) key
  rw [mask_pow2 m hm] at this
  have := Nat.two_pow_pos m
  omega

theorem probe_step_odd2 (P : Params K) (key : K) : probe_step P key % 2 = 1 := by
  unfold probe_step; exact probe_step_odd _ _

end Loops

/-! ## Counting and well-formedness -/

section Counting

variable {K V : Type} [Inhabited K] [Inhabited V]

theorem pow2_pos (n : Nat) (hp : is_pow2 n) : 0 < n ∧ n < 2 ^ 32 := by
  obtain ⟨m, hm, rfl⟩ := hp
  exact ⟨Nat.two_pow_pos m, Nat.pow_lt_pow_right (by norm_num) hm⟩

theorem mask_eq (n : Nat) (h0 : 0 < n) (h1 : n < 2 ^ 32) :
    (n + 2 ^ 32 - 1) % 2 ^ 32 = n - 1 := by
  have h3 : n + 2 ^ 32 - 1 = (n - 1) + 2 ^ 32 := by omega
  rw [h3, Nat.add_mod_right, Nat.mod_eq_of_lt (by omega)]

theorem mask_lt (n : Nat) (h0 : n ≠ 0) : (n + 2 ^ 32 - 1) % 2 ^ 32 < n := by
  by_cases h1 : n < 2 ^ 32
  · rw [mask_eq n (Nat.pos_of_ne_zero h0) h1]; omega
  · have : (n + 2 ^ 32 - 1) % 2 ^ 32 < 2 ^ 32 := Nat.mod_lt _ (by norm_num)
    omega

theorem flags_byte_cover (n i : Nat) (hp : is_pow2 n) (hi : i < n) :
    i / 16 < AH_FLAGS_BYTE n / 4 := by
  obtain ⟨m, hm, rfl⟩ := hp
  unfold AH_FLAGS_BYTE
  by_cases h16 : 2 ^ m < 16
  · rw [if_pos h16]; omega
  · rw [if_neg h16]
    have hm4 : 4 ≤ m := by
      by_contra hlt
      have : 2 ^ m ≤ 2 ^ 3 := Nat.pow_le_pow_right (by norm_num) (by omega)
      omega
    obtain ⟨q, rfl⟩ : ∃ q, m = 4 + q := ⟨m - 4, by omega⟩
    rw [Nat.pow_add] at hi ⊢
    rw [Nat.shiftRight_eq_div_pow]
    norm_num at hi ⊢
    omega

theorem count_upto_le (p : Nat → Bool) (n : Nat) : count_upto p n ≤ n := by
  induction n with
  | zero => simp [count_upto]
  | succ n ih => rw [count_upto]; split <;> omega

theorem count_upto_pos (p : Nat → Bool) (n x : Nat) (hx : x < n) (hp : p x = true) :
    1 ≤ count_upto p n := by
  induction n with
  | zero => omega
  | succ n ih =>
    rw [count_upto]
    by_cases hxn : x = n
    · subst hxn; simp [hp]
    · have := ih (by omega); omega

theorem count_upto_congr (p q : Nat → Bool) (n : Nat) (h : ∀ i, i < n → p i = q i) :
    count_upto p n = count_upto q n := by
  induction n with
  | zero => rfl
  | succ n ih =>
    rw [count_upto, count_upto, ih (fun i hi => h i (by omega)), h n (by omega)]

/-- Changing `p` from false to true at one index below `n` adds one to the count. -/
theorem count_upto_set (p q : Nat → Bool) (n x : Nat) (hx : x < n)
    (hpx : p x = false) (hqx : q x = true) (h : ∀ i, i < n → i ≠ x → p i = q i) :
    count_upto q n = count_upto p n + 1 := by
  induction n with
  | zero => omega
  | succ n ih =>
    rw [count_upto, count_upto]
    by_cases hxn : x = n
    · subst hxn
      rw [count_upto_congr p q x (fun i hi => h i (by omega) (by omega)), hpx, hqx]
      simp
    · rw [ih (by omega) (fun i hi hne => h i (by omega) hne), h n (by omega) (Ne.symm hxn)]
      omega

/-- A count below `n` leaves an index on which `p` fails. -/
theorem count_upto_lt (p : Nat → Bool) (n : Nat) (h : count_upto p n < n) :
    ∃ i, i < n ∧ p i = false := by
  induction n with
  | zero => omega
  | succ n ih =>
    rw [count_upto] at h
    by_cases hp : p n = true
    · rw [if_pos hp] at h
      obtain ⟨i, hi, hpi⟩ := ih (by omega)
      exact ⟨i, by omega, hpi⟩
    · exact ⟨n, by omega, by simpa using hp⟩

theorem count_upto_mono (p q : Nat → Bool) (n : Nat) (h : ∀ i, i < n → p i = true → q i = true) :
    count_upto p n ≤ count_upto q n := by
  induction n with
  | zero => simp [count_upto]
  | succ n ih =>
    rw [count_upto, count_upto]
    have := ih (fun i hi => h i (by omega))
    by_cases hp : p n = true
    · rw [if_pos hp, if_pos (h n (by omega) hp)]; omega
    · rw [if_neg hp]; omega

theorem load_threshold_le (tier : Bool) (n : Nat) : load_threshold tier n ≤ n := by
  unfold load_threshold; cases tier <;> simp <;> omega

theorem wf_flags_cover (P : Params K) (h : Table K V) (hw : WF P h) (i : Nat)
    (hi : i < h.nbucket) : i / 16 < h.flags.length := by
  obtain ⟨hp, hf, _⟩ := hw
  have hne : h.nbucket ≠ 0 := by omega
  rw [hf, if_neg hne]
  rcases hp with hp | hp
  · exact absurd hp hne
  · exact flags_byte_cover _ _ hp hi

theorem alignhash_get_sound (P : Params K) (h : Table K V) (key : K) (r : Nat)
    (hg : alignhash_get P h key = some r) :
    r = h.nbucket ∨ (r < h.nbucket ∧ AH_ISEITHER h.flags r = 0 ∧
      P.hasheq (h.keys.getD r default) key = true) := by
  by_cases hnb : h.nbucket = 0
  · unfold alignhash_get at hg
    simp [hnb] at hg
    left; rw [hnb]; exact hg.symm
  · rw [alignhash_get_eq P h key hnb] at hg
    rcases get_loop_sound P h key _ _ _ _ _ r (probe_start_le P h.nbucket key) hg with h1 | h1
    · left; exact h1
    · right
      exact ⟨Nat.lt_of_le_of_lt h1.1 (mask_lt _ hnb), h1.2⟩

theorem alignhash_get_total (P : Params K) (h : Table K V) (key : K)
    (hp : h.nbucket = 0 ∨ is_pow2 h.nbucket) : ∃ r, alignhash_get P h key = some r := by
  by_cases hnb : h.nbucket = 0
  · exact ⟨0, by unfold alignhash_get; simp [hnb]⟩
  · rcases hp with hp | hp
    · exact absurd hp hnb
    · obtain ⟨m, hm, hm2⟩ := hp
      rw [alignhash_get_eq P h key hnb, hm2, mask_pow2 m hm]
      have := get_loop_total P h key (probe_step P key) m (probe_start P (2 ^ m) key)
        (by omega) (probe_start_lt P m hm key) (2 ^ m) 0 (by omega) (Nat.two_pow_pos m)
      simpa [probe_seq] using this

end Counting

section Counters

variable {K V : Type} [Inhabited K] [Inhabited V]

theorem ex_params_lawful : lawful_eq ex_params := by
  intro a b; simp [ex_params]

theorem ex_params_tier_lawful : lawful_eq ex_params_tier := by
  intro a b; simp [ex_params_tier]

theorem wf_size_lt (P : Params K) (h : Table K V) (hw : WF P h) :
    h.nbucket < 2 ^ 32 ∧ h.size ≤ h.nused ∧ h.nused ≤ h.nbucket := by
  obtain ⟨hp, _, _, _, hs, hu, _, _⟩ := hw
  refine ⟨?_, ?_, ?_⟩
  · rcases hp with hp | hp
    · rw [hp]; norm_num
    · exact (pow2_pos _ hp).2
  · rw [hs, hu]
    apply count_upto_mono
    intro i _ hi
    simp only [decide_eq_true_eq] at hi ⊢
    exact ((iseither_zero _ _).mp hi).1
  · rw [hu]; exact count_upto_le _ _

theorem wf_table_ok (P : Params K) (h : Table K V) (hw : WF P h) : table_ok h := by
  have h1 := wf_size_lt P h hw
  refine ⟨h1.1, ?_, hw.2.2.2.2.1⟩
  by_cases hnb : h.nbucket = 0
  · omega
  · have := wf_flags_cover P h hw (h.nbucket - 1) (by omega)
    omega

theorem del_flags (h : Table K V) (x : Nat) (hx : x ≠ h.nbucket)
    (ho : AH_ISEITHER h.flags x = 0) :
    alignhash_del h x =
      { h with flags := AH_SET_DEL h.flags x, size := (h.size + 2 ^ 32 - 1) % 2 ^ 32 } := by
  unfold alignhash_del
  rw [if_pos ⟨hx, ho⟩]

theorem wf_probe (P : Params K) (h : Table K V) (hw : WF P h) (i : Nat) (hi : i < h.nbucket)
    (ho : AH_ISEITHER h.flags i = 0) :
    alignhash_get P h (h.keys.getD i default) = some i :=
  hw.2.2.2.2.2.2.2 i hi ho

theorem sub_one_mod (n : Nat) (h1 : 1 ≤ n) (h2 : n < 2 ^ 32) :
    (n + 2 ^ 32 - 1) % 2 ^ 32 + 1 = n := by
  have h3 : n + 2 ^ 32 - 1 = (n - 1) + 2 ^ 32 := by omega
  rw [h3, Nat.add_mod_right, Nat.mod_eq_of_lt (by omega)]; omega

end Counters

/-! ## The insertion loop -/

section SetLoop

variable {K V : Type} [Inhabited K] [Inhabited V]

theorem set_probe_stop (P : Params K) (h : Table K V) (key : K)
    (step mask last fuel i site : Nat) (hc : ¬ probe_cont P h key i) :
    set_probe P h key step mask last (fuel + 1) i site = some (i, site, h.nbucket) := by
  unfold probe_cont at hc
  rw [set_probe, if_neg hc]

theorem set_probe_step (P : Params K) (h : Table K V) (key : K)
    (step mask last fuel i site : Nat) (hc : probe_cont P h key i)
    (hne : probe_next step mask i ≠ last) :
    set_probe P h key step mask last (fuel + 1) i site =
      set_probe P h key step mask last fuel (probe_next step mask i)
        (if AH_ISDEL h.flags i ≠ 0 then i else site) := by
  unfold probe_cont at hc
  rw [set_probe, if_pos hc]
  simp only [if_neg hne]

theorem set_probe_walk (P : Params K) (h : Table K V) (key : K) (step mask last i site : Nat) :
    ∀ (t fuel : Nat),
      (∀ s, s < t → probe_cont P h key (probe_seq step mask i s) ∧
        probe_seq step mask i (s + 1) ≠ last) →
      set_probe P h key step mask last (fuel + t) i site =
        set_probe P h key step mask last fuel (probe_seq step mask i t)
          (site_seq h step mask i site t) := by
  intro t
  induction t with
  | zero => intro fuel _; rfl
  | succ t ih =>
    intro fuel hX
    have h0 := hX t (Nat.lt_succ_self t)
    have := ih (fuel + 1) (fun s hs => hX s (Nat.lt_succ_of_lt hs))
    rw [show fuel + (t + 1) = fuel + 1 + t by omega, this,
      set_probe_step P h key step mask last fuel _ _ h0.1 h0.2]
    rfl

theorem site_seq_cases (h : Table K V) (step mask start site0 : Nat) (t : Nat) :
    site_seq h step mask start site0 t = site0 ∨
      ∃ s, s < t ∧ site_seq h step mask start site0 t = probe_seq step mask start s ∧
        AH_ISDEL h.flags (probe_seq step mask start s) ≠ 0 := by
  induction t with
  | zero => left; rfl
  | succ t ih =>
    rw [site_seq]
    by_cases hd : AH_ISDEL h.flags (probe_seq step mask start t) ≠ 0
    · rw [if_pos hd]; right; exact ⟨t, Nat.lt_succ_self t, rfl, hd⟩
    · rw [if_neg hd]
      rcases ih with ih | ⟨s, hs, h1, h2⟩
      · left; exact ih
      · right; exact ⟨s, Nat.lt_succ_of_lt hs, h1, h2⟩

theorem site_seq_ne (h : Table K V) (step mask start site0 : Nat) (t : Nat)
    (hlt : ∀ s, probe_seq step mask start s ≠ site0)
    (hex : ∃ s, s < t ∧ AH_ISDEL h.flags (probe_seq step mask start s) ≠ 0) :
    site_seq h step mask start site0 t ≠ site0 := by
  induction t with
  | zero => obtain ⟨s, hs, _⟩ := hex; omega
  | succ t ih =>
    rw [site_seq]
    by_cases hd : AH_ISDEL h.flags (probe_seq step mask start t) ≠ 0
    · rw [if_pos hd]; exact hlt t
    · rw [if_neg hd]
      apply ih
      obtain ⟨s, hs, h2⟩ := hex
      have : s ≠ t := by intro hst; rw [hst] at h2; exact hd h2
      exact ⟨s, by omega, h2⟩

/-- The first bucket of the probe path at which the loop condition fails, in a table with
a power-of-two bucket count and an empty bucket. -/
theorem first_stop (P : Params K) (h : Table K V) (key : K) (m : Nat) (hm : m < 32)
    (hnb : h.nbucket = 2 ^ m) (hE : ∃ e, e < h.nbucket ∧ AH_ISEMPTY h.flags e ≠ 0) :
    ∃ t0, t0 < 2 ^ m ∧
      ¬ probe_cont P h key
        (probe_seq (probe_step P key) (2 ^ m - 1) (probe_start P (2 ^ m) key) t0) ∧
      (∀ s, s < t0 → probe_cont P h key
        (probe_seq (probe_step P key) (2 ^ m - 1) (probe_start P (2 ^ m) key) s)) ∧
      (∀ s, s < t0 →
        probe_seq (probe_step P key) (2 ^ m - 1) (probe_start P (2 ^ m) key) (s + 1) ≠
          probe_start P (2 ^ m) key) := by
  obtain ⟨e, he, hee⟩ := hE
  rw [hnb] at he
  obtain ⟨t, ht, hte⟩ := probe_seq_cover (probe_step P key) m (probe_start P (2 ^ m) key)
    (by omega) (probe_start_lt P m hm key) (probe_step_odd2 P key) e he
  have hex : ∃ t, ¬ probe_cont P h key
      (probe_seq (probe_step P key) (2 ^ m - 1) (probe_start P (2 ^ m) key) t) :=
    ⟨t, by rw [hte]; exact fun hc => hee hc.1⟩
  classical
  refine ⟨Nat.find hex, ?_, Nat.find_spec hex, ?_, ?_⟩
  · have : Nat.find hex ≤ t := Nat.find_min' hex (by rw [hte]; exact fun hc => hee hc.1)
    omega
  · intro s hs
    exact not_not.mp (Nat.find_min hex hs)
  · intro s hs heq
    have hle : Nat.find hex ≤ t := Nat.find_min' hex (by rw [hte]; exact fun hc => hee hc.1)
    have := probe_seq_inj (probe_step P key) m (probe_start P (2 ^ m) key) (by omega)
      (probe_start_lt P m hm key) (probe_step_odd2 P key) (s + 1) 0 (by omega)
      (Nat.two_pow_pos m) heq
    omega

theorem probe_seq_lt (P : Params K) (m : Nat) (hm : m < 32) (key : K) (s : Nat) :
    probe_seq (probe_step P key) (2 ^ m - 1) (probe_start P (2 ^ m) key) s < 2 ^ m := by
  have h1 := probe_start_lt P m hm key
  have := probe_seq_le (probe_step P key) (2 ^ m - 1) (probe_start P (2 ^ m) key) (by omega) s
  omega

end SetLoop

/-! ## The chosen bucket -/

section SetTarget

variable {K V : Type} [Inhabited K] [Inhabited V]

theorem probe_seq_ne_start (P : Params K) (m : Nat) (hm : m < 32) (key : K) (s : Nat)
    (hs : s + 1 < 2 ^ m) :
    probe_seq (probe_step P key) (2 ^ m - 1) (probe_start P (2 ^ m) key) (s + 1) ≠
      probe_start P (2 ^ m) key := by
  intro heq
  have := probe_seq_inj (probe_step P key) m (probe_start P (2 ^ m) key) (by omega)
    (probe_start_lt P m hm key) (probe_step_odd2 P key) (s + 1) 0 hs
    (Nat.two_pow_pos m) heq
  omega

/-- The lookup stops at the first bucket of the probe path where the loop condition
fails. -/
theorem get_found (P : Params K) (h : Table K V) (key : K) (m : Nat) (hm : m < 32)
    (hnb : h.nbucket = 2 ^ m) (t0 : Nat) (ht0 : t0 < 2 ^ m)
    (hc : ∀ s, s < t0 → probe_cont P h key
      (probe_seq (probe_step P key) (2 ^ m - 1) (probe_start P (2 ^ m) key) s))
    (hstop : ¬ probe_cont P h key
      (probe_seq (probe_step P key) (2 ^ m - 1) (probe_start P (2 ^ m) key) t0)) :
    alignhash_get P h key =
      some (if AH_ISEMPTY h.flags
          (probe_seq (probe_step P key) (2 ^ m - 1) (probe_start P (2 ^ m) key) t0) ≠ 0
        then h.nbucket
        else probe_seq (probe_step P key) (2 ^ m - 1) (probe_start P (2 ^ m) key) t0) := by
  have hne : h.nbucket ≠ 0 := by rw [hnb]; exact Nat.pos_iff_ne_zero.mp (Nat.two_pow_pos m)
  rw [alignhash_get_eq P h key hne, hnb, mask_pow2 m hm]
  obtain ⟨f, hf⟩ : ∃ f, 2 ^ m = (f + 1) + t0 := ⟨2 ^ m - t0 - 1, by omega⟩
  have hw := get_loop_walk P h key (probe_step P key) (2 ^ m - 1) (probe_start P (2 ^ m) key)
    t0 (probe_start P (2 ^ m) key) (f + 1)
    (fun s hs => ⟨hc s hs, probe_seq_ne_start P m hm key s (by omega)⟩)
  rw [← hf] at hw
  rw [hw, get_loop_stop P h key _ _ _ f _ hstop, hnb]

/-- The bucket chosen by `alignhash_set` in terms of the first stop of the probe path. -/
theorem set_target_eq (P : Params K) (h : Table K V) (key : K) (m : Nat) (hm : m < 32)
    (hnb : h.nbucket = 2 ^ m) (t0 : Nat) (ht0 : t0 < 2 ^ m)
    (hc : ∀ s, s < t0 → probe_cont P h key
      (probe_seq (probe_step P key) (2 ^ m - 1) (probe_start P (2 ^ m) key) s))
    (hstop : ¬ probe_cont P h key
      (probe_seq (probe_step P key) (2 ^ m - 1) (probe_start P (2 ^ m) key) t0)) :
    set_target P h key =
      some (if AH_ISEMPTY h.flags
            (probe_seq (probe_step P key) (2 ^ m - 1) (probe_start P (2 ^ m) key) t0) ≠ 0 ∧
          site_seq h (probe_step P key) (2 ^ m - 1) (probe_start P (2 ^ m) key) (2 ^ m) t0 ≠
            2 ^ m
        then site_seq h (probe_step P key) (2 ^ m - 1) (probe_start P (2 ^ m) key) (2 ^ m) t0
        else probe_seq (probe_step P key) (2 ^ m - 1) (probe_start P (2 ^ m) key) t0) := by
  have hmask : (h.nbucket + 2 ^ 32 - 1) % 2 ^ 32 = 2 ^ m - 1 := by rw [hnb, mask_pow2 m hm]
  have hst : (P.hashfn key % 2 ^ 32) &&& (2 ^ m - 1) = probe_start P (2 ^ m) key := by
    unfold probe_start; rw [mask_pow2 m hm]
  have hsp : AH_PROBE_STEP P.tier (P.hashfn key % 2 ^ 32) % 2 ^ 32 = probe_step P key := rfl
  unfold set_target
  simp only [hmask, hst, hsp]
  by_cases he : AH_ISEMPTY h.flags (probe_start P (2 ^ m) key) ≠ 0
  · rw [if_pos he]
    have ht : t0 = 0 := by
      by_contra hne
      have := hc 0 (Nat.pos_of_ne_zero hne)
      exact he this.1
    subst ht
    simp [probe_seq, site_seq]
  · rw [if_neg he]
    obtain ⟨f, hf⟩ : ∃ f, 2 ^ m = (f + 1) + t0 := ⟨2 ^ m - t0 - 1, by omega⟩
    have hw := set_probe_walk P h key (probe_step P key) (2 ^ m - 1)
      (probe_start P (2 ^ m) key) (probe_start P (2 ^ m) key) (2 ^ m) t0 (f + 1)
      (fun s hs => ⟨hc s hs, probe_seq_ne_start P m hm key s (by omega)⟩)
    rw [← hf] at hw
    rw [hnb, hw, set_probe_stop P h key _ _ _ f _ _ hstop]
    simp only [hnb, if_true]
    split <;> rfl

end SetTarget

/-! ## The store -/

section Put

variable {K V : Type} [Inhabited K] [Inhabited V]

theorem put_cont_ne (P : Params K) (h : Table K V) (key k : K) (x sz nu j : Nat)
    (hj : j ≠ x) :
    (probe_cont P (put h key x sz nu) k j ↔ probe_cont P h k j) ∧
      (AH_ISEMPTY (put h key x sz nu).flags j = 0 ↔ AH_ISEMPTY h.flags j = 0) := by
  unfold probe_cont put
  simp only
  rw [isempty_clear_both_ne _ _ _ hj, isdel_clear_both_ne _ _ _ hj,
    getD_set_ne _ _ _ _ _ (Ne.symm hj)]
  exact ⟨Iff.rfl, Iff.rfl⟩

theorem put_iseither_ne (h : Table K V) (key : K) (x sz nu j : Nat) (hj : j ≠ x) :
    AH_ISEITHER (put h key x sz nu).flags j = AH_ISEITHER h.flags j := by
  unfold put
  simp only
  rw [iseither_eq, iseither_eq, isempty_clear_both_ne _ _ _ hj, isdel_clear_both_ne _ _ _ hj]

theorem put_at (h : Table K V) (key : K) (x sz nu : Nat) (hx : x / 16 < h.flags.length)
    (hk : x < h.keys.length) :
    AH_ISEMPTY (put h key x sz nu).flags x = 0 ∧ AH_ISDEL (put h key x sz nu).flags x = 0 ∧
      AH_ISEITHER (put h key x sz nu).flags x = 0 ∧
      (put h key x sz nu).keys.getD x default = key := by
  unfold put
  simp only
  have h1 := isempty_clear_both_eq h.flags x hx
  have h2 := isdel_clear_both_eq h.flags x hx
  exact ⟨h1, h2, (iseither_zero _ _).mpr ⟨h1, h2⟩, getD_set_eq _ _ _ _ hk⟩

/-- After the store at a bucket of the probe path of `key` that is reached before the
first stop, the lookup of `key` returns that bucket. -/
theorem put_get (P : Params K) (h : Table K V) (key : K) (hl : lawful_eq P) (m : Nat)
    (hm : m < 32) (hnb : h.nbucket = 2 ^ m) (sz nu : Nat) (t0 sx : Nat) (ht0 : t0 < 2 ^ m)
    (hsx : sx ≤ t0)
    (hc : ∀ s, s < t0 → probe_cont P h key
      (probe_seq (probe_step P key) (2 ^ m - 1) (probe_start P (2 ^ m) key) s))
    (hx : probe_seq (probe_step P key) (2 ^ m - 1) (probe_start P (2 ^ m) key) sx / 16 <
      h.flags.length)
    (hk : probe_seq (probe_step P key) (2 ^ m - 1) (probe_start P (2 ^ m) key) sx <
      h.keys.length) :
    alignhash_get P
      (put h key (probe_seq (probe_step P key) (2 ^ m - 1) (probe_start P (2 ^ m) key) sx)
        sz nu) key =
      some (probe_seq (probe_step P key) (2 ^ m - 1) (probe_start P (2 ^ m) key) sx) := by
  generalize hxd : probe_seq (probe_step P key) (2 ^ m - 1) (probe_start P (2 ^ m) key) sx = x
    at hx hk ⊢
  have hex : ∃ s, probe_seq (probe_step P key) (2 ^ m - 1) (probe_start P (2 ^ m) key) s = x :=
    ⟨sx, hxd⟩
  classical
  have hs1 := Nat.find_spec hex
  have hle : Nat.find hex ≤ sx := Nat.find_min' hex hxd
  have hat := put_at h key x sz nu hx hk
  have hstop : ¬ probe_cont P (put h key x sz nu) key
      (probe_seq (probe_step P key) (2 ^ m - 1) (probe_start P (2 ^ m) key) (Nat.find hex)) := by
    rw [hs1]
    rintro ⟨_, h2 | h2⟩
    · exact h2 hat.2.1
    · rw [hat.2.2.2, (hl key key).mpr rfl] at h2
      exact Bool.noConfusion h2
  have hg := get_found P (put h key x sz nu) key m hm hnb (Nat.find hex) (by omega)
    (fun s hs => by
      have hne : probe_seq (probe_step P key) (2 ^ m - 1) (probe_start P (2 ^ m) key) s ≠ x :=
        Nat.find_min hex hs
      exact (put_cont_ne P h key key x sz nu _ hne).1.mpr (hc s (by omega)))
    hstop
  rw [hg, hs1, if_neg]
  simp [hat.1]

end Put

/-! ## The store keeps the table well formed -/

section PutWF

variable {K V : Type} [Inhabited K] [Inhabited V]

theorem put_wf (P : Params K) (h : Table K V) (key : K) (hl : lawful_eq P) (hw : WF P h)
    (x sz nu : Nat) (hx : x < h.nbucket) (hnocc : AH_ISEITHER h.flags x ≠ 0)
    (habs : ¬ present P h key)
    (hget : alignhash_get P (put h key x sz nu) key = some x)
    (hsz : sz = h.size + 1)
    (hnu : (AH_ISEMPTY h.flags x ≠ 0 ∧ nu = h.nused + 1) ∨
      (AH_ISEMPTY h.flags x = 0 ∧ nu = h.nused)) :
    WF P (put h key x sz nu) := by
  have hcov := wf_flags_cover P h hw x hx
  have hkl : x < h.keys.length := by rw [hw.2.2.1]; exact hx
  have hat := put_at h key x sz nu hcov hkl
  have hnb0 : h.nbucket ≠ 0 := by omega
  obtain ⟨hp, hfl, hkeys, hvals, hsize, hnused, hsup, hprobe⟩ := hw
  refine ⟨hp, ?_, ?_, hvals, ?_, ?_, hsup, ?_⟩
  · show (AH_CLEAR_BOTH h.flags x).length = _
    rw [length_clear_both]; exact hfl
  · show (h.keys.set x key).length = _
    rw [List.length_set]; exact hkeys
  · show sz = count_upto (fun i => decide (AH_ISEITHER (AH_CLEAR_BOTH h.flags x) i = 0)) h.nbucket
    rw [hsz, hsize]
    symm
    apply count_upto_set _ _ _ x hx
    · simpa using hnocc
    · simpa using hat.2.2.1
    · intro i _ hi
      have := put_iseither_ne h key x sz nu i hi
      simp only [put] at this
      rw [this]
  · show nu = count_upto (fun i => decide (AH_ISEMPTY (AH_CLEAR_BOTH h.flags x) i = 0)) h.nbucket
    have h1 : AH_ISEMPTY (AH_CLEAR_BOTH h.flags x) x = 0 := hat.1
    rcases hnu with ⟨he, hnu⟩ | ⟨he, hnu⟩
    · rw [hnu, hnused]
      symm
      apply count_upto_set _ _ _ x hx
      · simpa using he
      · simpa using h1
      · intro i _ hi
        rw [isempty_clear_both_ne _ _ _ hi]
    · rw [hnu, hnused]
      apply count_upto_congr
      intro i _
      by_cases hi : i = x
      · subst hi; simp [he, h1]
      · rw [isempty_clear_both_ne _ _ _ hi]
  · intro i hi ho
    have hi : i < h.nbucket := hi
    by_cases hix : i = x
    · subst hix
      rw [hat.2.2.2]; exact hget
    · have ho1 : AH_ISEITHER h.flags i = 0 := by
        rw [← put_iseither_ne h key x sz nu i hix]; exact ho
      have hk1 : (put h key x sz nu).keys.getD i default = h.keys.getD i default :=
        getD_set_ne _ _ _ _ _ (Ne.symm hix)
      rw [hk1]
      have hg := hprobe i hi ho1
      rw [alignhash_get_eq P h _ hnb0] at hg
      rw [alignhash_get_eq P (put h key x sz nu) _ hnb0]
      show get_loop P (put h key x sz nu) _ _ _ _ h.nbucket _ = some i
      by_cases he : AH_ISEMPTY h.flags x = 0
      · have hfr := get_loop_frame P h (put h key x sz nu) (h.keys.getD i default)
          (probe_step P (h.keys.getD i default)) ((h.nbucket + 2 ^ 32 - 1) % 2 ^ 32)
          (probe_start P h.nbucket (h.keys.getD i default)) rfl
          (fun j _ => by
            by_cases hj : j = x
            · subst hj
              have hd : AH_ISDEL h.flags j ≠ 0 := by
                intro hd; exact hnocc ((iseither_zero _ _).mpr ⟨he, hd⟩)
              have hq : P.hasheq key (h.keys.getD i default) = false := by
                cases hq : P.hasheq key (h.keys.getD i default)
                · rfl
                · exfalso
                  apply habs
                  refine ⟨i, hi, ho1, ?_⟩
                  rw [← (hl _ _).mp hq]; exact (hl _ _).mpr rfl
              refine ⟨⟨fun _ => ⟨he, Or.inl hd⟩, fun _ => ⟨hat.1, Or.inr ?_⟩⟩, ?_⟩
              · rw [hat.2.2.2]; exact hq
              · simp [he, hat.1]
            · exact put_cont_ne P h key _ x sz nu j hj)
          h.nbucket (probe_start P h.nbucket (h.keys.getD i default))
          (probe_start_le P _ _)
        exact hfr.trans hg
      · exact get_loop_fill P h (put h key x sz nu) (h.keys.getD i default) _ _ _ x he
          (fun j _ hj => put_cont_ne P h key _ x sz nu j hj) h.nbucket _ i
          (probe_start_le P _ _) (by omega) hg

end PutWF

/-! ## The bucket chosen by set -/

section SetInsert

variable {K V : Type} [Inhabited K] [Inhabited V]

theorem set_store_err (h : Table K V) (key : K) (x : Nat) (ho : AH_ISEITHER h.flags x = 0) :
    set_store h key x = (h, AH_INS_ERR) := by
  have h1 := (iseither_zero _ _).mp ho
  unfold set_store
  simp [h1.1, h1.2]

theorem set_store_new (h : Table K V) (key : K) (x : Nat) (he : AH_ISEMPTY h.flags x ≠ 0) :
    set_store h key x =
      (put h key x ((h.size + 1) % 2 ^ 32) ((h.nused + 1) % 2 ^ 32), AH_INS_NEW) := by
  unfold set_store put
  rw [if_pos he]

theorem set_store_del (h : Table K V) (key : K) (x : Nat) (he : AH_ISEMPTY h.flags x = 0)
    (hd : AH_ISDEL h.flags x ≠ 0) :
    set_store h key x = (put h key x ((h.size + 1) % 2 ^ 32) h.nused, AH_INS_DEL) := by
  unfold set_store put
  rw [if_neg (by simp [he]), if_pos hd]

theorem wf_exists_empty (P : Params K) (h : Table K V) (hw : WF P h)
    (hslack : h.nused < h.nbucket) : ∃ e, e < h.nbucket ∧ AH_ISEMPTY h.flags e ≠ 0 := by
  have hu := hw.2.2.2.2.2.1
  rw [hu] at hslack
  obtain ⟨i, hi, hp⟩ := count_upto_lt _ _ hslack
  exact ⟨i, hi, by simpa using hp⟩

/-- The bucket chosen by `alignhash_set` on a well-formed table with an empty bucket:
the bucket holding the key, or else the first empty bucket of the probe path when no
deleted bucket precedes it, or else a deleted bucket of the path. -/
theorem set_target_spec (P : Params K) (h : Table K V) (key : K) (hl : lawful_eq P)
    (hw : WF P h) (hslack : h.nused < h.nbucket) :
    ∃ x, set_target P h key = some x ∧ x < h.nbucket ∧
      ((present P h key ∧ AH_ISEITHER h.flags x = 0 ∧ alignhash_get P h key = some x ∧
          h.keys.getD x default = key) ∨
        (¬ present P h key ∧ AH_ISEMPTY h.flags x ≠ 0 ∧ ¬ tomb_before P h key ∧
          WF P (put h key x (h.size + 1) (h.nused + 1)) ∧
          alignhash_get P (put h key x (h.size + 1) (h.nused + 1)) key = some x) ∨
        (¬ present P h key ∧ AH_ISEMPTY h.flags x = 0 ∧ AH_ISDEL h.flags x ≠ 0 ∧
          tomb_before P h key ∧
          WF P (put h key x (h.size + 1) h.nused) ∧
          alignhash_get P (put h key x (h.size + 1) h.nused) key = some x)) := by
  have hnb0 : h.nbucket ≠ 0 := by omega
  obtain ⟨m, hm, hnb⟩ : is_pow2 h.nbucket := by
    rcases hw.1 with h0 | h0
    · exact absurd h0 hnb0
    · exact h0
  obtain ⟨t0, ht0, hstop, hc, _⟩ := first_stop P h key m hm hnb (wf_exists_empty P h hw hslack)
  have hlt := probe_seq_lt P m hm key
  have htg := set_target_eq P h key m hm hnb t0 ht0 hc hstop
  have hgf := get_found P h key m hm hnb t0 ht0 hc hstop
  have htb : tomb_before P h key ↔
      ∃ t, AH_ISDEL h.flags (probe_seq (probe_step P key) (2 ^ m - 1)
          (probe_start P (2 ^ m) key) t) ≠ 0 ∧
        ∀ s, s ≤ t → AH_ISEMPTY h.flags (probe_seq (probe_step P key) (2 ^ m - 1)
          (probe_start P (2 ^ m) key) s) = 0 := by
    unfold tomb_before
    rw [hnb, mask_pow2 m hm]
  by_cases he : AH_ISEMPTY h.flags
      (probe_seq (probe_step P key) (2 ^ m - 1) (probe_start P (2 ^ m) key) t0) = 0
  · -- the probe stopped at an occupied bucket holding the key
    have hd : AH_ISDEL h.flags
        (probe_seq (probe_step P key) (2 ^ m - 1) (probe_start P (2 ^ m) key) t0) = 0 := by
      by_contra hd; exact hstop ⟨he, Or.inl hd⟩
    have hq : P.hasheq (h.keys.getD
        (probe_seq (probe_step P key) (2 ^ m - 1) (probe_start P (2 ^ m) key) t0) default)
        key = true := by
      cases hq : P.hasheq (h.keys.getD
        (probe_seq (probe_step P key) (2 ^ m - 1) (probe_start P (2 ^ m) key) t0) default) key
      · exact absurd ⟨he, Or.inr hq⟩ hstop
      · rfl
    have ho := (iseither_zero _ _).mpr ⟨he, hd⟩
    refine ⟨_, htg, ?_, Or.inl ⟨?_, ?_, ?_, ?_⟩⟩
    · simp only [he, ne_eq, not_true_eq_false, false_and, if_false]
      rw [hnb]; exact hlt t0
    · exact ⟨_, by rw [hnb]; exact hlt t0, ho, hq⟩
    · simpa [he] using ho
    · rw [hgf]; simp [he]
    · simp only [he, ne_eq, not_true_eq_false, false_and, if_false]
      exact (hl _ _).mp hq
  · -- the probe stopped at an empty bucket: the key is absent
    have habs : ¬ present P h key := by
      rintro ⟨i, hi, ho, hq⟩
      have := wf_probe P h hw i hi ho
      rw [(hl _ _).mp hq, hgf, if_pos he] at this
      have := Option.some.inj this
      omega
    have hsz : h.size ≤ h.nused := (wf_size_lt P h hw).2.1
    by_cases hs : site_seq h (probe_step P key) (2 ^ m - 1) (probe_start P (2 ^ m) key)
        (2 ^ m) t0 = 2 ^ m
    · -- no deleted bucket on the way: the empty bucket is taken
      have hx : probe_seq (probe_step P key) (2 ^ m - 1) (probe_start P (2 ^ m) key) t0 <
          h.nbucket := by rw [hnb]; exact hlt t0
      have hget := put_get P h key hl m hm hnb (h.size + 1) (h.nused + 1) t0 t0 ht0
        (Nat.le_refl _) hc (wf_flags_cover P h hw _ hx) (by rw [hw.2.2.1]; exact hx)
      refine ⟨_, htg, ?_, Or.inr (Or.inl ⟨habs, ?_, ?_, ?_, ?_⟩)⟩
      · simp only [hs, ne_eq, not_true_eq_false, and_false, if_false]; exact hx
      · simpa [hs] using he
      · rw [htb]
        rintro ⟨t, htd, hte⟩
        have htlt : t < t0 := by
          by_contra hge
          exact he (hte t0 (by omega))
        exact site_seq_ne h _ _ _ _ t0 (fun s => Nat.ne_of_lt (hlt s)) ⟨t, htlt, htd⟩ hs
      · simp only [hs, ne_eq, not_true_eq_false, and_false, if_false]
        refine put_wf P h key hl hw _ _ _ hx ?_ habs hget rfl (Or.inl ⟨he, rfl⟩)
        intro ho; exact he ((iseither_zero _ _).mp ho).1
      · simp only [hs, ne_eq, not_true_eq_false, and_false, if_false]
        exact hget
    · -- a deleted bucket of the path is reused
      rcases site_seq_cases h (probe_step P key) (2 ^ m - 1) (probe_start P (2 ^ m) key)
        (2 ^ m) t0 with hs0 | ⟨s0, hs0, hse, hsd⟩
      · exact absurd hs0 hs
      · have hx : probe_seq (probe_step P key) (2 ^ m - 1) (probe_start P (2 ^ m) key) s0 <
            h.nbucket := by rw [hnb]; exact hlt s0
        have hget := put_get P h key hl m hm hnb (h.size + 1) h.nused t0 s0 ht0
          (Nat.le_of_lt hs0) hc (wf_flags_cover P h hw _ hx) (by rw [hw.2.2.1]; exact hx)
        have hne := (hc s0 hs0).1
        have hif : (if AH_ISEMPTY h.flags (probe_seq (probe_step P key) (2 ^ m - 1)
              (probe_start P (2 ^ m) key) t0) ≠ 0 ∧
            site_seq h (probe_step P key) (2 ^ m - 1) (probe_start P (2 ^ m) key)
              (2 ^ m) t0 ≠ 2 ^ m
          then site_seq h (probe_step P key) (2 ^ m - 1) (probe_start P (2 ^ m) key) (2 ^ m) t0
          else probe_seq (probe_step P key) (2 ^ m - 1) (probe_start P (2 ^ m) key) t0) =
            probe_seq (probe_step P key) (2 ^ m - 1) (probe_start P (2 ^ m) key) s0 := by
          rw [if_pos ⟨he, hs⟩, hse]
        rw [hif] at htg
        refine ⟨_, htg, hx, Or.inr (Or.inr ⟨habs, hne, hsd, ?_, ?_, hget⟩)⟩
        · rw [htb]
          exact ⟨s0, hsd, fun s hs1 => (hc s (by omega)).1⟩
        · refine put_wf P h key hl hw _ _ _ hx ?_ habs hget rfl (Or.inr ⟨hne, rfl⟩)
          intro ho; exact hsd ((iseither_zero _ _).mp ho).2

end SetInsert

/-! ## The insertion after the growth check -/

section SetInsertSpec

variable {K V : Type} [Inhabited K] [Inhabited V]

theorem add_one_mod (n b : Nat) (h1 : n < b) (h2 : b < 2 ^ 32) : (n + 1) % 2 ^ 32 = n + 1 :=
  Nat.mod_eq_of_lt (by omega)

/-- Lines 251-291 on a well-formed table with an empty bucket: the call returns an
occupied bucket holding the key at which the key is then found, the table stays well
formed, and the outcome and the counters follow the three cases. -/
theorem set_insert_spec (P : Params K) (h : Table K V) (key : K) (hl : lawful_eq P)
    (hw : WF P h) (hslack : h.nused < h.nbucket) :
    ∃ h1 x r, set_insert P h key = some (h1, x, some r) ∧ WF P h1 ∧
      h1.nbucket = h.nbucket ∧ h1.sup = h.sup ∧ x < h1.nbucket ∧
      AH_ISEITHER h1.flags x = 0 ∧ h1.keys.getD x default = key ∧
      alignhash_get P h1 key = some x ∧
      ((present P h key ∧ r = AH_INS_ERR ∧ h1 = h) ∨
        (¬ present P h key ∧ AH_ISEMPTY h.flags x ≠ 0 ∧ r = AH_INS_NEW ∧
          h1 = put h key x (h.size + 1) (h.nused + 1) ∧ ¬ tomb_before P h key) ∨
        (¬ present P h key ∧ AH_ISEMPTY h.flags x = 0 ∧ AH_ISDEL h.flags x ≠ 0 ∧
          r = AH_INS_DEL ∧ h1 = put h key x (h.size + 1) h.nused ∧ tomb_before P h key)) := by
  obtain ⟨x, htg, hx, hcase⟩ := set_target_spec P h key hl hw hslack
  have hb := wf_size_lt P h hw
  have hcov := wf_flags_cover P h hw x hx
  have hkl : x < h.keys.length := by rw [hw.2.2.1]; exact hx
  have hsi : set_insert P h key =
      some ((set_store h key x).1, x, some (set_store h key x).2) := by
    unfold set_insert; rw [htg]
  rw [hsi]
  rcases hcase with ⟨hp, ho, hg, hk⟩ | ⟨hp, he, htb, hwf, hg⟩ | ⟨hp, he, hd, htb, hwf, hg⟩
  · rw [set_store_err h key x ho]
    exact ⟨h, x, AH_INS_ERR, rfl, hw, rfl, rfl, hx, ho, hk, hg, Or.inl ⟨hp, rfl, rfl⟩⟩
  · rw [set_store_new h key x he, add_one_mod h.size h.nbucket (by omega) hb.1,
      add_one_mod h.nused h.nbucket (by omega) hb.1]
    have hat := put_at h key x (h.size + 1) (h.nused + 1) hcov hkl
    exact ⟨_, x, AH_INS_NEW, rfl, hwf, rfl, rfl, hx, hat.2.2.1, hat.2.2.2, hg,
      Or.inr (Or.inl ⟨hp, he, rfl, rfl, htb⟩)⟩
  · rw [set_store_del h key x he hd, add_one_mod h.size h.nbucket (by omega) hb.1]
    have hat := put_at h key x (h.size + 1) h.nused hcov hkl
    exact ⟨_, x, AH_INS_DEL, rfl, hwf, rfl, rfl, hx, hat.2.2.1, hat.2.2.2, hg,
      Or.inr (Or.inr ⟨hp, he, hd, rfl, rfl, htb⟩)⟩

theorem set_no_growth (P : Params K) (h : Table K V) (key : K) (hno : h.nused < h.sup) :
    alignhash_set P h key = set_insert P h key := by
  unfold alignhash_set
  rw [if_neg (by omega)]

theorem wf_sup_le (P : Params K) (h : Table K V) (hw : WF P h) : h.sup ≤ h.nbucket := by
  rw [hw.2.2.2.2.2.2.1]; exact load_threshold_le _ _

end SetInsertSpec

/-! ## The search for an empty bucket of the new layout -/

section Find

variable {K V : Type} [Inhabited K] [Inhabited V]

theorem resize_find_stop (nf : List Nat) (step mask fuel i : Nat)
    (he : AH_ISEMPTY nf i ≠ 0) : resize_find nf step mask (fuel + 1) i = some i := by
  rw [resize_find, if_neg he]

theorem resize_find_step (nf : List Nat) (step mask fuel i : Nat)
    (he : AH_ISEMPTY nf i = 0) :
    resize_find nf step mask (fuel + 1) i =
      resize_find nf step mask fuel (probe_next step mask i) := by
  rw [resize_find, if_pos he]

theorem resize_find_walk (nf : List Nat) (step mask i : Nat) :
    ∀ (t fuel : Nat), (∀ s, s < t → AH_ISEMPTY nf (probe_seq step mask i s) = 0) →
      resize_find nf step mask (fuel + t) i =
        resize_find nf step mask fuel (probe_seq step mask i t) := by
  intro t
  induction t with
  | zero => intro fuel _; rfl
  | succ t ih =>
    intro fuel hX
    have := ih (fuel + 1) (fun s hs => hX s (Nat.lt_succ_of_lt hs))
    rw [show fuel + (t + 1) = fuel + 1 + t by omega, this,
      resize_find_step nf step mask fuel _ (hX t (Nat.lt_succ_self t))]
    rfl

/-- The search of lines 200-201 in a power-of-two layout with an empty bucket ends at
the first empty bucket of the probe path. -/
theorem resize_find_spec (P : Params K) (nf : List Nat) (key : K) (m : Nat) (hm : m < 32)
    (hE : ∃ e, e < 2 ^ m ∧ AH_ISEMPTY nf e ≠ 0) :
    ∃ t1, t1 < 2 ^ m ∧
      resize_find nf (probe_step P key) (2 ^ m - 1) (2 ^ m) (probe_start P (2 ^ m) key) =
        some (probe_seq (probe_step P key) (2 ^ m - 1) (probe_start P (2 ^ m) key) t1) ∧
      AH_ISEMPTY nf
        (probe_seq (probe_step P key) (2 ^ m - 1) (probe_start P (2 ^ m) key) t1) ≠ 0 ∧
      ∀ s, s < t1 → AH_ISEMPTY nf
        (probe_seq (probe_step P key) (2 ^ m - 1) (probe_start P (2 ^ m) key) s) = 0 := by
  obtain ⟨e, he, hee⟩ := hE
  obtain ⟨t, ht, hte⟩ := probe_seq_cover (probe_step P key) m (probe_start P (2 ^ m) key)
    (by omega) (probe_start_lt P m hm key) (probe_step_odd2 P key) e he
  have hex : ∃ t, AH_ISEMPTY nf
      (probe_seq (probe_step P key) (2 ^ m - 1) (probe_start P (2 ^ m) key) t) ≠ 0 :=
    ⟨t, by rw [hte]; exact hee⟩
  classical
  have hle : Nat.find hex ≤ t := Nat.find_min' hex (by rw [hte]; exact hee)
  have hmin : ∀ s, s < Nat.find hex → AH_ISEMPTY nf
      (probe_seq (probe_step P key) (2 ^ m - 1) (probe_start P (2 ^ m) key) s) = 0 :=
    fun s hs => not_not.mp (Nat.find_min hex hs)
  refine ⟨Nat.find hex, by omega, ?_, Nat.find_spec hex, hmin⟩
  obtain ⟨f, hf⟩ : ∃ f, 2 ^ m = (f + 1) + Nat.find hex := ⟨2 ^ m - Nat.find hex - 1, by omega⟩
  have hw := resize_find_walk nf (probe_step P key) (2 ^ m - 1) (probe_start P (2 ^ m) key)
    (Nat.find hex) (f + 1) hmin
  rw [← hf] at hw
  rw [hw, resize_find_stop nf _ _ f _ (Nat.find_spec hex)]

theorem count_upto_zero (p : Nat → Bool) (n : Nat) (h : ∀ i, i < n → p i = false) :
    count_upto p n = 0 := by
  induction n with
  | zero => rfl
  | succ n ih => rw [count_upto, ih (fun i hi => h i (by omega)), h n (by omega)]; simp

theorem count_upto_lt_of (p : Nat → Bool) (n x : Nat) (hx : x < n) (hp : p x = false) :
    count_upto p n < n := by
  induction n with
  | zero => omega
  | succ n ih =>
    rw [count_upto]
    by_cases hxn : x = n
    · subst hxn
      have := count_upto_le p x
      simp [hp]; omega
    · have := ih (by omega)
      split <;> omega

/-- Distinct occupied buckets of a well-formed table hold distinct keys. -/
theorem wf_distinct (P : Params K) (h : Table K V) (hw : WF P h) (i j : Nat)
    (hi : i < h.nbucket) (hj : j < h.nbucket) (hoi : AH_ISEITHER h.flags i = 0)
    (hoj : AH_ISEITHER h.flags j = 0)
    (hk : h.keys.getD i default = h.keys.getD j default) : i = j := by
  have h1 := wf_probe P h hw i hi hoi
  have h2 := wf_probe P h hw j hj hoj
  rw [hk, h2] at h1
  exact (Option.some.inj h1).symm

end Find

/-! ## Picking up an entry -/

section Pickup

variable {K V : Type} [Inhabited K] [Inhabited V]

theorem iseither_set_del_ne (f : List Nat) (i j : Nat) (hij : j ≠ i) :
    AH_ISEITHER (AH_SET_DEL f i) j = AH_ISEITHER f j := by
  rw [iseither_eq, iseither_eq, isempty_set_del, isdel_set_del_ne _ _ _ hij]

theorem iseither_set_del_eq (f : List Nat) (i : Nat) (hi : i / 16 < f.length) :
    AH_ISEITHER (AH_SET_DEL f i) i ≠ 0 := by
  rw [iseither_eq, isdel_set_del_eq _ _ hi]; omega

theorem vacated_set_del (f : List Nat) (i j : Nat) (hi : i / 16 < f.length)
    (hv : AH_ISEITHER f j ≠ 0) : AH_ISEITHER (AH_SET_DEL f i) j ≠ 0 := by
  by_cases hij : j = i
  · subst hij; exact iseither_set_del_eq f j hi
  · rw [iseither_set_del_ne _ _ _ hij]; exact hv

theorem count_occ_set_del (f : List Nat) (nb j : Nat) (hj : j < nb) (hi : j / 16 < f.length)
    (ho : AH_ISEITHER f j = 0) :
    count_upto (fun i => decide (AH_ISEITHER f i = 0)) nb =
      count_upto (fun i => decide (AH_ISEITHER (AH_SET_DEL f j) i = 0)) nb + 1 := by
  apply count_upto_set _ _ nb j hj
  · simpa using iseither_set_del_eq f j hi
  · simpa using ho
  · intro i _ hne
    rw [iseither_set_del_ne _ _ _ hne]

/-- Picking up the entry of an occupied old bucket `j` (lines 189-193) keeps the rehash
invariant, with that entry carried. -/
theorem inv_pickup (P : Params K) (h : Table K V) (n : Nat) (s : Rehash K V) (hw : WF P h)
    (hinv : RInv P h n s none) (j : Nat) (hj : j < h.nbucket)
    (hoj : AH_ISEITHER s.flags j = 0) :
    RInv P h n { s with flags := AH_SET_DEL s.flags j }
      (some (s.keys.getD j default, if P.ismap then s.vals.getD j default else default)) := by
  have hjl : j / 16 < s.flags.length := by
    rw [hinv.flags_len]; exact wf_flags_cover P h hw j hj
  have holdj := hinv.old j hj hoj
  refine ⟨?_, hinv.new_len, hinv.keys_len, hinv.vals_len, hinv.new_nodel, ?_, ?_, ?_, ?_, ?_⟩
  · show (AH_SET_DEL s.flags j).length = _
    rw [length_set_del]; exact hinv.flags_len
  · intro i hi ho
    have ho : AH_ISEITHER (AH_SET_DEL s.flags j) i = 0 := ho
    have hij : i ≠ j := by
      intro hij; rw [hij] at ho; exact iseither_set_del_eq _ _ hjl ho
    rw [iseither_set_del_ne _ _ _ hij] at ho
    exact hinv.old i hi ho
  · intro i hi he
    obtain ⟨⟨i0, h1, h2, h3, h4, h5⟩, hg⟩ := hinv.new i hi he
    exact ⟨⟨i0, h1, h2, vacated_set_del _ _ _ hjl h3, h4, h5⟩, hg⟩
  · intro i0 hi0 ho hv
    have hv : AH_ISEITHER (AH_SET_DEL s.flags j) i0 ≠ 0 := hv
    by_cases hij : i0 = j
    · subst hij
      left
      refine ⟨_, rfl, holdj.2.1, ?_⟩
      intro hmap
      simp only [hmap, if_true]
      exact holdj.2.2.1 hmap
    · rw [iseither_set_del_ne _ _ _ hij] at hv
      rcases hinv.moved i0 hi0 ho hv with ⟨cv, hcv, _⟩ | hr
      · exact Option.noConfusion hcv
      · right; exact hr
  · show count_upto (fun i => decide (AH_ISEITHER (AH_SET_DEL s.flags j) i = 0)) h.nbucket +
      count_upto (fun i => decide (AH_ISEMPTY s.new_flags i = 0)) n + 1 = h.size
    have hc := hinv.count
    have := count_occ_set_del s.flags h.nbucket j hj hjl hoj
    simp only [Option.isSome_none, Bool.false_eq_true, if_false] at hc
    omega
  · intro cv hcv
    have hcv := (Option.some.inj hcv).symm
    subst hcv
    refine ⟨⟨j, hj, holdj.1, iseither_set_del_eq _ _ hjl, holdj.2.1.symm, ?_⟩, ?_⟩
    · intro hmap
      simp only [hmap, if_true]
      exact (holdj.2.2.1 hmap).symm
    · intro i hi he hk
      obtain ⟨⟨i0, h1, h2, h3, h4, _⟩, _⟩ := hinv.new i hi he
      have hk : s.keys.getD i default = s.keys.getD j default := hk
      have : i0 = j := wf_distinct P h hw i0 j h1 hj h2 holdj.1 (by rw [h4, hk, holdj.2.1])
      rw [this] at h3
      exact h3 hoj

end Pickup

/-! ## Placing the carried entry -/

section Place

variable {K V : Type} [Inhabited K] [Inhabited V]

theorem hasheq_ne (P : Params K) (hl : lawful_eq P) (a b : K) (hab : a ≠ b) :
    P.hasheq a b = false := by
  cases hq : P.hasheq a b
  · rfl
  · exact absurd ((hl _ _).mp hq) hab

theorem placed_cont_ne (P : Params K) (n : Nat) (s : Rehash K V) (e : Nat) (key k : K)
    (val : V) (j : Nat) (hj : j ≠ e) :
    (probe_cont P (new_view n (placed P s e key val)) k j ↔
        probe_cont P (new_view n s) k j) ∧
      (AH_ISEMPTY (new_view n (placed P s e key val)).flags j = 0 ↔
        AH_ISEMPTY (new_view n s).flags j = 0) := by
  unfold probe_cont new_view placed
  simp only
  rw [isempty_clear_empty_ne _ _ _ hj, isdel_clear_empty, getD_set_ne _ _ _ _ _ (Ne.symm hj)]
  exact ⟨Iff.rfl, Iff.rfl⟩

theorem placed_vals (P : Params K) (s : Rehash K V) (e : Nat) (key : K) (val : V) (i : Nat)
    (hmap : P.ismap = true) :
    (placed P s e key val).vals.getD i default =
      if e = i ∧ e < s.vals.length then val else s.vals.getD i default := by
  unfold placed
  simp only [hmap, if_true]
  by_cases hab : e = i
  · subst hab
    by_cases hlt : e < s.vals.length
    · simp only [hlt, and_self, if_true]; exact getD_set_eq _ _ _ _ hlt
    · simp only [hlt, and_false, if_false]; exact getD_set_oob _ _ _ _ _ (Nat.le_of_not_lt hlt)
  · simp only [hab, false_and, if_false]; exact getD_set_ne _ _ _ _ _ hab

/-- After the carried key is put into the first empty bucket of its probe path, the
lookup through the new tags finds it there. -/
theorem placed_get_self (P : Params K) (h : Table K V) (s : Rehash K V) (key : K) (val : V)
    (hl : lawful_eq P) (m : Nat) (hm : m < 32)
    (hinv : RInv P h (2 ^ m) s (some (key, val))) (t1 : Nat) (ht1 : t1 < 2 ^ m)
    (he : AH_ISEMPTY s.new_flags
      (probe_seq (probe_step P key) (2 ^ m - 1) (probe_start P (2 ^ m) key) t1) ≠ 0)
    (hpre : ∀ u, u < t1 → AH_ISEMPTY s.new_flags
      (probe_seq (probe_step P key) (2 ^ m - 1) (probe_start P (2 ^ m) key) u) = 0) :
    alignhash_get P (new_view (2 ^ m) (placed P s
        (probe_seq (probe_step P key) (2 ^ m - 1) (probe_start P (2 ^ m) key) t1) key val))
        key =
      some (probe_seq (probe_step P key) (2 ^ m - 1) (probe_start P (2 ^ m) key) t1) := by
  have hlt := probe_seq_lt P m hm key
  generalize hed : probe_seq (probe_step P key) (2 ^ m - 1) (probe_start P (2 ^ m) key) t1 = e
    at he ⊢
  have helt : e < 2 ^ m := by rw [← hed]; exact hlt t1
  have hcov : e / 16 < s.new_flags.length := by
    rw [hinv.new_len]; exact flags_byte_cover _ _ ⟨m, hm, rfl⟩ helt
  have hkl : e < s.keys.length := by
    rw [hinv.keys_len]; exact Nat.lt_of_lt_of_le helt (Nat.le_max_right _ _)
  have hfresh := (hinv.carry (key, val) rfl).2
  have hE0 : AH_ISEMPTY (AH_CLEAR_EMPTY s.new_flags e) e = 0 :=
    isempty_clear_empty_eq _ _ hcov
  have hg := get_found P (new_view (2 ^ m) (placed P s e key val)) key m hm rfl t1 ht1
    (fun u hu => by
      have hne : probe_seq (probe_step P key) (2 ^ m - 1) (probe_start P (2 ^ m) key) u ≠ e := by
        intro hx
        have := hpre u hu
        rw [hx] at this
        exact he this
      rw [(placed_cont_ne P (2 ^ m) s e key key val _ hne).1]
      refine ⟨hpre u hu, Or.inr ?_⟩
      exact hasheq_ne P hl _ _ (hfresh _ (hlt u) (hpre u hu)))
    (by
      rw [hed]
      rintro ⟨_, h2 | h2⟩
      · have : AH_ISDEL (AH_CLEAR_EMPTY s.new_flags e) e ≠ 0 := h2
        rw [isdel_clear_empty] at this
        exact this (hinv.new_nodel e)
      · have h2 : P.hasheq ((s.keys.set e key).getD e default) key = false := h2
        rw [getD_set_eq _ _ _ _ hkl, (hl key key).mpr rfl] at h2
        exact Bool.noConfusion h2)
  rw [hg, hed, if_neg]
  intro hx
  exact hx hE0

/-- Putting an entry into an empty bucket of the new layout keeps the lookup of every
key already there. -/
theorem placed_get_other (P : Params K) (n : Nat) (s : Rehash K V) (e : Nat) (key k : K)
    (val : V) (hn : n ≠ 0) (he : AH_ISEMPTY s.new_flags e ≠ 0) (i : Nat) (hi : i < n)
    (hg : alignhash_get P (new_view n s) k = some i) :
    alignhash_get P (new_view n (placed P s e key val)) k = some i := by
  rw [alignhash_get_eq P _ k (show (new_view n s).nbucket ≠ 0 from hn)] at hg
  rw [alignhash_get_eq P _ k (show (new_view n (placed P s e key val)).nbucket ≠ 0 from hn)]
  exact get_loop_fill P (new_view n s) (new_view n (placed P s e key val)) k _ _ _ e he
    (fun j _ hj => placed_cont_ne P n s e key k val j hj) n _ i
    (probe_start_le P _ _) (Nat.ne_of_lt hi) hg

end Place

/-! ## The invariant after a placement -/

section PlaceInv

variable {K V : Type} [Inhabited K] [Inhabited V]

theorem count_used_clear_empty (f : List Nat) (n e : Nat) (he : e < n)
    (hcov : e / 16 < f.length) (hE : AH_ISEMPTY f e ≠ 0) :
    count_upto (fun i => decide (AH_ISEMPTY (AH_CLEAR_EMPTY f e) i = 0)) n =
      count_upto (fun i => decide (AH_ISEMPTY f i = 0)) n + 1 := by
  apply count_upto_set _ _ n e he
  · simpa using hE
  · simpa using isempty_clear_empty_eq f e hcov
  · intro i _ hne
    rw [isempty_clear_empty_ne _ _ _ hne]

/-- The rehash invariant after the carried entry is put into the empty bucket `e` of the
new layout, for any update `f1` of the old tags that only vacates buckets, the entry
of a newly vacated bucket being the new carried entry `c1`. -/
theorem inv_place_gen (P : Params K) (h : Table K V) (s : Rehash K V) (key : K) (val : V)
    (hw : WF P h) (m : Nat) (hm : m < 32)
    (hinv : RInv P h (2 ^ m) s (some (key, val))) (e : Nat) (helt : e < 2 ^ m)
    (he : AH_ISEMPTY s.new_flags e ≠ 0)
    (hget : alignhash_get P (new_view (2 ^ m) (placed P s e key val)) key = some e)
    (f1 : List Nat) (c1 : Option (K × V))
    (hlen : f1.length = s.flags.length)
    (hmono : ∀ i, AH_ISEITHER s.flags i ≠ 0 → AH_ISEITHER f1 i ≠ 0)
    (hocc : ∀ i, i < h.nbucket → AH_ISEITHER f1 i = 0 → AH_ISEITHER s.flags i = 0 ∧ i ≠ e)
    (hcnt : count_upto (fun i => decide (AH_ISEITHER f1 i = 0)) h.nbucket +
      (if c1.isSome then 1 else 0) =
        count_upto (fun i => decide (AH_ISEITHER s.flags i = 0)) h.nbucket)
    (hnewvac : ∀ i0, i0 < h.nbucket → AH_ISEITHER f1 i0 ≠ 0 → AH_ISEITHER s.flags i0 = 0 →
      ∃ cv, c1 = some cv ∧ cv.1 = s.keys.getD i0 default ∧
        (P.ismap = true → cv.2 = s.vals.getD i0 default))
    (hcarry : ∀ cv, c1 = some cv → ∃ c0, c0 < h.nbucket ∧ AH_ISEITHER f1 c0 ≠ 0 ∧
      AH_ISEITHER s.flags c0 = 0 ∧ s.keys.getD c0 default = cv.1 ∧
      (P.ismap = true → s.vals.getD c0 default = cv.2)) :
    RInv P h (2 ^ m) { placed P s e key val with flags := f1 } c1 := by
  have hcov : e / 16 < s.new_flags.length := by
    rw [hinv.new_len]; exact flags_byte_cover _ _ ⟨m, hm, rfl⟩ helt
  have hkl : e < s.keys.length := by
    rw [hinv.keys_len]; exact Nat.lt_of_lt_of_le helt (Nat.le_max_right _ _)
  have hnz : (2 : Nat) ^ m ≠ 0 := Nat.pos_iff_ne_zero.mp (Nat.two_pow_pos m)
  obtain ⟨⟨c0, hc0, hc0h, hc0v, hc0k, hc0val⟩, hfresh⟩ := hinv.carry (key, val) rfl
  have hc0k : h.keys.getD c0 default = key := hc0k
  have hc0val : P.ismap = true → h.vals.getD c0 default = val := hc0val
  have hk_ne : ∀ i, i ≠ e → (s.keys.set e key).getD i default = s.keys.getD i default :=
    fun i hi => getD_set_ne _ _ _ _ _ (Ne.symm hi)
  have hk_e : (s.keys.set e key).getD e default = key := getD_set_eq _ _ _ _ hkl
  have hv_ne : ∀ i, i ≠ e → P.ismap = true →
      (placed P s e key val).vals.getD i default = s.vals.getD i default := by
    intro i hi hmap
    rw [placed_vals P s e key val i hmap, if_neg]
    intro hx; exact hi hx.1.symm
  have hv_e : P.ismap = true → (placed P s e key val).vals.getD e default = val := by
    intro hmap
    have : e < s.vals.length := by
      rw [hinv.vals_len hmap]; exact Nat.lt_of_lt_of_le helt (Nat.le_max_right _ _)
    rw [placed_vals P s e key val e hmap, if_pos ⟨rfl, this⟩]
  have hE_ne : ∀ i, i ≠ e →
      AH_ISEMPTY (AH_CLEAR_EMPTY s.new_flags e) i = AH_ISEMPTY s.new_flags i :=
    fun i hi => isempty_clear_empty_ne _ _ _ hi
  have hE_e : AH_ISEMPTY (AH_CLEAR_EMPTY s.new_flags e) e = 0 := isempty_clear_empty_eq _ _ hcov
  refine ⟨?_, ?_, ?_, ?_, ?_, ?_, ?_, ?_, ?_, ?_⟩
  · show f1.length = _
    rw [hlen]; exact hinv.flags_len
  · show (AH_CLEAR_EMPTY s.new_flags e).length = _
    rw [length_clear_empty]; exact hinv.new_len
  · show (s.keys.set e key).length = _
    rw [List.length_set]; exact hinv.keys_len
  · intro hmap
    show (placed P s e key val).vals.length = _
    unfold placed
    simp only [hmap, if_true]
    rw [List.length_set]; exact hinv.vals_len hmap
  · intro i
    show AH_ISDEL (AH_CLEAR_EMPTY s.new_flags e) i = 0
    rw [isdel_clear_empty]; exact hinv.new_nodel i
  · intro i hi ho
    obtain ⟨hos, hie⟩ := hocc i hi ho
    obtain ⟨h1, h2, h3, h4⟩ := hinv.old i hi hos
    refine ⟨h1, ?_, ?_, ?_⟩
    · show (s.keys.set e key).getD i default = _
      rw [hk_ne i hie]; exact h2
    · intro hmap
      show (placed P s e key val).vals.getD i default = _
      rw [hv_ne i hie hmap]; exact h3 hmap
    · intro hin
      show AH_ISEMPTY (AH_CLEAR_EMPTY s.new_flags e) i ≠ 0
      rw [hE_ne i hie]; exact h4 hin
  · intro i hi hEi
    have hEi : AH_ISEMPTY (AH_CLEAR_EMPTY s.new_flags e) i = 0 := hEi
    by_cases hie : i = e
    · subst hie
      refine ⟨⟨c0, hc0, hc0h, hmono _ hc0v, ?_, ?_⟩, ?_⟩
      · show _ = (s.keys.set i key).getD i default
        rw [hk_e]; exact hc0k
      · intro hmap
        show _ = (placed P s i key val).vals.getD i default
        rw [hv_e hmap]; exact hc0val hmap
      · show alignhash_get P (new_view (2 ^ m) (placed P s i key val))
          ((s.keys.set i key).getD i default) = some i
        rw [hk_e]; exact hget
    · rw [hE_ne i hie] at hEi
      obtain ⟨⟨i0, h1, h2, h3, h4, h5⟩, hg⟩ := hinv.new i hi hEi
      refine ⟨⟨i0, h1, h2, hmono _ h3, ?_, ?_⟩, ?_⟩
      · show _ = (s.keys.set e key).getD i default
        rw [hk_ne i hie]; exact h4
      · intro hmap
        show _ = (placed P s e key val).vals.getD i default
        rw [hv_ne i hie hmap]; exact h5 hmap
      · show alignhash_get P (new_view (2 ^ m) (placed P s e key val))
          ((s.keys.set e key).getD i default) = some i
        rw [hk_ne i hie]
        exact placed_get_other P (2 ^ m) s e key _ val hnz he i hi hg
  · intro i0 hi0 hoh hv
    have hv : AH_ISEITHER f1 i0 ≠ 0 := hv
    have hplace : ∀ k : K, ∀ v : V, k = h.keys.getD i0 default →
        (P.ismap = true → v = h.vals.getD i0 default) → key = k → (P.ismap = true → val = v) →
        ∃ i, i < 2 ^ m ∧ AH_ISEMPTY (AH_CLEAR_EMPTY s.new_flags e) i = 0 ∧
          (s.keys.set e key).getD i default = h.keys.getD i0 default ∧
          (P.ismap = true →
            (placed P s e key val).vals.getD i default = h.vals.getD i0 default) := by
      intro k v hk hvv hkk hvvv
      refine ⟨e, helt, hE_e, ?_, ?_⟩
      · rw [hk_e, hkk, hk]
      · intro hmap
        rw [hv_e hmap, hvvv hmap, hvv hmap]
    by_cases hos : AH_ISEITHER s.flags i0 = 0
    · obtain ⟨cv, hcv, hcv1, hcv2⟩ := hnewvac i0 hi0 hv hos
      obtain ⟨_, h2, h3, _⟩ := hinv.old i0 hi0 hos
      left
      exact ⟨cv, hcv, by rw [hcv1, h2], fun hmap => by rw [hcv2 hmap, h3 hmap]⟩
    · right
      rcases hinv.moved i0 hi0 hoh hos with ⟨cv, hcv, hcv1, hcv2⟩ | ⟨i, hi, hEi, hki, hvi⟩
      · have hcv := (Option.some.inj hcv).symm
        subst hcv
        exact hplace key val hcv1 hcv2 rfl (fun _ => rfl)
      · have hie : i ≠ e := by
          intro hie; rw [hie] at hEi; exact he hEi
        refine ⟨i, hi, ?_, ?_, ?_⟩
        · show AH_ISEMPTY (AH_CLEAR_EMPTY s.new_flags e) i = 0
          rw [hE_ne i hie]; exact hEi
        · show (s.keys.set e key).getD i default = _
          rw [hk_ne i hie]; exact hki
        · intro hmap
          show (placed P s e key val).vals.getD i default = _
          rw [hv_ne i hie hmap]; exact hvi hmap
  · show count_upto (fun i => decide (AH_ISEITHER f1 i = 0)) h.nbucket +
      count_upto (fun i => decide (AH_ISEMPTY (AH_CLEAR_EMPTY s.new_flags e) i = 0)) (2 ^ m) +
      (if c1.isSome then 1 else 0) = h.size
    have hc := hinv.count
    simp only [Option.isSome_some, if_true] at hc
    rw [count_used_clear_empty s.new_flags (2 ^ m) e helt hcov he]
    omega
  · intro cv hcv
    obtain ⟨c1o, hc1, hc1v, hc1o, hc1k, hc1val⟩ := hcarry cv hcv
    obtain ⟨h1, h2, h3, _⟩ := hinv.old c1o hc1 hc1o
    refine ⟨⟨c1o, hc1, h1, hc1v, by rw [← h2]; exact hc1k,
      fun hmap => by rw [← h3 hmap]; exact hc1val hmap⟩, ?_⟩
    intro i hi hEi hk
    have hEi : AH_ISEMPTY (AH_CLEAR_EMPTY s.new_flags e) i = 0 := hEi
    have hk : (s.keys.set e key).getD i default = cv.1 := hk
    rw [← hc1k, h2] at hk
    by_cases hie : i = e
    · subst hie
      rw [hk_e, ← hc0k] at hk
      have := wf_distinct P h hw c0 c1o hc0 hc1 hc0h h1 hk
      rw [this] at hc0v
      exact hc0v hc1o
    · rw [hE_ne i hie] at hEi
      rw [hk_ne i hie] at hk
      obtain ⟨⟨i0, g1, g2, g3, g4, _⟩, _⟩ := hinv.new i hi hEi
      rw [← g4] at hk
      have := wf_distinct P h hw i0 c1o g1 hc1 g2 h1 hk
      rw [this] at g3
      exact g3 hc1o

end PlaceInv

/-! ## The displacement loop -/

section Kick

variable {K V : Type} [Inhabited K] [Inhabited V]

theorem resize_kick_eq (P : Params K) (nb m : Nat) (hm : m < 32) (fuel : Nat)
    (s : Rehash K V) (key : K) (val : V) (e : Nat)
    (hf : resize_find s.new_flags (probe_step P key) (2 ^ m - 1) (2 ^ m)
      (probe_start P (2 ^ m) key) = some e) :
    resize_kick P nb (2 ^ m) (2 ^ m - 1) (fuel + 1) s key val =
      if e < nb ∧ AH_ISEITHER s.flags e = 0 then
        resize_kick P nb (2 ^ m) (2 ^ m - 1) fuel
          { placed P s e key val with flags := AH_SET_DEL s.flags e }
          (s.keys.getD e default) (if P.ismap then s.vals.getD e default else val)
      else some (placed P s e key val) := by
  have hst : (P.hashfn key % 2 ^ 32) &&& (2 ^ m - 1) = probe_start P (2 ^ m) key := by
    unfold probe_start; rw [mask_pow2 m hm]
  have hsp : AH_PROBE_STEP P.tier (P.hashfn key % 2 ^ 32) % 2 ^ 32 = probe_step P key := rfl
  rw [resize_kick]
  simp only [hst, hsp, hf]
  rfl

/-- The displacement loop of lines 194-214 ends with no entry carried, keeps the rehash
invariant and only vacates old buckets, given fuel above the number of old buckets
still occupied. -/
theorem kick_spec (P : Params K) (h : Table K V) (hl : lawful_eq P) (hw : WF P h) (m : Nat)
    (hm : m < 32) (hsz : h.size ≤ 2 ^ m) :
    ∀ (fuel : Nat) (s : Rehash K V) (key : K) (val : V),
      RInv P h (2 ^ m) s (some (key, val)) →
      count_upto (fun i => decide (AH_ISEITHER s.flags i = 0)) h.nbucket < fuel →
      ∃ s1, resize_kick P h.nbucket (2 ^ m) (2 ^ m - 1) fuel s key val = some s1 ∧
        RInv P h (2 ^ m) s1 none ∧
        ∀ i, AH_ISEITHER s.flags i ≠ 0 → AH_ISEITHER s1.flags i ≠ 0 := by
  intro fuel
  induction fuel with
  | zero => intro s key val _ hc; omega
  | succ fuel ih =>
    intro s key val hinv hc
    have hcount := hinv.count
    simp only [Option.isSome_some, if_true] at hcount
    have hE : ∃ e, e < 2 ^ m ∧ AH_ISEMPTY s.new_flags e ≠ 0 := by
      have : count_upto (fun i => decide (AH_ISEMPTY s.new_flags i = 0)) (2 ^ m) < 2 ^ m := by
        omega
      obtain ⟨i, hi, hp⟩ := count_upto_lt _ _ this
      exact ⟨i, hi, by simpa using hp⟩
    obtain ⟨t1, ht1, hfind, he, hpre⟩ := resize_find_spec P s.new_flags key m hm hE
    have helt := probe_seq_lt P m hm key t1
    have hget := placed_get_self P h s key val hl m hm hinv t1 ht1 he hpre
    rw [resize_kick_eq P h.nbucket m hm fuel s key val _ hfind]
    generalize probe_seq (probe_step P key) (2 ^ m - 1) (probe_start P (2 ^ m) key) t1 = e
      at he helt hget ⊢
    by_cases hcase : e < h.nbucket ∧ AH_ISEITHER s.flags e = 0
    · rw [if_pos hcase]
      have hel : e / 16 < s.flags.length := by
        rw [hinv.flags_len]; exact wf_flags_cover P h hw e hcase.1
      have hcs := count_occ_set_del s.flags h.nbucket e hcase.1 hel hcase.2
      have hinv1 := inv_place_gen P h s key val hw m hm hinv e helt he hget
        (AH_SET_DEL s.flags e)
        (some (s.keys.getD e default, if P.ismap then s.vals.getD e default else val))
        (length_set_del _ _)
        (fun i hv => vacated_set_del _ _ _ hel hv)
        (fun i _ ho => by
          have hie : i ≠ e := by
            intro hie; rw [hie] at ho; exact iseither_set_del_eq _ _ hel ho
          rw [iseither_set_del_ne _ _ _ hie] at ho
          exact ⟨ho, hie⟩)
        (by simp only [Option.isSome_some, if_true]; omega)
        (fun i0 _ hv ho => by
          have hie : i0 = e := by
            by_contra hie; rw [iseither_set_del_ne _ _ _ hie] at hv; exact hv ho
          subst hie
          refine ⟨_, rfl, rfl, ?_⟩
          intro hmap; simp only [hmap, if_true])
        (fun cv hcv => by
          have hcv := (Option.some.inj hcv).symm
          subst hcv
          refine ⟨e, hcase.1, iseither_set_del_eq _ _ hel, hcase.2, rfl, ?_⟩
          intro hmap; simp only [hmap, if_true])
      obtain ⟨s1, hk, hinv2, hmono⟩ := ih _ _ _ hinv1 (by
        show count_upto (fun i => decide (AH_ISEITHER (AH_SET_DEL s.flags e) i = 0))
          h.nbucket < fuel
        omega)
      exact ⟨s1, hk, hinv2, fun i hv => hmono i (vacated_set_del _ _ _ hel hv)⟩
    · rw [if_neg hcase]
      have hinv1 := inv_place_gen P h s key val hw m hm hinv e helt he hget s.flags none rfl
        (fun i hv => hv)
        (fun i hi ho => ⟨ho, fun hie => hcase ⟨hie ▸ hi, hie ▸ ho⟩⟩)
        (by simp)
        (fun i0 _ hv ho => absurd ho hv)
        (fun cv hcv => Option.noConfusion hcv)
      exact ⟨placed P s e key val, rfl, hinv1, fun i hv => hv⟩

end Kick

/-! ## The loop over the old buckets -/

section Rehash

variable {K V : Type} [Inhabited K] [Inhabited V]

/-- The loop over the old buckets (lines 187-216) returns with every old bucket vacated
and the rehash invariant kept. -/
theorem rehash_spec (P : Params K) (h : Table K V) (hl : lawful_eq P) (hw : WF P h) (m : Nat)
    (hm : m < 32) (hsz : h.size ≤ 2 ^ m) :
    ∀ (cnt j : Nat) (s : Rehash K V), j + cnt = h.nbucket →
      RInv P h (2 ^ m) s none →
      (∀ i, i < j → AH_ISEITHER s.flags i ≠ 0) →
      ∃ s1, resize_rehash P h.nbucket (2 ^ m) (2 ^ m - 1) cnt j s = some s1 ∧
        RInv P h (2 ^ m) s1 none ∧
        ∀ i, i < h.nbucket → AH_ISEITHER s1.flags i ≠ 0 := by
  intro cnt
  induction cnt with
  | zero =>
    intro j s hj hinv hdone
    exact ⟨s, rfl, hinv, fun i hi => hdone i (by omega)⟩
  | succ cnt ih =>
    intro j s hj hinv hdone
    have hjl : j < h.nbucket := by omega
    rw [resize_rehash]
    by_cases ho : AH_ISEITHER s.flags j = 0
    · rw [if_pos ho]
      have hel : j / 16 < s.flags.length := by
        rw [hinv.flags_len]; exact wf_flags_cover P h hw j hjl
      have hinv1 := inv_pickup P h (2 ^ m) s hw hinv j hjl ho
      have hcs := count_occ_set_del s.flags h.nbucket j hjl hel ho
      have hle := count_upto_le (fun i => decide (AH_ISEITHER s.flags i = 0)) h.nbucket
      obtain ⟨s1, hk, hinv2, hmono⟩ := kick_spec P h hl hw m hm hsz h.nbucket _ _ _ hinv1 (by
        show count_upto (fun i => decide (AH_ISEITHER (AH_SET_DEL s.flags j) i = 0))
          h.nbucket < h.nbucket
        omega)
      rw [hk]
      apply ih (j + 1) s1 (by omega) hinv2
      intro i hi
      apply hmono
      show AH_ISEITHER (AH_SET_DEL s.flags j) i ≠ 0
      by_cases hij : i = j
      · rw [hij]; exact iseither_set_del_eq _ _ hel
      · exact vacated_set_del _ _ _ hel (hdone i (by omega))
    · rw [if_neg ho]
      apply ih (j + 1) s (by omega) hinv
      intro i hi
      by_cases hij : i = j
      · rw [hij]; exact ho
      · exact hdone i (by omega)

/-- The rehash invariant holds when the loop over the old buckets starts. -/
theorem inv_init (P : Params K) (h : Table K V) (hw : WF P h) (n : Nat) (hn : is_pow2 n) :
    RInv P h n
      { flags := h.flags
        new_flags := List.replicate (AH_FLAGS_BYTE n / 4) 0xaaaaaaaa
        keys := if h.nbucket < n then realloc h.keys n else h.keys
        vals := if h.nbucket < n ∧ P.ismap = true then realloc h.vals n else h.vals } none := by
  have hfresh : ∀ i, i < n →
      AH_ISEMPTY (List.replicate (AH_FLAGS_BYTE n / 4) 0xaaaaaaaa) i = 2 :=
    fun i hi => isempty_fresh _ _ (flags_byte_cover n i hn hi)
  refine ⟨rfl, ?_, ?_, ?_, ?_, ?_, ?_, ?_, ?_, ?_⟩
  · show (List.replicate _ _).length = _
    exact List.length_replicate _ _
  · show (if h.nbucket < n then realloc h.keys n else h.keys).length = _
    split
    · rw [length_realloc]; omega
    · rw [hw.2.2.1]; omega
  · intro hmap
    show (if h.nbucket < n ∧ P.ismap = true then realloc h.vals n else h.vals).length = _
    split
    · rw [length_realloc]; omega
    · rename_i hx
      have : ¬ h.nbucket < n := fun hlt => hx ⟨hlt, hmap⟩
      rw [hw.2.2.2.1 hmap]; omega
  · intro i; exact isdel_fresh _ _
  · intro i hi ho
    refine ⟨ho, ?_, ?_, ?_⟩
    · show (if h.nbucket < n then realloc h.keys n else h.keys).getD i default = _
      split
      · exact getD_realloc _ _ _ (by omega)
      · rfl
    · intro hmap
      show (if h.nbucket < n ∧ P.ismap = true then realloc h.vals n else h.vals).getD i
        default = _
      split
      · exact getD_realloc _ _ _ (by omega)
      · rfl
    · intro hin
      show AH_ISEMPTY (List.replicate _ _) i ≠ 0
      rw [hfresh i hin]; norm_num
  · intro i hi he
    have he : AH_ISEMPTY (List.replicate (AH_FLAGS_BYTE n / 4) 0xaaaaaaaa) i = 0 := he
    rw [hfresh i hi] at he
    omega
  · intro i0 _ ho hv
    exact absurd ho hv
  · show count_upto (fun i => decide (AH_ISEITHER h.flags i = 0)) h.nbucket +
      count_upto (fun i => decide
        (AH_ISEMPTY (List.replicate (AH_FLAGS_BYTE n / 4) 0xaaaaaaaa) i = 0)) n +
      (if (none : Option (K × V)).isSome then 1 else 0) = h.size
    rw [count_upto_zero _ n (fun i hi => by rw [hfresh i hi]; simp), ← hw.2.2.2.2.1]
    simp
  · intro cv hcv
    exact Option.noConfusion hcv

end Rehash

/-! ## The resize -/

section Resize

variable {K V : Type} [Inhabited K] [Inhabited V]

theorem alignhash_resize_fail (P : Params K) (h : Table K V) (n : Nat)
    (hf : load_threshold P.tier n ≤ h.size) : alignhash_resize P h n = some (-1, h) := by
  unfold alignhash_resize
  simp only [ge_iff_le, hf, if_true]

theorem alignhash_resize_eq (P : Params K) (h : Table K V) (m : Nat) (hm : m < 32)
    (hf : h.size < load_threshold P.tier (2 ^ m)) :
    alignhash_resize P h (2 ^ m) =
      match resize_rehash P h.nbucket (2 ^ m) (2 ^ m - 1) h.nbucket 0
          (resize_start P h (2 ^ m)) with
      | none => none
      | some s => some (0, resize_finish P h (2 ^ m) s) := by
  unfold alignhash_resize
  simp only [ge_iff_le, Nat.not_le.mpr hf, if_false, mask_pow2 m hm]
  rfl

theorem finish_get (P : Params K) (h : Table K V) (n : Nat) (hn : n ≠ 0) (s : Rehash K V)
    (k : K) :
    alignhash_get P (resize_finish P h n s) k = alignhash_get P (new_view n s) k := by
  rw [alignhash_get_eq P _ k (show (resize_finish P h n s).nbucket ≠ 0 from hn),
    alignhash_get_eq P _ k (show (new_view n s).nbucket ≠ 0 from hn)]
  apply get_loop_frame P (new_view n s) (resize_finish P h n s) k _ _ _ rfl _ n _
    (probe_start_le P _ _)
  intro i hi
  have hin : i < n := Nat.lt_of_le_of_lt hi (mask_lt n hn)
  have hk : (resize_finish P h n s).keys.getD i default = (new_view n s).keys.getD i default := by
    show (if h.nbucket > n then realloc s.keys n else s.keys).getD i default = _
    split
    · exact getD_realloc _ _ _ hin
    · rfl
  unfold probe_cont
  rw [hk]
  exact ⟨Iff.rfl, Iff.rfl⟩

theorem finish_keys (P : Params K) (h : Table K V) (n : Nat) (s : Rehash K V) (i : Nat)
    (hi : i < n) : (resize_finish P h n s).keys.getD i default = s.keys.getD i default := by
  show (if h.nbucket > n then realloc s.keys n else s.keys).getD i default = _
  split
  · exact getD_realloc _ _ _ hi
  · rfl

theorem finish_vals (P : Params K) (h : Table K V) (n : Nat) (s : Rehash K V) (i : Nat)
    (hi : i < n) : (resize_finish P h n s).vals.getD i default = s.vals.getD i default := by
  show (if h.nbucket > n ∧ P.ismap = true then realloc s.vals n else s.vals).getD i default = _
  split
  · exact getD_realloc _ _ _ hi
  · rfl

theorem nodel_occ (f : List Nat) (hnd : ∀ i, AH_ISDEL f i = 0) (i : Nat) :
    AH_ISEITHER f i = 0 ↔ AH_ISEMPTY f i = 0 := by
  rw [iseither_zero]
  exact ⟨fun hx => hx.1, fun hx => ⟨hx, hnd i⟩⟩

/-- A feasible resize of a well-formed table to a power of two returns 0 and a
well-formed table of the requested size without deleted buckets, whose occupied buckets
hold exactly the entries of the old table. -/
theorem resize_spec (P : Params K) (h : Table K V) (hl : lawful_eq P) (hw : WF P h) (n : Nat)
    (hn : is_pow2 n) (hf : h.size < load_threshold P.tier n) :
    ∃ h1, alignhash_resize P h n = some (0, h1) ∧ WF P h1 ∧ h1.nbucket = n ∧
      h1.size = h.size ∧ h1.nused = h.size ∧ h1.sup = load_threshold P.tier n ∧
      (∀ i, AH_ISDEL h1.flags i = 0) ∧
      (∀ i0, i0 < h.nbucket → AH_ISEITHER h.flags i0 = 0 →
        ∃ x, x < n ∧ AH_ISEITHER h1.flags x = 0 ∧
          h1.keys.getD x default = h.keys.getD i0 default ∧
          (P.ismap = true → h1.vals.getD x default = h.vals.getD i0 default)) ∧
      (∀ x, x < n → AH_ISEITHER h1.flags x = 0 →
        ∃ i0, i0 < h.nbucket ∧ AH_ISEITHER h.flags i0 = 0 ∧
          h.keys.getD i0 default = h1.keys.getD x default ∧
          (P.ismap = true → h.vals.getD i0 default = h1.vals.getD x default)) := by
  have hn' := hn
  obtain ⟨m, hm, rfl⟩ := hn
  have hnz : (2 : Nat) ^ m ≠ 0 := Nat.pos_iff_ne_zero.mp (Nat.two_pow_pos m)
  have hsz : h.size ≤ 2 ^ m := by
    have := load_threshold_le P.tier (2 ^ m); omega
  obtain ⟨s1, hre, hinv, hvac⟩ := rehash_spec P h hl hw m hm hsz h.nbucket 0
    (resize_start P h (2 ^ m)) (by omega) (inv_init P h hw (2 ^ m) hn') (fun i hi => by omega)
  have hocc := nodel_occ s1.new_flags hinv.new_nodel
  have hcnt : count_upto (fun i => decide (AH_ISEMPTY s1.new_flags i = 0)) (2 ^ m) = h.size := by
    have hc := hinv.count
    rw [count_upto_zero _ h.nbucket (fun i hi => by simpa using hvac i hi)] at hc
    simpa using hc
  refine ⟨resize_finish P h (2 ^ m) s1, ?_, ?_, rfl, rfl, rfl, rfl, hinv.new_nodel, ?_, ?_⟩
  · rw [alignhash_resize_eq P h m hm hf, hre]
  · refine ⟨Or.inr hn', ?_, ?_, ?_, ?_, ?_, rfl, ?_⟩
    · show s1.new_flags.length =
        if 2 ^ m = 0 then 0 else AH_FLAGS_BYTE (2 ^ m) / 4
      rw [if_neg hnz]; exact hinv.new_len
    · show (if h.nbucket > 2 ^ m then realloc s1.keys (2 ^ m) else s1.keys).length = 2 ^ m
      split
      · exact length_realloc _ _
      · rw [hinv.keys_len]; omega
    · intro hmap
      show (if h.nbucket > 2 ^ m ∧ P.ismap = true then realloc s1.vals (2 ^ m)
        else s1.vals).length = 2 ^ m
      split
      · exact length_realloc _ _
      · rename_i hx
        have : ¬ h.nbucket > 2 ^ m := fun hgt => hx ⟨hgt, hmap⟩
        rw [hinv.vals_len hmap]; omega
    · show h.size = count_upto (fun i => decide (AH_ISEITHER s1.new_flags i = 0)) (2 ^ m)
      rw [← hcnt]
      apply count_upto_congr
      intro i _
      simp only [hocc i]
    · show h.size = count_upto (fun i => decide (AH_ISEMPTY s1.new_flags i = 0)) (2 ^ m)
      exact hcnt.symm
    · intro i hi ho
      have hi : i < 2 ^ m := hi
      have ho : AH_ISEITHER s1.new_flags i = 0 := ho
      rw [finish_keys P h _ s1 i hi, finish_get P h _ hnz]
      exact (hinv.new i hi ((hocc i).mp ho)).2
  · intro i0 hi0 ho
    rcases hinv.moved i0 hi0 ho (hvac i0 hi0) with ⟨cv, hcv, _⟩ | ⟨x, hx, hE, hk, hv⟩
    · exact Option.noConfusion hcv
    · refine ⟨x, hx, (hocc x).mpr hE, ?_, ?_⟩
      · rw [finish_keys P h _ s1 x hx]; exact hk
      · intro hmap
        rw [finish_vals P h _ s1 x hx]; exact hv hmap
  · intro x hx ho
    have ho : AH_ISEITHER s1.new_flags x = 0 := ho
    obtain ⟨⟨i0, h1, h2, _, h4, h5⟩, _⟩ := hinv.new x hx ((hocc x).mp ho)
    refine ⟨i0, h1, h2, ?_, ?_⟩
    · rw [finish_keys P h _ s1 x hx]; exact h4
    · intro hmap
      rw [finish_vals P h _ s1 x hx]; exact h5 hmap

end Resize

/-! ## The growth step of set -/

section SetSpec

variable {K V : Type} [Inhabited K] [Inhabited V]

theorem set_grow (P : Params K) (h : Table K V) (key : K) (hg : h.sup ≤ h.nused) :
    alignhash_set P h key =
      match alignhash_resize P h (grow_size h) with
      | none => none
      | some (r, h1) => if r ≠ 0 then some (h1, h1.nbucket, none) else set_insert P h1 key := by
  unfold alignhash_set grow_size
  rw [if_pos (by omega)]

theorem set_fail (P : Params K) (h : Table K V) (key : K) (hg : h.sup ≤ h.nused)
    (hf : load_threshold P.tier (grow_size h) ≤ h.size) :
    alignhash_set P h key = some (h, h.nbucket, none) := by
  rw [set_grow P h key hg, alignhash_resize_fail P h _ hf]
  simp

theorem load_threshold_zero (tier : Bool) : load_threshold tier 0 = 0 := by
  unfold load_threshold; cases tier <;> simp

theorem grow_size_pow2 (P : Params K) (h : Table K V) (hw : WF P h)
    (hf : h.size < load_threshold P.tier (grow_size h)) :
    is_pow2 (grow_size h) ∧ (h.nbucket ≠ 0 → grow_size h = 2 * h.nbucket) ∧
      (h.nbucket = 0 → grow_size h = 2) := by
  by_cases hnb : h.nbucket = 0
  · have : grow_size h = 2 := by unfold grow_size; simp [hnb]
    rw [this]
    exact ⟨⟨1, by norm_num, rfl⟩, fun hx => absurd hnb hx, fun _ => rfl⟩
  · have hgs : grow_size h = (h.nbucket * 2) % 2 ^ 32 := by unfold grow_size; simp [hnb]
    rcases hw.1 with h0 | ⟨m, hm, hm2⟩
    · exact absurd h0 hnb
    · by_cases hm31 : m = 31
      · exfalso
        rw [hgs, hm2, hm31] at hf
        norm_num [load_threshold_zero] at hf
      · have hlt : 2 ^ (m + 1) < 2 ^ 32 := Nat.pow_lt_pow_right (by norm_num) (by omega)
        have he : h.nbucket * 2 = 2 ^ (m + 1) := by rw [hm2, Nat.pow_succ]
        rw [hgs, he, Nat.mod_eq_of_lt hlt]
        refine ⟨⟨m + 1, by omega, rfl⟩, fun _ => ?_, fun hx => absurd hx hnb⟩
        rw [← he]; ring

theorem present_iff_key (P : Params K) (h : Table K V) (key : K) (hl : lawful_eq P) :
    present P h key ↔
      ∃ i, i < h.nbucket ∧ AH_ISEITHER h.flags i = 0 ∧ h.keys.getD i default = key := by
  unfold present
  constructor
  · rintro ⟨i, h1, h2, h3⟩; exact ⟨i, h1, h2, (hl _ _).mp h3⟩
  · rintro ⟨i, h1, h2, h3⟩; exact ⟨i, h1, h2, (hl _ _).mpr h3⟩

/-- The growth step of `alignhash_set` when the doubled size is feasible: the resize
returns 0 and a well-formed table with the same keys and an empty bucket, on which the
insertion proper runs. -/
theorem set_grow_spec (P : Params K) (h : Table K V) (key : K) (hl : lawful_eq P)
    (hw : WF P h) (hg : h.sup ≤ h.nused)
    (hf : h.size < load_threshold P.tier (grow_size h)) :
    ∃ h0, alignhash_resize P h (grow_size h) = some (0, h0) ∧ WF P h0 ∧
      h0.nbucket = grow_size h ∧ h0.size = h.size ∧ h0.nused < h0.nbucket ∧
      h0.sup = load_threshold P.tier (grow_size h) ∧
      (∀ k, present P h0 k ↔ present P h k) ∧
      alignhash_set P h key = set_insert P h0 key := by
  have hp := grow_size_pow2 P h hw hf
  obtain ⟨h0, hr, hw0, hnb, hsz, hnu, hsup, _, hm1, hm2⟩ :=
    resize_spec P h hl hw (grow_size h) hp.1 hf
  refine ⟨h0, hr, hw0, hnb, hsz, ?_, hsup, ?_, ?_⟩
  · have := load_threshold_le P.tier (grow_size h)
    omega
  · intro k
    rw [present_iff_key P h0 k hl, present_iff_key P h k hl]
    constructor
    · rintro ⟨x, hx, ho, hk⟩
      obtain ⟨i0, h1, h2, h3, _⟩ := hm2 x (by omega) ho
      exact ⟨i0, h1, h2, by rw [h3, hk]⟩
    · rintro ⟨i0, hi0, ho, hk⟩
      obtain ⟨x, h1, h2, h3, _⟩ := hm1 i0 hi0 ho
      exact ⟨x, by omega, h2, by rw [h3, hk]⟩
  · rw [set_grow P h key hg, hr]
    simp

end SetSpec

/-! ## The two ways set returns -/

section SetCases

variable {K V : Type} [Inhabited K] [Inhabited V]

/-- The two ways `alignhash_set` returns on a well-formed table: the growth step is not
needed or succeeds, and the insertion proper runs on a well-formed table `h0` with the
same keys and an empty bucket; or the growth step fails and the table is returned
unchanged without an outcome. -/
theorem set_cases (P : Params K) (h : Table K V) (key : K) (hl : lawful_eq P) (hw : WF P h) :
    ((h.nused < h.sup ∨ h.size < load_threshold P.tier (grow_size h)) ∧
      ∃ h0, WF P h0 ∧ h0.nused < h0.nbucket ∧ h0.size = h.size ∧
        (∀ k, present P h0 k ↔ present P h k) ∧
        ((h.nused < h.sup ∧ h0 = h) ∨
          (h.sup ≤ h.nused ∧ alignhash_resize P h (grow_size h) = some (0, h0) ∧
            h0.nbucket = grow_size h ∧ h0.sup = load_threshold P.tier (grow_size h))) ∧
        alignhash_set P h key = set_insert P h0 key) ∨
    (h.sup ≤ h.nused ∧ load_threshold P.tier (grow_size h) ≤ h.size ∧
      alignhash_set P h key = some (h, h.nbucket, none)) := by
  by_cases hno : h.nused < h.sup
  · left
    have := wf_sup_le P h hw
    exact ⟨Or.inl hno, h, hw, by omega, rfl, fun k => Iff.rfl, Or.inl ⟨hno, rfl⟩,
      set_no_growth P h key hno⟩
  · have hg : h.sup ≤ h.nused := by omega
    by_cases hf : h.size < load_threshold P.tier (grow_size h)
    · left
      obtain ⟨h0, hr, hw0, hnb, hsz, hsl, hsup, hpres, hset⟩ :=
        set_grow_spec P h key hl hw hg hf
      exact ⟨Or.inr hf, h0, hw0, hsl, hsz, hpres, Or.inr ⟨hg, hr, hnb, hsup⟩, hset⟩
    · right
      exact ⟨hg, by omega, set_fail P h key hg (by omega)⟩

end SetCases

/-! ## Counters of the reachable tables -/

section Fields

variable {K V : Type} [Inhabited K] [Inhabited V]

/-- The fields left by `alignhash_resize`, whatever the table. -/
theorem resize_fields (P : Params K) (h : Table K V) (n : Nat) (r : Int) (h1 : Table K V)
    (hr : alignhash_resize P h n = some (r, h1)) :
    (r = -1 ∧ h1 = h ∧ load_threshold P.tier n ≤ h.size) ∨
    (r = 0 ∧ h1.nbucket = n ∧ h1.size = h.size ∧ h1.nused = h.size ∧
      h1.sup = load_threshold P.tier n ∧ h.size < load_threshold P.tier n) := by
  by_cases hf : load_threshold P.tier n ≤ h.size
  · rw [alignhash_resize_fail P h n hf] at hr
    have hr := Option.some.inj hr
    exact Or.inl ⟨(congrArg Prod.fst hr).symm, (congrArg Prod.snd hr).symm, hf⟩
  · right
    unfold alignhash_resize at hr
    simp only [ge_iff_le, hf, if_false] at hr
    split at hr
    · exact Option.noConfusion hr
    · have hr := Option.some.inj hr
      have h1e := (congrArg Prod.snd hr).symm
      have h2e := (congrArg Prod.fst hr).symm
      simp only at h1e h2e
      subst h1e
      exact ⟨h2e, rfl, rfl, rfl, rfl, by omega⟩

theorem set_store_fields (h : Table K V) (key : K) (x : Nat) :
    (set_store h key x).1.nbucket = h.nbucket ∧ (set_store h key x).1.sup = h.sup ∧
      ((set_store h key x).1.nused = h.nused ∨
        (set_store h key x).1.nused = (h.nused + 1) % 2 ^ 32) := by
  unfold set_store
  split
  · exact ⟨rfl, rfl, Or.inr rfl⟩
  · split
    · exact ⟨rfl, rfl, Or.inl rfl⟩
    · exact ⟨rfl, rfl, Or.inl rfl⟩

theorem set_insert_fields (P : Params K) (h : Table K V) (key : K) (h1 : Table K V)
    (x : Nat) (r : Option Nat) (hs : set_insert P h key = some (h1, x, r)) :
    h1.nbucket = h.nbucket ∧ h1.sup = h.sup ∧
      (h1.nused = h.nused ∨ h1.nused = (h.nused + 1) % 2 ^ 32) := by
  unfold set_insert at hs
  split at hs
  · exact Option.noConfusion hs
  · rename_i x0 _
    have hs := Option.some.inj hs
    have h1e : (set_store h key x0).1 = h1 := congrArg Prod.fst hs
    rw [← h1e]
    exact set_store_fields h key x0

theorem grow_size_lt (h : Table K V) : grow_size h < 2 ^ 32 := by
  unfold grow_size
  split
  · exact Nat.mod_lt _ (by norm_num)
  · norm_num

/-- In every reachable table `sup` is the threshold of `nbucket`, `nused` is at most
`sup`, and `nbucket` fits `ah_size_t`. -/
theorem reach_inv (P : Params K) (h : Table K V) (hr : Reachable P h) :
    h.sup = load_threshold P.tier h.nbucket ∧ h.nused ≤ h.sup ∧ h.nbucket < 2 ^ 32 := by
  induction hr with
  | init =>
    refine ⟨?_, Nat.le_refl _, by norm_num [alignhash_init]⟩
    show 0 = load_threshold P.tier 0
    rw [load_threshold_zero]
  | set h key h1 x r _ hs ih =>
    obtain ⟨i1, i2, i3⟩ := ih
    by_cases hno : h.nused < h.sup
    · rw [set_no_growth P h key hno] at hs
      obtain ⟨f1, f2, f3⟩ := set_insert_fields P h key h1 x r hs
      rw [f1, f2]
      refine ⟨i1, ?_, i3⟩
      rcases f3 with f3 | f3
      · omega
      · have := Nat.mod_le (h.nused + 1) (2 ^ 32); omega
    · rw [set_grow P h key (by omega)] at hs
      split at hs
      · exact Option.noConfusion hs
      · rename_i r0 h0 hres
        rcases resize_fields P h _ r0 h0 hres with ⟨g1, g2, _⟩ | ⟨g1, g2, _, g4, g5, g6⟩
        · rw [if_pos (by rw [g1]; decide)] at hs
          have hs := Option.some.inj hs
          have : h0 = h1 := congrArg Prod.fst hs
          rw [← this, g2]
          exact ⟨i1, i2, i3⟩
        · rw [if_neg (by rw [g1]; decide)] at hs
          obtain ⟨f1, f2, f3⟩ := set_insert_fields P h0 key h1 x r hs
          rw [f1, f2, g2, g5]
          refine ⟨rfl, ?_, grow_size_lt h⟩
          rcases f3 with f3 | f3
          · omega
          · have := Nat.mod_le (h0.nused + 1) (2 ^ 32); omega
  | del h x _ _ ih =>
    unfold alignhash_del
    split
    · exact ih
    · exact ih
  | clear h _ ih =>
    unfold alignhash_clear
    split
    · exact ⟨ih.1, Nat.zero_le _, ih.2.2⟩
    · exact ih
  | resize h n h1 _ hn hres _ =>
    rcases resize_fields P h n 0 h1 hres with ⟨g1, _⟩ | ⟨_, g2, _, g4, g5, g6⟩
    · exact absurd g1 (by decide)
    · rw [g2, g4, g5]
      exact ⟨rfl, by omega, (pow2_pos n hn).2⟩
  | setval h x v _ _ ih => exact ih

end Fields

/-! ## Set keeps the table well formed -/

section SetWF

variable {K V : Type} [Inhabited K] [Inhabited V]

/-- A call of `alignhash_set` that reports an outcome leaves a well-formed table in
which the key is present. -/
theorem set_wf (P : Params K) (h : Table K V) (key : K) (hl : lawful_eq P) (hw : WF P h)
    (h1 : Table K V) (x c : Nat) (hs : alignhash_set P h key = some (h1, x, some c)) :
    WF P h1 ∧ present P h1 key ∧ x < h1.nbucket ∧ AH_ISEITHER h1.flags x = 0 ∧
      h1.keys.getD x default = key := by
  rcases set_cases P h key hl hw with ⟨_, h0, hw0, hsl, _, _, _, hset⟩ | ⟨_, _, hset⟩
  · obtain ⟨h1', x', c', hins, hw1, _, _, hx, ho, hk, _, _⟩ :=
      set_insert_spec P h0 key hl hw0 hsl
    rw [hset, hins] at hs
    have hs := Option.some.inj hs
    have e1 : h1' = h1 := congrArg Prod.fst hs
    have e2 : x' = x := congrArg (fun p => p.2.1) hs
    subst e1; subst e2
    exact ⟨hw1, (present_iff_key P h1' key hl).mpr ⟨x', hx, ho, hk⟩, hx, ho, hk⟩
  · rw [hset] at hs
    have hs := Option.some.inj hs
    have : (none : Option Nat) = some c := congrArg (fun p => p.2.2) hs
    exact Option.noConfusion this

end SetWF

/-! ## Reachability of the sample tables -/

/-- The empty one-bucket table is what a resize to 1 makes of the fresh table. -/
theorem ex_table1_reachable : Reachable ex_params ex_table1 :=
  Reachable.resize alignhash_init 1 ex_table1 Reachable.init (by decide) (by decide)

/-- The full one-bucket table is reached by one more `alignhash_set`. -/
theorem ex_table1_full_reachable : Reachable ex_params ex_table1_full :=
  Reachable.set ex_table1 7 ex_table1_full 0 (some AH_INS_NEW) ex_table1_reachable (by decide)

/-- The tier-probing table of keys 1, 2, 3 is reached from the fresh table by three
insertions, each followed by the store of its value. -/
theorem ex_table3_tier_reachable : Reachable ex_params_tier ex_table3_tier :=
  have r1 : Reachable ex_params_tier
      ({ nbucket := 2, size := 1, nused := 1, sup := 2, flags := [2863311522],
         keys := [0, 1], vals := ["", ""] } : Table Nat String) :=
    Reachable.set alignhash_init 1 _ 1 (some AH_INS_NEW) Reachable.init (by decide)
  have r2 : Reachable ex_params_tier
      ({ nbucket := 2, size := 1, nused := 1, sup := 2, flags := [2863311522],
         keys := [0, 1], vals := ["", "a"] } : Table Nat String) :=
    Reachable.setval _ 1 "a" r1 (by decide)
  have r3 : Reachable ex_params_tier
      ({ nbucket := 2, size := 2, nused := 2, sup := 2, flags := [2863311520],
         keys := [2, 1], vals := ["", "a"] } : Table Nat String) :=
    Reachable.set _ 2 _ 0 (some AH_INS_NEW) r2 (by decide)
  have r4 : Reachable ex_params_tier
      ({ nbucket := 2, size := 2, nused := 2, sup := 2, flags := [2863311520],
         keys := [2, 1], vals := ["b", "a"] } : Table Nat String) :=
    Reachable.setval _ 0 "b" r3 (by decide)
  have r5 : Reachable ex_params_tier
      ({ nbucket := 4, size := 3, nused := 3, sup := 3, flags := [2863311362],
         keys := [2, 1, 2, 3], vals := ["b", "a", "b", ""] } : Table Nat String) :=
    Reachable.set _ 3 _ 3 (some AH_INS_NEW) r4 (by decide)
  Reachable.setval _ 3 "c" r5 (by decide)

/-! ## Deletion, clearing and value stores keep the table well formed -/

section DelWF

variable {K V : Type} [Inhabited K] [Inhabited V]

/-- A deletion does not change the lookup of a key other than the one deleted. -/
theorem del_get_frame (P : Params K) (h : Table K V) (y : Nat) (k : K)
    (hy : y < h.nbucket → AH_ISEITHER h.flags y = 0 →
      P.hasheq (h.keys.getD y default) k = false ∧ y / 16 < h.flags.length) :
    alignhash_get P (alignhash_del h y) k = alignhash_get P h k := by
  by_cases hd : y ≠ h.nbucket ∧ AH_ISEITHER h.flags y = 0
  · rw [del_flags h y hd.1 hd.2]
    by_cases hnb : h.nbucket = 0
    · unfold alignhash_get; simp [hnb]
    · rw [alignhash_get_eq P h k hnb]
      have e := alignhash_get_eq P (Table.mk h.nbucket ((h.size + 2 ^ 32 - 1) % 2 ^ 32) h.nused h.sup
        (AH_SET_DEL h.flags y) h.keys h.vals) k hnb
      rw [e]
      apply get_loop_frame P h (Table.mk h.nbucket ((h.size + 2 ^ 32 - 1) % 2 ^ 32) h.nused h.sup
        (AH_SET_DEL h.flags y) h.keys h.vals) k _ _ _ rfl _ h.nbucket _ (probe_start_le P _ _)
      intro j hj
      have hjn : j < h.nbucket := Nat.lt_of_le_of_lt hj (mask_lt _ hnb)
      unfold probe_cont
      show (AH_ISEMPTY (AH_SET_DEL h.flags y) j = 0 ∧
          (AH_ISDEL (AH_SET_DEL h.flags y) j ≠ 0 ∨ P.hasheq (h.keys.getD j default) k = false) ↔
          _) ∧ (AH_ISEMPTY (AH_SET_DEL h.flags y) j = 0 ↔ _)
      rw [isempty_set_del]
      refine ⟨?_, Iff.rfl⟩
      by_cases hjy : j = y
      · subst hjy
        obtain ⟨hq, hl⟩ := hy hjn hd.2
        rw [isdel_set_del_eq _ _ hl]
        have he := ((iseither_zero _ _).mp hd.2).1
        exact ⟨fun _ => ⟨he, Or.inr hq⟩, fun _ => ⟨he, Or.inl (by norm_num)⟩⟩
      · rw [isdel_set_del_ne _ _ _ hjy]
  · unfold alignhash_del
    rw [if_neg hd]

/-- Deleting a valid iterator keeps the table well formed. -/
theorem del_wf (P : Params K) (h : Table K V) (hl : lawful_eq P) (hw : WF P h) (x : Nat)
    (hx : x ≤ h.nbucket) : WF P (alignhash_del h x) := by
  by_cases hd : x ≠ h.nbucket ∧ AH_ISEITHER h.flags x = 0
  · have hxl : x < h.nbucket := by omega
    have hcov := wf_flags_cover P h hw x hxl
    have hb := wf_size_lt P h hw
    have hfr : ∀ k, P.hasheq (h.keys.getD x default) k = false →
        alignhash_get P (alignhash_del h x) k = alignhash_get P h k :=
      fun k hq => del_get_frame P h x k (fun _ _ => ⟨hq, hcov⟩)
    rw [del_flags h x hd.1 hd.2] at hfr ⊢
    obtain ⟨hp, hfl, hkeys, hvals, hsize, hnused, hsup, hprobe⟩ := hw
    have hcs := count_occ_set_del h.flags h.nbucket x hxl hcov hd.2
    refine ⟨hp, ?_, hkeys, hvals, ?_, ?_, hsup, ?_⟩
    · show (AH_SET_DEL h.flags x).length = _
      rw [length_set_del]; exact hfl
    · show (h.size + 2 ^ 32 - 1) % 2 ^ 32 =
        count_upto (fun i => decide (AH_ISEITHER (AH_SET_DEL h.flags x) i = 0)) h.nbucket
      have := sub_one_mod h.size (by omega) (by omega)
      omega
    · show h.nused =
        count_upto (fun i => decide (AH_ISEMPTY (AH_SET_DEL h.flags x) i = 0)) h.nbucket
      rw [hnused]
      apply count_upto_congr
      intro i _
      rw [isempty_set_del]
    · intro i hi ho
      have hi : i < h.nbucket := hi
      have ho : AH_ISEITHER (AH_SET_DEL h.flags x) i = 0 := ho
      have hix : i ≠ x := by
        intro hix; rw [hix] at ho; exact iseither_set_del_eq _ _ hcov ho
      rw [iseither_set_del_ne _ _ _ hix] at ho
      show alignhash_get P _ (h.keys.getD i default) = some i
      rw [hfr _ (hasheq_ne P hl _ _ (fun hk =>
        hix (wf_distinct P h ⟨hp, hfl, hkeys, hvals, hsize, hnused, hsup, hprobe⟩
          i x hi hxl ho hd.2 hk.symm)))]
      exact hprobe i hi ho
  · unfold alignhash_del
    rw [if_neg hd]; exact hw

theorem memset_aa_all (f : List Nat) (n : Nat) (hn : f.length ≤ n) :
    memset_aa f n = List.replicate f.length 0xaaaaaaaa := by
  induction f generalizing n with
  | nil => rfl
  | cons w ws ih =>
    have hn0 : n ≠ 0 := by simp at hn; omega
    rw [memset_aa, if_neg hn0, ih (n - 1) (by simp at hn; omega)]
    rfl

/-- The table `alignhash_clear` leaves from a well-formed table with buckets. -/
theorem clear_eq (P : Params K) (h : Table K V) (hw : WF P h) (hnb : h.nbucket ≠ 0) :
    alignhash_clear h =
      { h with flags := List.replicate (AH_FLAGS_BYTE h.nbucket / 4) 0xaaaaaaaa,
               size := 0, nused := 0 } := by
  have hfl := hw.2.1
  rw [if_neg hnb] at hfl
  have hne : h.flags ≠ [] := by
    intro he
    rw [he] at hfl
    have := wf_flags_cover P h hw 0 (by omega)
    rw [he] at this
    simp at this
  unfold alignhash_clear
  rw [if_pos hne, memset_aa_all h.flags _ (by omega), hfl]

theorem clear_noalloc (h : Table K V) (hf : h.flags = []) : alignhash_clear h = h := by
  unfold alignhash_clear
  rw [if_neg (by simp [hf])]

/-- Clearing keeps the table well formed. -/
theorem clear_wf (P : Params K) (h : Table K V) (hw : WF P h) : WF P (alignhash_clear h) := by
  by_cases hnb : h.nbucket = 0
  · have hfl := hw.2.1
    rw [if_pos hnb] at hfl
    rw [clear_noalloc h (List.length_eq_zero.mp hfl)]; exact hw
  · rw [clear_eq P h hw hnb]
    have hpow : is_pow2 h.nbucket := by
      rcases hw.1 with h0 | h0
      · exact absurd h0 hnb
      · exact h0
    have hfresh : ∀ i, i < h.nbucket →
        AH_ISEMPTY (List.replicate (AH_FLAGS_BYTE h.nbucket / 4) 0xaaaaaaaa) i = 2 :=
      fun i hi => isempty_fresh _ _ (flags_byte_cover h.nbucket i hpow hi)
    obtain ⟨hp, hfl, hkeys, hvals, hsize, hnused, hsup, hprobe⟩ := hw
    refine ⟨hp, ?_, hkeys, hvals, ?_, ?_, hsup, ?_⟩
    · show (List.replicate _ _).length = _
      rw [List.length_replicate, if_neg hnb]
    · show 0 = count_upto (fun i => decide (AH_ISEITHER
        (List.replicate (AH_FLAGS_BYTE h.nbucket / 4) 0xaaaaaaaa) i = 0)) h.nbucket
      rw [count_upto_zero]
      intro i hi
      have := hfresh i hi
      simp only [decide_eq_false_iff_not]
      intro ho
      have := ((iseither_zero _ _).mp ho).1
      omega
    · show 0 = count_upto (fun i => decide (AH_ISEMPTY
        (List.replicate (AH_FLAGS_BYTE h.nbucket / 4) 0xaaaaaaaa) i = 0)) h.nbucket
      rw [count_upto_zero]
      intro i hi
      rw [hfresh i hi]; simp
    · intro i hi ho
      have hi : i < h.nbucket := hi
      have ho : AH_ISEITHER (List.replicate (AH_FLAGS_BYTE h.nbucket / 4) 0xaaaaaaaa) i = 0 := ho
      have := ((iseither_zero _ _).mp ho).1
      rw [hfresh i hi] at this
      omega

/-- A store through `alignhash_value` keeps the table well formed. -/
theorem setval_wf (P : Params K) (h : Table K V) (hw : WF P h) (x : Nat) (v : V) :
    WF P { h with vals := h.vals.set x v } := by
  obtain ⟨hp, hfl, hkeys, hvals, hsize, hnused, hsup, hprobe⟩ := hw
  refine ⟨hp, hfl, hkeys, ?_, hsize, hnused, hsup, ?_⟩
  · intro hmap
    show (h.vals.set x v).length = _
    rw [List.length_set]; exact hvals hmap
  · intro i hi ho
    have := hprobe i hi ho
    show alignhash_get P _ (h.keys.getD i default) = some i
    rw [← this]
    by_cases hnb : h.nbucket = 0
    · unfold alignhash_get; simp [hnb]
    · rw [alignhash_get_eq P h _ hnb]
      have e := alignhash_get_eq P (Table.mk h.nbucket h.size h.nused h.sup h.flags h.keys
        (h.vals.set x v)) (h.keys.getD i default) hnb
      rw [e]
      exact get_loop_frame P h (Table.mk h.nbucket h.size h.nused h.sup h.flags h.keys
        (h.vals.set x v)) _ _ _ _ rfl (fun j _ => ⟨Iff.rfl, Iff.rfl⟩) h.nbucket _
        (probe_start_le P _ _)

end DelWF

/-! ## Reachable tables are well formed -/

section ReachWF

variable {K V : Type} [Inhabited K] [Inhabited V]

theorem init_wf (P : Params K) : WF P (alignhash_init : Table K V) := by
  refine ⟨Or.inl rfl, rfl, rfl, fun _ => rfl, rfl, rfl, ?_, ?_⟩
  · show 0 = load_threshold P.tier 0
    rw [load_threshold_zero]
  · intro i hi
    exact absurd hi (Nat.not_lt_zero i)

/-- Whatever `alignhash_set` returns from a well-formed table, the table it leaves is
well formed. -/
theorem set_wf_any (P : Params K) (h : Table K V) (key : K) (hl : lawful_eq P) (hw : WF P h)
    (h1 : Table K V) (x : Nat) (r : Option Nat) (hs : alignhash_set P h key = some (h1, x, r)) :
    WF P h1 := by
  rcases set_cases P h key hl hw with ⟨_, h0, hw0, hsl, _, _, _, he⟩ | ⟨_, _, he⟩
  · obtain ⟨h2, x2, r2, hi, hw2, _⟩ := set_insert_spec P h0 key hl hw0 hsl
    rw [he, hi] at hs
    have := congrArg Prod.fst (Option.some.inj hs)
    have : h2 = h1 := this
    rw [← this]; exact hw2
  · rw [he] at hs
    have := congrArg Prod.fst (Option.some.inj hs)
    have : h = h1 := this
    rw [← this]; exact hw

/-- Every reachable table is well formed. -/
theorem reach_wf (P : Params K) (hl : lawful_eq P) (h : Table K V) (hr : Reachable P h) :
    WF P h := by
  induction hr with
  | init => exact init_wf P
  | set h key h1 x r _ hs ih => exact set_wf_any P h key hl ih h1 x r hs
  | del h x _ hx ih => exact del_wf P h hl ih x hx
  | clear h _ ih => exact clear_wf P h ih
  | resize h n h1 _ hn hres ih =>
    by_cases hf : h.size < load_threshold P.tier n
    · obtain ⟨h2, he, hw2, _⟩ := resize_spec P h hl ih n hn hf
      rw [he] at hres
      have := congrArg Prod.snd (Option.some.inj hres)
      have : h2 = h1 := this
      rw [← this]; exact hw2
    · rw [alignhash_resize_fail P h n (by omega)] at hres
      have : (-1 : Int) = 0 := congrArg Prod.fst (Option.some.inj hres)
      exact absurd this (by decide)
  | setval h x v _ _ ih => exact setval_wf P h ih x v

end ReachWF

/-! ## Reachability of the linear-probing sample tables -/

/-- The linear-probing table of keys 1, 2, 3 is reached from the fresh table by three
insertions, each followed by the store of its value. -/
theorem ex_table3_reachable : Reachable ex_params ex_table3 :=
  have r1 : Reachable ex_params
      ({ nbucket := 2, size := 1, nused := 1, sup := 1, flags := [2863311522],
         keys := [0, 1], vals := ["", ""] } : Table Nat String) :=
    Reachable.set alignhash_init 1 _ 1 (some AH_INS_NEW) Reachable.init (by decide)
  have r2 : Reachable ex_params
      ({ nbucket := 2, size := 1, nused := 1, sup := 1, flags := [2863311522],
         keys := [0, 1], vals := ["", "a"] } : Table Nat String) :=
    Reachable.setval _ 1 "a" r1 (by decide)
  have r3 : Reachable ex_params
      ({ nbucket := 4, size := 2, nused := 2, sup := 2, flags := [2863311490],
         keys := [0, 1, 2, 0], vals := ["", "a", "", ""] } : Table Nat String) :=
    Reachable.set _ 2 _ 2 (some AH_INS_NEW) r2 (by decide)
  have r4 : Reachable ex_params
      ({ nbucket := 4, size := 2, nused := 2, sup := 2, flags := [2863311490],
         keys := [0, 1, 2, 0], vals := ["", "a", "b", ""] } : Table Nat String) :=
    Reachable.setval _ 2 "b" r3 (by decide)
  have r5 : Reachable ex_params
      ({ nbucket := 8, size := 3, nused := 3, sup := 4, flags := [2863311362],
         keys := [0, 1, 2, 3, 0, 0, 0, 0],
         vals := ["", "a", "b", "", "", "", "", ""] } : Table Nat String) :=
    Reachable.set _ 3 _ 3 (some AH_INS_NEW) r4 (by decide)
  Reachable.setval _ 3 "c" r5 (by decide)

/-- The table of keys 1, 2, 3, 11 is reached by one more insertion. -/
theorem ex_table4_reachable : Reachable ex_params ex_table4 :=
  Reachable.set ex_table3 11 _ 4 (some AH_INS_NEW) ex_table3_reachable (by decide)

/-! ## The remembered tombstone -/

section SiteLast

variable {K V : Type} [Inhabited K] [Inhabited V]

/-- The remembered `site` is the last deleted bucket among those probed. -/
theorem site_seq_last (h : Table K V) (step mask start site0 : Nat) (t s : Nat) (hs : s < t)
    (hd : AH_ISDEL h.flags (probe_seq step mask start s) ≠ 0)
    (hlast : ∀ u, s < u → u < t → AH_ISDEL h.flags (probe_seq step mask start u) = 0) :
    site_seq h step mask start site0 t = probe_seq step mask start s := by
  induction t with
  | zero => omega
  | succ t ih =>
    by_cases hst : s = t
    · subst hst
      rw [site_seq, if_pos hd]
    · have hdt := hlast t (by omega) (by omega)
      rw [site_seq, if_neg (by simp [hdt])]
      exact ih (by omega) (fun u h1 h2 => hlast u h1 (by omega))

theorem site_seq_none (h : Table K V) (step mask start site0 : Nat) (t : Nat)
    (hnone : ∀ u, u < t → AH_ISDEL h.flags (probe_seq step mask start u) = 0) :
    site_seq h step mask start site0 t = site0 := by
  induction t with
  | zero => rfl
  | succ t ih =>
    rw [site_seq, if_neg (by simp [hnone t (by omega)])]
    exact ih (fun u hu => hnone u (by omega))

/-- The first empty bucket of a probe path is met within the first `2 ^ m` probes. -/
theorem first_empty_lt (h : Table K V) (step m i : Nat) (hm : m ≤ 32) (hi : i < 2 ^ m)
    (t0 : Nat) (hempty : AH_ISEMPTY h.flags (probe_seq step (2 ^ m - 1) i t0) ≠ 0)
    (hfirst : ∀ s, s < t0 → AH_ISEMPTY h.flags (probe_seq step (2 ^ m - 1) i s) = 0) :
    t0 < 2 ^ m := by
  by_contra hge
  have hpos : 0 < 2 ^ m := Nat.two_pow_pos m
  have h1 := hfirst (t0 - 2 ^ m) (by omega)
  have h2 : probe_seq step (2 ^ m - 1) i (t0 - 2 ^ m) = probe_seq step (2 ^ m - 1) i t0 := by
    rw [probe_seq_pow2 step m i hm hi, probe_seq_pow2 step m i hm hi]
    have : t0 * step = (t0 - 2 ^ m) * step + 2 ^ m * step := by
      rw [← Nat.add_mul]; congr 1; omega
    rw [this, ← Nat.add_assoc, Nat.add_mul_mod_self_left]
  rw [h2] at h1
  exact hempty h1

end SiteLast

/-! ## Reachability of the tombstone sample tables -/

/-- The table of keys 0, 8, 16 is reached from the fresh table by a resize to 8 buckets
and three insertions. -/
theorem ex_table_chain3_reachable : Reachable ex_params ex_table_chain3 :=
  have r0 : Reachable ex_params
      ({ nbucket := 8, size := 0, nused := 0, sup := 4, flags := [2863311530],
         keys := [0, 0, 0, 0, 0, 0, 0, 0],
         vals := ["", "", "", "", "", "", "", ""] } : Table Nat String) :=
    Reachable.resize alignhash_init 8 _ Reachable.init (by decide) (by decide)
  have r1 : Reachable ex_params
      ({ nbucket := 8, size := 1, nused := 1, sup := 4, flags := [2863311528],
         keys := [0, 0, 0, 0, 0, 0, 0, 0],
         vals := ["", "", "", "", "", "", "", ""] } : Table Nat String) :=
    Reachable.set _ 0 _ 0 (some AH_INS_NEW) r0 (by decide)
  have r2 : Reachable ex_params
      ({ nbucket := 8, size := 2, nused := 2, sup := 4, flags := [2863311520],
         keys := [0, 8, 0, 0, 0, 0, 0, 0],
         vals := ["", "", "", "", "", "", "", ""] } : Table Nat String) :=
    Reachable.set _ 8 _ 1 (some AH_INS_NEW) r1 (by decide)
  Reachable.set _ 16 _ 2 (some AH_INS_NEW) r2 (by decide)

/-- The table with tombstones in buckets 0 and 1 is reached by two deletions. -/
theorem ex_table_tombs_reachable : Reachable ex_params ex_table_tombs :=
  have r1 : Reachable ex_params (alignhash_del ex_table_chain3 0) :=
    Reachable.del _ 0 ex_table_chain3_reachable (by decide)
  have r2 : Reachable ex_params (alignhash_del (alignhash_del ex_table_chain3 0) 1) :=
    Reachable.del _ 1 r1 (by decide)
  have e : alignhash_del (alignhash_del ex_table_chain3 0) 1 = ex_table_tombs := by decide
  e ▸ r2

/-- The table of keys 0, 8, 16, 24 is reached by one more insertion. -/
theorem ex_table_chain4_reachable : Reachable ex_params ex_table_chain4 :=
  Reachable.set ex_table_chain3 24 _ 3 (some AH_INS_NEW) ex_table_chain3_reachable (by decide)

/-- The full-threshold table with tombstones in buckets 0 and 1 is reached by two
deletions. -/
theorem ex_table_chain4_tombs_reachable : Reachable ex_params ex_table_chain4_tombs :=
  have r1 : Reachable ex_params (alignhash_del ex_table_chain4 0) :=
    Reachable.del _ 0 ex_table_chain4_reachable (by decide)
  have r2 : Reachable ex_params (alignhash_del (alignhash_del ex_table_chain4 0) 1) :=
    Reachable.del _ 1 r1 (by decide)
  have e : alignhash_del (alignhash_del ex_table_chain4 0) 1 = ex_table_chain4_tombs := by
    decide
  e ▸ r2

/-! ## The padding tags stay empty -/

section Padding

variable {K V : Type} [Inhabited K] [Inhabited V]

theorem pad_fresh (len n : Nat) : pad_empty (List.replicate len 0xaaaaaaaa) n := by
  intro i _ hi
  rw [List.length_replicate] at hi
  rw [isempty_fresh len i hi]; decide

theorem pad_clear_empty (f : List Nat) (n x : Nat) (hx : x < n) (hp : pad_empty f n) :
    pad_empty (AH_CLEAR_EMPTY f x) n := by
  intro i hi hl
  rw [length_clear_empty] at hl
  rw [isempty_clear_empty_ne f x i (by omega)]
  exact hp i hi hl

theorem pad_clear_both (f : List Nat) (n x : Nat) (hx : x < n) (hp : pad_empty f n) :
    pad_empty (AH_CLEAR_BOTH f x) n := by
  intro i hi hl
  rw [length_clear_both] at hl
  rw [isempty_clear_both_ne f x i (by omega)]
  exact hp i hi hl

theorem pad_set_del (f : List Nat) (n x : Nat) (hp : pad_empty f n) :
    pad_empty (AH_SET_DEL f x) n := by
  intro i hi hl
  rw [length_set_del] at hl
  rw [isempty_set_del]
  exact hp i hi hl

theorem resize_find_le (nf : List Nat) (step mask : Nat) :
    ∀ (fuel i r : Nat), i ≤ mask → resize_find nf step mask fuel i = some r → r ≤ mask := by
  intro fuel
  induction fuel with
  | zero => intro i r _ h; exact Option.noConfusion h
  | succ f ih =>
    intro i r hi h
    by_cases he : AH_ISEMPTY nf i = 0
    · rw [resize_find_step nf step mask f i he] at h
      exact ih _ r (probe_next_le step mask i) h
    · rw [resize_find_stop nf step mask f i he] at h
      have := Option.some.inj h
      omega

/-- The displacement loop clears empty tags of buckets of the new layout only. -/
theorem kick_pad (P : Params K) (nb n mask : Nat) (hmask : mask < n) :
    ∀ (fuel : Nat) (s : Rehash K V) (key : K) (val : V) (s1 : Rehash K V),
      resize_kick P nb n mask fuel s key val = some s1 →
      pad_empty s.new_flags n → pad_empty s1.new_flags n := by
  intro fuel
  induction fuel with
  | zero => intro s key val s1 h; exact Option.noConfusion h
  | succ f ih =>
    intro s key val s1 h hp
    rw [resize_kick] at h
    split at h
    · exact Option.noConfusion h
    · rename_i i hfind
      have hi : i ≤ mask :=
        resize_find_le _ _ _ _ _ i Nat.and_le_right hfind
      split at h
      · exact ih _ _ _ s1 h (pad_clear_empty _ n i (by omega) hp)
      · have := Option.some.inj h
        rw [← this]
        exact pad_clear_empty _ n i (by omega) hp

theorem rehash_pad (P : Params K) (nb n mask : Nat) (hmask : mask < n) :
    ∀ (cnt j : Nat) (s s1 : Rehash K V),
      resize_rehash P nb n mask cnt j s = some s1 →
      pad_empty s.new_flags n → pad_empty s1.new_flags n := by
  intro cnt
  induction cnt with
  | zero =>
    intro j s s1 h hp
    rw [resize_rehash] at h
    rw [← Option.some.inj h]; exact hp
  | succ c ih =>
    intro j s s1 h hp
    rw [resize_rehash] at h
    split at h
    · split at h
      · exact Option.noConfusion h
      · rename_i s2 hk
        exact ih _ _ s1 h (kick_pad P nb n mask hmask _ _ _ _ s2 hk hp)
    · exact ih _ _ s1 h hp

/-- A successful resize leaves the padding tags empty. -/
theorem resize_pad (P : Params K) (h : Table K V) (n : Nat) (hn : n ≠ 0) (h1 : Table K V)
    (hr : alignhash_resize P h n = some (0, h1)) : pad_empty h1.flags h1.nbucket := by
  unfold alignhash_resize at hr
  simp only at hr
  split at hr
  · have : (-1 : Int) = 0 := congrArg Prod.fst (Option.some.inj hr)
    exact absurd this (by decide)
  · split at hr
    · exact Option.noConfusion hr
    · rename_i s hs
      have he : _ = h1 := congrArg Prod.snd (Option.some.inj hr)
      rw [← he]
      exact rehash_pad P _ n _ (mask_lt n hn) _ _ _ s hs (pad_fresh _ _)

/-- In every reachable table the padding tags are empty. -/
theorem reach_pad (P : Params K) (hl : lawful_eq P) (h : Table K V) (hr : Reachable P h) :
    pad_empty h.flags h.nbucket := by
  induction hr with
  | init => intro i _ hi; exact absurd hi (Nat.not_lt_zero _)
  | set h key h1 x r hr0 hs ih =>
    have hw := reach_wf P hl h hr0
    rcases set_cases P h key hl hw with ⟨_, h0, hw0, hsl, _, _, hor, he⟩ | ⟨_, _, he⟩
    · have hp0 : pad_empty h0.flags h0.nbucket := by
        rcases hor with ⟨_, e0⟩ | ⟨_, hres, hn0, _⟩
        · rw [e0]; exact ih
        · exact resize_pad P h (grow_size h) (by omega) h0 hres
      obtain ⟨h2, x2, r2, hi, _, hnb2, _, hx2, _, _, _, hcase⟩ :=
        set_insert_spec P h0 key hl hw0 hsl
      rw [he, hi] at hs
      have e2 : h2 = h1 := congrArg Prod.fst (Option.some.inj hs)
      rw [← e2]
      rcases hcase with ⟨_, _, e⟩ | ⟨_, _, _, e, _⟩ | ⟨_, _, _, _, e, _⟩
      · rw [e]; exact hp0
      · rw [e]; exact pad_clear_both h0.flags h0.nbucket x2 (by omega) hp0
      · rw [e]; exact pad_clear_both h0.flags h0.nbucket x2 (by omega) hp0
    · rw [he] at hs
      have e2 : h = h1 := congrArg Prod.fst (Option.some.inj hs)
      rw [← e2]; exact ih
  | del h x _ _ ih =>
    unfold alignhash_del
    split
    · exact pad_set_del _ _ _ ih
    · exact ih
  | clear h hr0 ih =>
    have hw := reach_wf P hl h hr0
    by_cases hnb : h.nbucket = 0
    · have hfl := hw.2.1
      rw [if_pos hnb] at hfl
      rw [clear_noalloc h (List.length_eq_zero.mp hfl)]; exact ih
    · rw [clear_eq P h hw hnb]
      exact pad_fresh _ _
  | resize h n h1 _ hn hres _ =>
    exact resize_pad P h n (by have := (pow2_pos n hn).1; omega) h1 hres
  | setval h x v _ _ ih => exact ih

end Padding

/-! ## Consequences of the probe invariant -/

section ProbePath

variable {K V : Type} [Inhabited K] [Inhabited V]

/-- A lookup that returns a bucket has walked to it over non-empty buckets only. -/
theorem get_loop_path (P : Params K) (h : Table K V) (key : K) (step mask last : Nat) :
    ∀ (fuel i r : Nat), get_loop P h key step mask last fuel i = some r → r ≠ h.nbucket →
      ∃ t, t < fuel ∧ probe_seq step mask i t = r ∧
        ∀ s, s ≤ t → AH_ISEMPTY h.flags (probe_seq step mask i s) = 0 := by
  intro fuel
  induction fuel with
  | zero => intro i r hg; exact Option.noConfusion hg
  | succ f ih =>
    intro i r hg hr
    by_cases hc : probe_cont P h key i
    · by_cases hl : probe_next step mask i = last
      · rw [get_loop_wrap P h key step mask last f i hc hl] at hg
        exact absurd (Option.some.inj hg).symm hr
      · rw [get_loop_step P h key step mask last f i hc hl] at hg
        obtain ⟨t, ht, hp, hall⟩ := ih _ r hg hr
        refine ⟨t + 1, by omega, ?_, ?_⟩
        · rw [probe_seq_succ_left]; exact hp
        · intro s hs
          cases s with
          | zero => exact hc.1
          | succ s =>
            rw [probe_seq_succ_left]
            exact hall s (by omega)
    · rw [get_loop_stop P h key step mask last f i hc] at hg
      have hg := Option.some.inj hg
      by_cases he : AH_ISEMPTY h.flags i ≠ 0
      · rw [if_pos he] at hg
        exact absurd hg.symm hr
      · rw [if_neg he] at hg
        refine ⟨0, by omega, hg, ?_⟩
        intro s hs
        have hs0 : s = 0 := by omega
        subst hs0
        simpa using he

/-- In a table with the probe invariant every occupied bucket is reached from the probe
start of its key without crossing an empty bucket. -/
theorem probe_inv_path (P : Params K) (h : Table K V) (hp : probe_inv P h) (i : Nat)
    (hi : i < h.nbucket) (ho : AH_ISEITHER h.flags i = 0) :
    ∃ t, t < h.nbucket ∧ probe_path P h (h.keys.getD i default) t = i ∧
      ∀ s, s ≤ t → AH_ISEMPTY h.flags (probe_path P h (h.keys.getD i default) s) = 0 := by
  have hg := hp i hi ho
  rw [alignhash_get_eq P h _ (by omega)] at hg
  exact get_loop_path P h _ _ _ _ _ _ i hg (by omega)

end ProbePath

/-! ## The threshold as a rounded product -/

/-- The threshold is `floor(nb * load_factor + 0.5)` in exact arithmetic, with load factor
4/5 under tier probing and 1/2 otherwise. -/
theorem load_threshold_floor (tier : Bool) (nb : Nat) :
    load_threshold tier nb = ⌊(nb : ℚ) * (if tier then 4 / 5 else 1 / 2) + 1 / 2⌋₊ := by
  unfold load_threshold
  cases tier
  · have e : (nb : ℚ) * (1 / 2) + 1 / 2 = ((nb + 1 : ℕ) : ℚ) / ((2 : ℕ) : ℚ) := by
      push_cast; ring
    simp only [Bool.false_eq_true, if_false]
    rw [e, Nat.floor_div_eq_div]
  · have e : (nb : ℚ) * (4 / 5) + 1 / 2 = ((8 * nb + 5 : ℕ) : ℚ) / ((10 : ℕ) : ℚ) := by
      push_cast; ring
    simp only [if_true]
    rw [e, Nat.floor_div_eq_div]

/-! ## The lookup finds every stored key -/

section GetComplete

variable {K V : Type} [Inhabited K] [Inhabited V]

/-- The lookup walks the probe path of the key up to the occupied bucket that holds it:
on a power-of-two table in which every occupied bucket is reached on the path of its key
before any empty bucket and occupied buckets hold different keys, `alignhash_get` returns
the bucket holding the key. -/
theorem get_complete (P : Params K) (h : Table K V) (key : K) (hl : lawful_eq P)
    (hp : is_pow2 h.nbucket) (hreach : probe_reach P h) (hdist : keys_distinct P h)
    (i : Nat) (hi : i < h.nbucket) (ho : AH_ISEITHER h.flags i = 0)
    (hq : P.hasheq (h.keys.getD i default) key = true) :
    alignhash_get P h key = some i := by
  obtain ⟨m, hm, hnb⟩ := hp
  have hk : h.keys.getD i default = key := (hl _ _).mp hq
  have hlt : 2 ^ m < 2 ^ 32 := Nat.pow_lt_pow_right (by decide) hm
  have hmask : (h.nbucket + 2 ^ 32 - 1) % 2 ^ 32 = 2 ^ m - 1 := by
    rw [mask_eq h.nbucket (by omega) (by omega), hnb]
  have hpath : ∀ t, probe_path P h key t =
      probe_seq (probe_step P key) (2 ^ m - 1) (probe_start P (2 ^ m) key) t := by
    intro t
    unfold probe_path
    rw [hmask, hnb]
  obtain ⟨t, ht, hti, hbefore⟩ := hreach i hi ho
  rw [hk] at hti hbefore
  have hoi := (iseither_zero _ _).mp ho
  have hc : ∀ s, s < t → probe_cont P h key
      (probe_seq (probe_step P key) (2 ^ m - 1) (probe_start P (2 ^ m) key) s) := by
    intro s hs
    rw [← hpath]
    refine ⟨hbefore s hs, ?_⟩
    by_cases hd : AH_ISDEL h.flags (probe_path P h key s) = 0
    · right
      by_contra hne
      have hq2 : P.hasheq (h.keys.getD (probe_path P h key s) default) key = true := by
        simpa using hne
      have hps : probe_path P h key s < h.nbucket := by
        rw [hpath, hnb]; exact probe_seq_lt P m hm key s
      have hos : AH_ISEITHER h.flags (probe_path P h key s) = 0 :=
        (iseither_zero _ _).mpr ⟨hbefore s hs, hd⟩
      have hsame : P.hasheq (h.keys.getD (probe_path P h key s) default)
          (h.keys.getD i default) = true := by
        rw [hk]; exact hq2
      have hpi := hdist _ hps i hi hos ho hsame
      rw [← hti, hpath, hpath] at hpi
      have := probe_seq_inj (probe_step P key) m _ (Nat.le_of_lt hm)
        (probe_start_lt P m hm key) (probe_step_odd2 P key) s t (by omega) (by omega) hpi
      omega
    · exact Or.inl hd
  have hstop : ¬ probe_cont P h key
      (probe_seq (probe_step P key) (2 ^ m - 1) (probe_start P (2 ^ m) key) t) := by
    rw [← hpath, hti]
    rintro ⟨_, hd | hf⟩
    · exact hd hoi.2
    · rw [hq] at hf
      exact Bool.noConfusion hf
  have hg := get_found P h key m hm hnb t (by omega) hc hstop
  rw [← hpath, hti, if_neg (by simp [hoi.1])] at hg
  exact hg

/-- In a well-formed table every occupied bucket is reached on the path of its key. -/
theorem wf_probe_reach (P : Params K) (h : Table K V) (hw : WF P h) : probe_reach P h := by
  intro i hi ho
  obtain ⟨t, ht, hp, hall⟩ := probe_inv_path P h hw.2.2.2.2.2.2.2 i hi ho
  exact ⟨t, ht, hp, fun s hs => hall s (by omega)⟩

/-- In a well-formed table occupied buckets hold different keys. -/
theorem wf_keys_distinct (P : Params K) (h : Table K V) (hl : lawful_eq P) (hw : WF P h) :
    keys_distinct P h := by
  intro i hi j hj hoi hoj hq
  exact wf_distinct P h hw i j hi hj hoi hoj ((hl _ _).mp hq)

end GetComplete

/-! ## The claims -/

section Claims

variable {K V : Type} [Inhabited K] [Inhabited V]

/-- C1: on a well-formed table, a resize to a power-of-two bucket count (growing,
shrinking or keeping the size) that passes the feasibility check returns 0; and when
the resize returns 0, every key present before is found by `alignhash_get` at an
occupied index below the new `nbucket` whose value slot, in map mode, holds the value
stored with the key before, every key absent before is still not found, and `size` is
unchanged. -/
theorem C1_resize_preserves_membership (P : Params K) (h : Table K V) (n : Nat)
    (hl : lawful_eq P) (hw : WF P h) (hn : is_pow2 n) :
    (h.size < load_threshold P.tier n → ∃ h1, alignhash_resize P h n = some (0, h1)) ∧
    ∀ h1, alignhash_resize P h n = some (0, h1) →
      h1.nbucket = n ∧ h1.size = h.size ∧
      (∀ key, present P h key →
        ∃ x0 x, alignhash_get P h key = some x0 ∧ alignhash_get P h1 key = some x ∧
          x < h1.nbucket ∧ AH_ISEITHER h1.flags x = 0 ∧ h1.keys.getD x default = key ∧
          (P.ismap = true → h1.vals.getD x default = h.vals.getD x0 default)) ∧
      (∀ key, ¬ present P h key → alignhash_get P h1 key = some h1.nbucket) := by
  constructor
  · intro hf
    obtain ⟨h1, hr, _⟩ := resize_spec P h hl hw n hn hf
    exact ⟨h1, hr⟩
  · intro h1 hres
    have hf : h.size < load_threshold P.tier n := by
      rcases resize_fields P h n 0 h1 hres with ⟨g, _⟩ | ⟨_, _, _, _, _, g⟩
      · exact absurd g (by decide)
      · exact g
    obtain ⟨h1', hr, hw1, hnb, hsz, _, _, _, hm1, hm2⟩ := resize_spec P h hl hw n hn hf
    have he : h1' = h1 := by
      rw [hr] at hres
      exact congrArg Prod.snd (Option.some.inj hres)
    subst he
    refine ⟨hnb, hsz, ?_, ?_⟩
    · intro key hp
      obtain ⟨i0, hi0, ho, hk⟩ := (present_iff_key P h key hl).mp hp
      obtain ⟨x, hx, hox, hkx, hvx⟩ := hm1 i0 hi0 ho
      have hg0 := wf_probe P h hw i0 hi0 ho
      have hg1 := wf_probe P h1' hw1 x (by omega) hox
      rw [hk] at hg0
      rw [hkx, hk] at hg1
      exact ⟨i0, x, hg0, hg1, by omega, hox, by rw [hkx, hk], hvx⟩
    · intro key hnp
      obtain ⟨r, hg⟩ := alignhash_get_total P h1' key hw1.1
      rcases alignhash_get_sound P h1' key r hg with hs | ⟨hs1, hs2, hs3⟩
      · rw [hg, hs]
      · exfalso
        apply hnp
        obtain ⟨i0, g1, g2, g3, _⟩ := hm2 r (by omega) hs2
        exact ⟨i0, g1, g2, by rw [g3]; exact hs3⟩

/-- Instance of C1: the table of keys 1, 2, 3 in 8 buckets resized to 16 buckets. -/
theorem C1_witness :
    lawful_eq ex_params ∧ WF ex_params ex_table3 ∧ is_pow2 16 ∧
    ((ex_table3.size < load_threshold ex_params.tier 16 →
      ∃ h1, alignhash_resize ex_params ex_table3 16 = some (0, h1)) ∧
    ∀ h1, alignhash_resize ex_params ex_table3 16 = some (0, h1) →
      h1.nbucket = 16 ∧ h1.size = ex_table3.size ∧
      (∀ key, present ex_params ex_table3 key →
        ∃ x0 x, alignhash_get ex_params ex_table3 key = some x0 ∧
          alignhash_get ex_params h1 key = some x ∧
          x < h1.nbucket ∧ AH_ISEITHER h1.flags x = 0 ∧ h1.keys.getD x default = key ∧
          (ex_params.ismap = true →
            h1.vals.getD x default = ex_table3.vals.getD x0 default)) ∧
      (∀ key, ¬ present ex_params ex_table3 key →
        alignhash_get ex_params h1 key = some h1.nbucket)) :=
  ⟨ex_params_lawful, by decide, by decide,
    C1_resize_preserves_membership ex_params ex_table3 16 ex_params_lawful (by decide)
      (by decide)⟩

/-- C2: on a well-formed table `alignhash_set` returns; whenever it reports an outcome
(`AH_INS_NEW`, `AH_INS_DEL` or `AH_INS_ERR`), the returned index is below `nbucket` of
the resulting table, that bucket is occupied and holds the key, and `alignhash_get` of
the key returns exactly that index; an outcome is reported unless the growth step
fails. -/
theorem C2_set_get_roundtrip (P : Params K) (h : Table K V) (key : K) (hl : lawful_eq P)
    (hw : WF P h) :
    ∃ h1 x r, alignhash_set P h key = some (h1, x, r) ∧
      (∀ c, r = some c →
        (c = AH_INS_NEW ∨ c = AH_INS_DEL ∨ c = AH_INS_ERR) ∧
        x < h1.nbucket ∧ AH_ISEITHER h1.flags x = 0 ∧ h1.keys.getD x default = key ∧
        alignhash_get P h1 key = some x) ∧
      ((h.nused < h.sup ∨ h.size < load_threshold P.tier (grow_size h)) → r ≠ none) := by
  rcases set_cases P h key hl hw with ⟨_, h0, hw0, hsl, _, _, _, hset⟩ | ⟨hg, hf, hset⟩
  · obtain ⟨h1, x, c, hins, _, _, _, hx, ho, hk, hget, hcase⟩ :=
      set_insert_spec P h0 key hl hw0 hsl
    refine ⟨h1, x, some c, by rw [hset, hins], ?_, fun _ hx => Option.noConfusion hx⟩
    intro c' hc'
    have hc' : c = c' := Option.some.inj hc'
    subst hc'
    refine ⟨?_, hx, ho, hk, hget⟩
    rcases hcase with ⟨_, hr, _⟩ | ⟨_, _, hr, _⟩ | ⟨_, _, _, hr, _⟩
    · exact Or.inr (Or.inr hr)
    · exact Or.inl hr
    · exact Or.inr (Or.inl hr)
  · refine ⟨h, h.nbucket, none, hset, fun c hc => Option.noConfusion hc, ?_⟩
    rintro (hx | hx) <;> omega

/-- Instance of C2: key 11 set into the table of keys 1, 2, 3. -/
theorem C2_witness :
    lawful_eq ex_params ∧ WF ex_params ex_table3 ∧
    ∃ h1 x r, alignhash_set ex_params ex_table3 11 = some (h1, x, r) ∧
      (∀ c, r = some c →
        (c = AH_INS_NEW ∨ c = AH_INS_DEL ∨ c = AH_INS_ERR) ∧
        x < h1.nbucket ∧ AH_ISEITHER h1.flags x = 0 ∧ h1.keys.getD x default = 11 ∧
        alignhash_get ex_params h1 11 = some x) ∧
      ((ex_table3.nused < ex_table3.sup ∨
        ex_table3.size < load_threshold ex_params.tier (grow_size ex_table3)) → r ≠ none) :=
  ⟨ex_params_lawful, by decide,
    C2_set_get_roundtrip ex_params ex_table3 11 ex_params_lawful (by decide)⟩

/-- C3: on a table whose `nbucket` is 0 or a power of two, in which every occupied bucket
lies on the probe path of its key with no empty bucket before it and no two occupied
buckets hold equal keys (so on every well-formed table), `alignhash_get` returns; the
result differs from `nbucket` exactly when some occupied bucket holds a key equal to the
key looked up, and then it is the index of the occupied bucket below `nbucket` that
holds that key; otherwise the result is `nbucket`; on any table without buckets the
result is `0`, whatever the arrays hold. -/
theorem C3_get_sound_complete (P : Params K) (h : Table K V) (key : K)
    (hl : lawful_eq P) (hp : h.nbucket = 0 ∨ is_pow2 h.nbucket)
    (hreach : probe_reach P h) (hdist : keys_distinct P h) :
    ∃ r, alignhash_get P h key = some r ∧
      (r ≠ h.nbucket ↔ present P h key) ∧
      (r ≠ h.nbucket →
        r < h.nbucket ∧ AH_ISEITHER h.flags r = 0 ∧ h.keys.getD r default = key) ∧
      (¬ present P h key → r = h.nbucket) ∧
      (∀ i, i < h.nbucket → AH_ISEITHER h.flags i = 0 → h.keys.getD i default = key →
        r = i) ∧
      (∀ g : Table K V, g.nbucket = 0 → alignhash_get P g key = some 0) := by
  obtain ⟨r, hr⟩ := alignhash_get_total P h key hp
  have hs := alignhash_get_sound P h key r hr
  have hfind : ∀ i, i < h.nbucket → AH_ISEITHER h.flags i = 0 →
      P.hasheq (h.keys.getD i default) key = true → r = i := by
    intro i hi ho hq
    have hpow : is_pow2 h.nbucket := by
      rcases hp with h0 | h0
      · omega
      · exact h0
    have hg := get_complete P h key hl hpow hreach hdist i hi ho hq
    rw [hr] at hg
    exact Option.some.inj hg
  have hiff : r ≠ h.nbucket ↔ present P h key := by
    constructor
    · intro hne
      rcases hs with hs | hs
      · exact absurd hs hne
      · exact ⟨r, hs⟩
    · rintro ⟨i, hi, ho, hq⟩
      have := hfind i hi ho hq
      omega
  refine ⟨r, hr, hiff, ?_, ?_, ?_, ?_⟩
  · intro hne
    rcases hs with hs | hs
    · exact absurd hs hne
    · exact ⟨hs.1, hs.2.1, (hl _ _).mp hs.2.2⟩
  · intro hnp
    by_contra hne
    exact hnp (hiff.mp hne)
  · intro i hi ho hk
    exact hfind i hi ho ((hl _ _).mpr hk)
  · intro g hg
    unfold alignhash_get
    simp [hg]

/-- Instance of C3: key 24 looked up in the table with tombstones in buckets 0 and 1 and
keys 16 and 24 in buckets 2 and 3; its probe starts at bucket 0, passes the two
tombstones and key 16, and stops at bucket 3. -/
theorem C3_witness :
    lawful_eq ex_params ∧
    (ex_table_chain4_tombs.nbucket = 0 ∨ is_pow2 ex_table_chain4_tombs.nbucket) ∧
    probe_reach ex_params ex_table_chain4_tombs ∧
    keys_distinct ex_params ex_table_chain4_tombs ∧
    probe_start ex_params ex_table_chain4_tombs.nbucket 24 = 0 ∧
    alignhash_get ex_params ex_table_chain4_tombs 24 = some 3 ∧
    ∃ r, alignhash_get ex_params ex_table_chain4_tombs 24 = some r ∧
      (r ≠ ex_table_chain4_tombs.nbucket ↔ present ex_params ex_table_chain4_tombs 24) ∧
      (r ≠ ex_table_chain4_tombs.nbucket →
        r < ex_table_chain4_tombs.nbucket ∧ AH_ISEITHER ex_table_chain4_tombs.flags r = 0 ∧
          ex_table_chain4_tombs.keys.getD r default = 24) ∧
      (¬ present ex_params ex_table_chain4_tombs 24 → r = ex_table_chain4_tombs.nbucket) ∧
      (∀ i, i < ex_table_chain4_tombs.nbucket →
        AH_ISEITHER ex_table_chain4_tombs.flags i = 0 →
        ex_table_chain4_tombs.keys.getD i default = 24 → r = i) ∧
      (∀ g : Table Nat String, g.nbucket = 0 → alignhash_get ex_params g 24 = some 0) :=
  ⟨ex_params_lawful, by decide, by decide, by decide, by decide, by decide,
    C3_get_sound_complete ex_params ex_table_chain4_tombs 24 ex_params_lawful (by decide)
      (by decide) (by decide)⟩

/-- C4 (amended): on a well-formed table, after an `alignhash_set` of a key that
reported an outcome, the key sits in exactly one occupied bucket, and a second
`alignhash_set` of the same key returns with `size` unchanged; if it reports an outcome,
the outcome is `AH_INS_ERR` and the returned index is the occupied bucket holding the
key; it reports no outcome only when its growth step fails, and then the table is
unchanged. -/
theorem C4_no_duplicates (P : Params K) (h : Table K V) (key : K) (hl : lawful_eq P)
    (hw : WF P h) (h1 : Table K V) (x1 c1 : Nat)
    (hfirst : alignhash_set P h key = some (h1, x1, some c1)) :
    (∀ j, j < h1.nbucket → AH_ISEITHER h1.flags j = 0 → h1.keys.getD j default = key →
      j = x1) ∧
    ∃ h2 x2 r2, alignhash_set P h1 key = some (h2, x2, r2) ∧ h2.size = h1.size ∧
      (r2 = some AH_INS_ERR ∨ r2 = none) ∧
      (r2 = some AH_INS_ERR →
        x2 < h2.nbucket ∧ AH_ISEITHER h2.flags x2 = 0 ∧ h2.keys.getD x2 default = key ∧
        alignhash_get P h2 key = some x2 ∧
        ∀ j, j < h2.nbucket → AH_ISEITHER h2.flags j = 0 →
          h2.keys.getD j default = key → j = x2) ∧
      (r2 = none → h2 = h1 ∧ h1.sup ≤ h1.nused ∧
        load_threshold P.tier (grow_size h1) ≤ h1.size) ∧
      ((h1.nused < h1.sup ∨ h1.size < load_threshold P.tier (grow_size h1)) →
        r2 = some AH_INS_ERR) := by
  obtain ⟨hw1, hp1, hx1, ho1, hk1⟩ := set_wf P h key hl hw h1 x1 c1 hfirst
  constructor
  · intro j hj hoj hkj
    exact wf_distinct P h1 hw1 j x1 hj hx1 hoj ho1 (by rw [hkj, hk1])
  · rcases set_cases P h1 key hl hw1 with ⟨_, h0, hw0, hsl, hsz, hpres, _, hset⟩ |
      ⟨hg, hf, hset⟩
    · obtain ⟨h2, x2, c2, hins, hw2, _, _, hx2, ho2, hk2, hget2, hcase⟩ :=
        set_insert_spec P h0 key hl hw0 hsl
      have hp0 : present P h0 key := (hpres key).mpr hp1
      rcases hcase with ⟨_, hr, he⟩ | ⟨hnp, _⟩ | ⟨hnp, _⟩
      · subst hr
        refine ⟨h2, x2, some AH_INS_ERR, by rw [hset, hins], by rw [he, hsz], Or.inl rfl,
          fun _ => ⟨hx2, ho2, hk2, hget2, ?_⟩, fun hx => Option.noConfusion hx, fun _ => rfl⟩
        intro j hj hoj hkj
        exact wf_distinct P h2 hw2 j x2 hj hx2 hoj ho2 (by rw [hkj, hk2])
      · exact absurd hp0 hnp
      · exact absurd hp0 hnp
    · refine ⟨h1, h1.nbucket, none, hset, rfl, Or.inr rfl, fun hx => Option.noConfusion hx,
        fun _ => ⟨rfl, hg, hf⟩, ?_⟩
      rintro (hx | hx) <;> omega

/-- Instance of C4: key 11 set twice into the table of keys 1, 2, 3; the second call grows the table. -/
theorem C4_witness :
    lawful_eq ex_params ∧ WF ex_params ex_table3 ∧
    alignhash_set ex_params ex_table3 11 = some (ex_table4, 4, some AH_INS_NEW) ∧
    ((∀ j, j < ex_table4.nbucket → AH_ISEITHER ex_table4.flags j = 0 →
      ex_table4.keys.getD j default = 11 → j = 4) ∧
    ∃ h2 x2 r2, alignhash_set ex_params ex_table4 11 = some (h2, x2, r2) ∧
      h2.size = ex_table4.size ∧
      (r2 = some AH_INS_ERR ∨ r2 = none) ∧
      (r2 = some AH_INS_ERR →
        x2 < h2.nbucket ∧ AH_ISEITHER h2.flags x2 = 0 ∧ h2.keys.getD x2 default = 11 ∧
        alignhash_get ex_params h2 11 = some x2 ∧
        ∀ j, j < h2.nbucket → AH_ISEITHER h2.flags j = 0 →
          h2.keys.getD j default = 11 → j = x2) ∧
      (r2 = none → h2 = ex_table4 ∧ ex_table4.sup ≤ ex_table4.nused ∧
        load_threshold ex_params.tier (grow_size ex_table4) ≤ ex_table4.size) ∧
      ((ex_table4.nused < ex_table4.sup ∨
        ex_table4.size < load_threshold ex_params.tier (grow_size ex_table4)) →
        r2 = some AH_INS_ERR)) :=
  ⟨ex_params_lawful, by decide, by decide,
    C4_no_duplicates ex_params ex_table3 11 ex_params_lawful (by decide) ex_table4 4
      AH_INS_NEW (by decide)⟩

/-- C4 (counterexample): under linear probing the empty table of one bucket (reached by a
resize to 1, well formed) takes key 7 with outcome `AH_INS_NEW`; the second `alignhash_set` of key 7 finds
`nused >= sup`, its resize to 2 buckets is refused (`size = 1 >= 1`), and it returns
`nbucket` without reporting `AH_INS_ERR`. -/
theorem C4_counterexample :
    Reachable ex_params ex_table1 ∧ WF ex_params ex_table1 ∧
    alignhash_set ex_params ex_table1 7 = some (ex_table1_full, 0, some AH_INS_NEW) ∧
    alignhash_set ex_params ex_table1_full 7 = some (ex_table1_full, 1, none) ∧
    ¬ ∃ h2 x2, alignhash_set ex_params ex_table1_full 7 = some (h2, x2, some AH_INS_ERR) := by
  refine ⟨ex_table1_reachable, by decide, by decide, by decide, ?_⟩
  rintro ⟨h2, x2, hx⟩
  have h0 : alignhash_set ex_params ex_table1_full 7 = some (ex_table1_full, 1, none) := by
    decide
  rw [h0] at hx
  have := congrArg (fun p => p.2.2) (Option.some.inj hx)
  exact Option.noConfusion this

/-- C6: on a well-formed table with `nused < sup`, `alignhash_set` of an absent key
returns a bucket `x` below `nbucket`, stores the key there and marks it occupied; either
bucket `x` was empty, the outcome is `AH_INS_NEW` and `size` and `nused` both grow by
one, or bucket `x` was deleted, the outcome is `AH_INS_DEL`, `size` grows by one and
`nused` is unchanged; the second case is the one where the probe path of the key meets
a deleted bucket before its first empty bucket. -/
theorem C6_set_absent_outcome (P : Params K) (h : Table K V) (key : K) (hl : lawful_eq P)
    (hw : WF P h) (hno : h.nused < h.sup) (habs : ¬ present P h key) :
    ∃ h1 x r, alignhash_set P h key = some (h1, x, some r) ∧
      x < h.nbucket ∧ h1.keys.getD x default = key ∧ AH_ISEITHER h1.flags x = 0 ∧
      ((AH_ISEMPTY h.flags x ≠ 0 ∧ r = AH_INS_NEW ∧ h1.size = h.size + 1 ∧
          h1.nused = h.nused + 1) ∨
        (AH_ISEMPTY h.flags x = 0 ∧ AH_ISDEL h.flags x ≠ 0 ∧ r = AH_INS_DEL ∧
          h1.size = h.size + 1 ∧ h1.nused = h.nused)) ∧
      (r = AH_INS_DEL ↔ tomb_before P h key) := by
  have hs := wf_sup_le P h hw
  obtain ⟨h1, x, r, hset, _, hnb, _, hx, ho, hk, _, hcase⟩ :=
    set_insert_spec P h key hl hw (by omega)
  rw [← set_no_growth P h key hno] at hset
  refine ⟨h1, x, r, hset, by omega, hk, ho, ?_, ?_⟩
  · rcases hcase with ⟨hp, _⟩ | ⟨_, he, hr, h1e, _⟩ | ⟨_, he, hd, hr, h1e, _⟩
    · exact absurd hp habs
    · left; subst h1e; exact ⟨he, hr, rfl, rfl⟩
    · right; subst h1e; exact ⟨he, hd, hr, rfl, rfl⟩
  · rcases hcase with ⟨hp, _⟩ | ⟨_, he, hr, h1e, htb⟩ | ⟨_, he, hd, hr, h1e, htb⟩
    · exact absurd hp habs
    · rw [hr]; exact ⟨fun hx => by simp [AH_INS_NEW, AH_INS_DEL] at hx, fun hx => absurd hx htb⟩
    · rw [hr]; exact ⟨fun _ => htb, fun _ => rfl⟩

/-- Instance of C6: the absent key 11 set into the table of keys 1, 2, 3. -/
theorem C6_witness :
    lawful_eq ex_params ∧ WF ex_params ex_table3 ∧ ex_table3.nused < ex_table3.sup ∧
    ¬ present ex_params ex_table3 11 ∧
    ∃ h1 x r, alignhash_set ex_params ex_table3 11 = some (h1, x, some r) ∧
      x < ex_table3.nbucket ∧ h1.keys.getD x default = 11 ∧ AH_ISEITHER h1.flags x = 0 ∧
      ((AH_ISEMPTY ex_table3.flags x ≠ 0 ∧ r = AH_INS_NEW ∧ h1.size = ex_table3.size + 1 ∧
          h1.nused = ex_table3.nused + 1) ∨
        (AH_ISEMPTY ex_table3.flags x = 0 ∧ AH_ISDEL ex_table3.flags x ≠ 0 ∧
          r = AH_INS_DEL ∧ h1.size = ex_table3.size + 1 ∧ h1.nused = ex_table3.nused)) ∧
      (r = AH_INS_DEL ↔ tomb_before ex_params ex_table3 11) :=
  ⟨ex_params_lawful, by decide, by decide, by decide,
    C6_set_absent_outcome ex_params ex_table3 11 ex_params_lawful (by decide) (by decide)
      (by decide)⟩

/-- C7: in every table reachable from `alignhash_init` by `alignhash_set`,
`alignhash_del`, `alignhash_clear`, successful power-of-two `alignhash_resize` and value
stores, `sup <= nbucket` and `nused <= sup` hold; in particular the table left by any
`alignhash_set` that reports an outcome satisfies `nused <= sup` and `sup <= nbucket`. -/
theorem C7_load_factor_bound (P : Params K) (h : Table K V) (hr : Reachable P h) :
    h.sup ≤ h.nbucket ∧ h.nused ≤ h.sup ∧
    ∀ key h1 x c, alignhash_set P h key = some (h1, x, some c) →
      h1.nused ≤ h1.sup ∧ h1.sup ≤ h1.nbucket := by
  have hi := reach_inv P h hr
  refine ⟨by rw [hi.1]; exact load_threshold_le _ _, hi.2.1, ?_⟩
  intro key h1 x c hs
  have hi1 := reach_inv P h1 (Reachable.set h key h1 x (some c) hr hs)
  exact ⟨hi1.2.1, by rw [hi1.1]; exact load_threshold_le _ _⟩

/-- Instance of C7: the one-bucket table reached by a resize to 1, and a set on it. -/
theorem C7_witness :
    Reachable ex_params ex_table1 ∧
    (ex_table1.sup ≤ ex_table1.nbucket ∧ ex_table1.nused ≤ ex_table1.sup ∧
      ∀ key h1 x c, alignhash_set ex_params ex_table1 key = some (h1, x, some c) →
        h1.nused ≤ h1.sup ∧ h1.sup ≤ h1.nbucket) ∧
    alignhash_set ex_params ex_table1 7 = some (ex_table1_full, 0, some AH_INS_NEW) :=
  ⟨Reachable.resize alignhash_init 1 ex_table1 Reachable.init (by decide) (by decide),
    C7_load_factor_bound ex_params ex_table1
      (Reachable.resize alignhash_init 1 ex_table1 Reachable.init (by decide) (by decide)),
    by decide⟩

/-- C8 (amended): `alignhash_resize` returns -1, with the table unchanged in every
field, exactly when `size` is at least the threshold `floor(new_nbucket * load_factor
+ 0.5)` of the requested size; otherwise, on a well-formed table and a power-of-two
request, it returns 0.  Under linear probing and a power-of-two request the threshold
test is the test `size >= new_nbucket * load_factor` of the specification. -/
theorem C8_resize_feasibility (P : Params K) (h : Table K V) (n : Nat) :
    (load_threshold P.tier n ≤ h.size → alignhash_resize P h n = some (-1, h)) ∧
    (∀ r h1, alignhash_resize P h n = some (r, h1) →
      (r = -1 ∨ r = 0) ∧ (r = -1 ↔ load_threshold P.tier n ≤ h.size) ∧ (r = -1 → h1 = h)) ∧
    (lawful_eq P → WF P h → is_pow2 n → h.size < load_threshold P.tier n →
      ∃ h1, alignhash_resize P h n = some (0, h1)) ∧
    (P.tier = false → is_pow2 n →
      (load_threshold P.tier n ≤ h.size ↔ spec_infeasible P.tier h.size n)) := by
  refine ⟨alignhash_resize_fail P h n, ?_, ?_, ?_⟩
  · intro r h1 hr
    by_cases hf : load_threshold P.tier n ≤ h.size
    · rw [alignhash_resize_fail P h n hf] at hr
      have hr := Option.some.inj hr
      have h1e : (-1 : Int) = r := congrArg Prod.fst hr
      have h2e : h = h1 := congrArg Prod.snd hr
      exact ⟨Or.inl h1e.symm, ⟨fun _ => hf, fun _ => h1e.symm⟩, fun _ => h2e.symm⟩
    · have hr0 : r = 0 := by
        unfold alignhash_resize at hr
        simp only [ge_iff_le, hf, if_false] at hr
        split at hr
        · exact Option.noConfusion hr
        · exact (congrArg Prod.fst (Option.some.inj hr)).symm
      refine ⟨Or.inr hr0, ⟨fun hx => ?_, fun hx => absurd hx hf⟩, fun hx => ?_⟩
      · rw [hr0] at hx; exact absurd hx (by decide)
      · rw [hr0] at hx; exact absurd hx (by decide)
  · intro hl hw hn hf
    obtain ⟨h1, hr, _⟩ := resize_spec P h hl hw n hn hf
    exact ⟨h1, hr⟩
  · intro ht hn
    obtain ⟨m, _, rfl⟩ := hn
    unfold load_threshold spec_infeasible
    simp only [ht, Bool.false_eq_true, if_false]
    rcases m with _ | m
    · simp; omega
    · rw [Nat.pow_succ]; omega

/-- Instance of C8: the table of keys 1, 2, 3 is resized to 16 buckets and refused 4 buckets. -/
theorem C8_witness :
    ((lawful_eq ex_params ∧ WF ex_params ex_table3 ∧ is_pow2 16 ∧
      ex_table3.size < load_threshold ex_params.tier 16) ∧
      ∃ h1, alignhash_resize ex_params ex_table3 16 = some (0, h1)) ∧
    ((load_threshold ex_params.tier 4 ≤ ex_table3.size) ∧
      alignhash_resize ex_params ex_table3 4 = some (-1, ex_table3)) :=
  ⟨⟨⟨ex_params_lawful, by decide, by decide, by decide⟩,
      (C8_resize_feasibility ex_params ex_table3 16).2.2.1 ex_params_lawful (by decide)
        (by decide) (by decide)⟩,
    ⟨by decide, (C8_resize_feasibility ex_params ex_table3 4).1 (by decide)⟩⟩

/-- C8 (counterexample): built with tier probing (load factor 0.8), the table reached by
inserting keys 1, 2, 3 (4 buckets, well formed) is refused a resize to 4 buckets, although
`3 >= 4 * 0.8` is false: the code compares `size` with `floor(4 * 0.8 + 0.5) = 3`. -/
theorem C8_counterexample :
    Reachable ex_params_tier ex_table3_tier ∧ WF ex_params_tier ex_table3_tier ∧
    is_pow2 4 ∧
    alignhash_resize ex_params_tier ex_table3_tier 4 = some (-1, ex_table3_tier) ∧
    ¬ spec_infeasible ex_params_tier.tier ex_table3_tier.size 4 :=
  ⟨ex_table3_tier_reachable, by decide, by decide, by decide, by decide⟩

/-- C9 (amended): on a well-formed table, `alignhash_set` with `nused < sup` reports an
outcome and leaves `nbucket` and `sup` unchanged; on a table without buckets (as
`alignhash_init` returns) it resizes to 2 buckets and reports `AH_INS_NEW` with `size`
1; with `nused >= sup`, `nbucket > 0` and `size` below the threshold of the doubled
bucket count it resizes to exactly `2 * nbucket` and reports an outcome; with
`nused >= sup` and `size` at or above that threshold (or the doubled count wrapping to
0) the resize is refused and the call returns `nbucket` with the table unchanged and no
outcome. -/
theorem C9_growth_rule (P : Params K) (h : Table K V) (key : K) (hl : lawful_eq P)
    (hw : WF P h) :
    (h.nused < h.sup →
      ∃ h1 x c, alignhash_set P h key = some (h1, x, some c) ∧
        h1.nbucket = h.nbucket ∧ h1.sup = h.sup) ∧
    (h.nbucket = 0 →
      h.sup ≤ h.nused ∧
      ∃ h0 h1 x, alignhash_resize P h 2 = some (0, h0) ∧ h0.nbucket = 2 ∧
        alignhash_set P h key = set_insert P h0 key ∧
        alignhash_set P h key = some (h1, x, some AH_INS_NEW) ∧
        h1.nbucket = 2 ∧ h1.size = 1) ∧
    (h.sup ≤ h.nused → h.nbucket ≠ 0 → h.size < load_threshold P.tier (grow_size h) →
      ∃ h0 h1 x c, alignhash_resize P h (2 * h.nbucket) = some (0, h0) ∧
        h0.nbucket = 2 * h.nbucket ∧
        alignhash_set P h key = set_insert P h0 key ∧
        alignhash_set P h key = some (h1, x, some c) ∧
        h1.nbucket = 2 * h.nbucket ∧ h1.sup = load_threshold P.tier (2 * h.nbucket)) ∧
    (h.sup ≤ h.nused → load_threshold P.tier (grow_size h) ≤ h.size →
      alignhash_set P h key = some (h, h.nbucket, none)) := by
  refine ⟨?_, ?_, ?_, ?_⟩
  · intro hno
    have := wf_sup_le P h hw
    obtain ⟨h1, x, c, hins, _, hnb, hsup, _⟩ := set_insert_spec P h key hl hw (by omega)
    exact ⟨h1, x, c, by rw [set_no_growth P h key hno, hins], hnb, hsup⟩
  · intro hnb
    have hsz : h.size = 0 := by rw [hw.2.2.2.2.1, hnb]; rfl
    have hnu : h.nused = 0 := by rw [hw.2.2.2.2.2.1, hnb]; rfl
    have hsup : h.sup = 0 := by rw [hw.2.2.2.2.2.2.1, hnb, load_threshold_zero]
    have hgs : grow_size h = 2 := by unfold grow_size; simp [hnb]
    have hf : h.size < load_threshold P.tier (grow_size h) := by
      rw [hsz, hgs]; unfold load_threshold; cases P.tier <;> simp
    refine ⟨by omega, ?_⟩
    obtain ⟨h0, hr, hw0, hnb0, hsz0, hsl, _, hpres, hset⟩ :=
      set_grow_spec P h key hl hw (by omega) hf
    obtain ⟨h0', hr', _, _, _, _, _, hnodel, _, _⟩ :=
      resize_spec P h hl hw (grow_size h) (grow_size_pow2 P h hw hf).1 hf
    have hh : h0' = h0 := by
      rw [hr] at hr'
      exact (congrArg Prod.snd (Option.some.inj hr')).symm
    subst hh
    obtain ⟨h1, x, c, hins, _, hnb1, _, _, _, _, _, hcase⟩ :=
      set_insert_spec P h0' key hl hw0 hsl
    have hnp : ¬ present P h key := by
      rintro ⟨i, hi, _⟩; omega
    rw [hgs] at hr hnb0
    rcases hcase with ⟨hp, _⟩ | ⟨_, _, hc, h1e, _⟩ | ⟨_, _, hd, _⟩
    · exact absurd ((hpres key).mp hp) hnp
    · subst hc
      refine ⟨h0', h1, x, hr, hnb0, hset, by rw [hset, hins], by rw [hnb1, hnb0], ?_⟩
      rw [h1e]
      show h0'.size + 1 = 1
      omega
    · exact absurd (hnodel x) hd
  · intro hg hnb hf
    have hp := grow_size_pow2 P h hw hf
    have hgs := hp.2.1 hnb
    obtain ⟨h0, hr, hw0, hnb0, _, hsl, hsup0, _, hset⟩ :=
      set_grow_spec P h key hl hw hg hf
    obtain ⟨h1, x, c, hins, _, hnb1, hsup1, _⟩ := set_insert_spec P h0 key hl hw0 hsl
    rw [hgs] at hr hnb0 hsup0
    exact ⟨h0, h1, x, c, hr, hnb0, hset, by rw [hset, hins], by rw [hnb1, hnb0],
      by rw [hsup1, hsup0]⟩
  · intro hg hf
    exact set_fail P h key hg hf

/-- Instance of C9: the first insertion into the table returned by `alignhash_init`. -/
theorem C9_witness :
    lawful_eq ex_params ∧ WF ex_params (alignhash_init : Table Nat String) ∧
    ((alignhash_init : Table Nat String).nbucket = 0 →
      (alignhash_init : Table Nat String).sup ≤ (alignhash_init : Table Nat String).nused ∧
      ∃ h0 h1 x, alignhash_resize ex_params (alignhash_init : Table Nat String) 2 =
          some (0, h0) ∧ h0.nbucket = 2 ∧
        alignhash_set ex_params (alignhash_init : Table Nat String) 5 =
          set_insert ex_params h0 5 ∧
        alignhash_set ex_params (alignhash_init : Table Nat String) 5 =
          some (h1, x, some AH_INS_NEW) ∧
        h1.nbucket = 2 ∧ h1.size = 1) :=
  ⟨ex_params_lawful, by decide,
    (C9_growth_rule ex_params (alignhash_init : Table Nat String) 5 ex_params_lawful
      (by decide)).2.1⟩

/-- C9 (counterexample): under linear probing the table of one bucket holding key 7
(reached by a resize to 1 and a set, well formed) has `nused >= sup` and `nbucket > 0`,
yet `alignhash_set` of key 9 does not resize it to 2 buckets: the resize is refused
(`size = 1 >= 1`) and the call returns the table unchanged, with one bucket, and no
outcome. -/
theorem C9_counterexample :
    Reachable ex_params ex_table1_full ∧ WF ex_params ex_table1_full ∧ ex_table1_full.sup ≤ ex_table1_full.nused ∧
    0 < ex_table1_full.nbucket ∧
    alignhash_resize ex_params ex_table1_full 2 = some (-1, ex_table1_full) ∧
    alignhash_set ex_params ex_table1_full 9 = some (ex_table1_full, 1, none) ∧
    ¬ ∃ h1 x r, alignhash_set ex_params ex_table1_full 9 = some (h1, x, r) ∧
      h1.nbucket = 2 * ex_table1_full.nbucket := by
  refine ⟨ex_table1_full_reachable, by decide, by decide, by decide, by decide,
    by decide, ?_⟩
  rintro ⟨h1, x, r, hx, hnb⟩
  have h0 : alignhash_set ex_params ex_table1_full 9 = some (ex_table1_full, 1, none) := by
    decide
  rw [h0] at hx
  have he : ex_table1_full = h1 := congrArg Prod.fst (Option.some.inj hx)
  rw [← he] at hnb
  exact absurd hnb (by decide)

/-- C10: when `x` is `nbucket` or bucket `x` is empty or deleted, `alignhash_del`
returns the table unchanged; when bucket `x` below `nbucket` is occupied, the result
has bucket `x` deleted and `size` one less, and `nused`, `sup`, `nbucket`, the keys, the
values and the tag of every other bucket are as before. -/
theorem C10_del_effect_frame (h : Table K V) (x : Nat) (hok : table_ok h) :
    ((x = h.nbucket ∨ AH_ISEMPTY h.flags x ≠ 0 ∨ AH_ISDEL h.flags x ≠ 0) →
      alignhash_del h x = h) ∧
    (x < h.nbucket → AH_ISEITHER h.flags x = 0 →
      AH_ISEMPTY (alignhash_del h x).flags x = 0 ∧
      AH_ISDEL (alignhash_del h x).flags x ≠ 0 ∧
      (alignhash_del h x).size + 1 = h.size ∧
      (alignhash_del h x).nused = h.nused ∧
      (alignhash_del h x).sup = h.sup ∧
      (alignhash_del h x).nbucket = h.nbucket ∧
      (alignhash_del h x).keys = h.keys ∧
      (alignhash_del h x).vals = h.vals ∧
      ∀ j, j ≠ x →
        AH_ISEMPTY (alignhash_del h x).flags j = AH_ISEMPTY h.flags j ∧
        AH_ISDEL (alignhash_del h x).flags j = AH_ISDEL h.flags j) := by
  constructor
  · intro hc
    unfold alignhash_del
    rw [if_neg]
    rintro ⟨h1, h2⟩
    rcases hc with hc | hc | hc
    · exact h1 hc
    · exact hc ((iseither_zero _ _).mp h2).1
    · exact hc ((iseither_zero _ _).mp h2).2
  · intro hx ho
    rw [del_flags h x (by omega) ho]
    obtain ⟨hn, hcov, hsz⟩ := hok
    have hpos : 1 ≤ h.size := by
      rw [hsz]; exact count_upto_pos _ _ x hx (by simpa using ho)
    have hle : h.size ≤ h.nbucket := by rw [hsz]; exact count_upto_le _ _
    have hxl : x / 16 < h.flags.length := by omega
    refine ⟨?_, ?_, ?_, rfl, rfl, rfl, rfl, rfl, ?_⟩
    · show AH_ISEMPTY (AH_SET_DEL h.flags x) x = 0
      rw [isempty_set_del]; exact ((iseither_zero _ _).mp ho).1
    · show AH_ISDEL (AH_SET_DEL h.flags x) x ≠ 0
      rw [isdel_set_del_eq _ _ hxl]; norm_num
    · show (h.size + 2 ^ 32 - 1) % 2 ^ 32 + 1 = h.size
      have h3 : h.size + 2 ^ 32 - 1 = (h.size - 1) + 2 ^ 32 := by omega
      rw [h3, Nat.add_mod_right, Nat.mod_eq_of_lt (by omega)]; omega
    · intro j hj
      exact ⟨isempty_set_del _ _ _, isdel_set_del_ne _ _ _ hj⟩

/-- Instance of C10: deleting the empty bucket 4 and the occupied bucket 2 of the table of keys 1, 2, 3. -/
theorem C10_witness :
    table_ok ex_table3 ∧
    (((4 : Nat) = ex_table3.nbucket ∨ AH_ISEMPTY ex_table3.flags 4 ≠ 0 ∨
        AH_ISDEL ex_table3.flags 4 ≠ 0) → alignhash_del ex_table3 4 = ex_table3) ∧
    (2 < ex_table3.nbucket → AH_ISEITHER ex_table3.flags 2 = 0 →
      (alignhash_del ex_table3 2).size + 1 = ex_table3.size) :=
  ⟨by decide, (C10_del_effect_frame ex_table3 4 (by decide)).1,
    fun h1 h2 => ((C10_del_effect_frame ex_table3 2 (by decide)).2 h1 h2).2.2.1⟩

/-- C11 (amended): on a well-formed table, for a key `k` stored in the occupied bucket
`x` and a different absent key `k2` whose probe start `hash(k2) & mask` is `x`, after
`alignhash_del(x)` the call `alignhash_set(k2)` behaves as follows.  With `nused < sup`
(no growth) it reports `AH_INS_DEL`, `size` is one more than after the deletion (back to
its value before the deletion) and `nused` is unchanged.  With `nused >= sup` and
`nbucket < 2 ^ 31` it first resizes to `2 * nbucket`, which drops every tombstone, and
reports `AH_INS_NEW`, with `size` back to its value before the deletion and `nused`
equal to it.  With `nused >= sup` and `nbucket = 2 ^ 31` the doubled count wraps to 0,
the resize is refused, and the call returns `nbucket` with no outcome and the table as
the deletion left it. -/
theorem C11_tombstone_reuse (P : Params K) (h : Table K V) (hl : lawful_eq P) (hw : WF P h)
    (k k2 : K) (x : Nat) (hx : x < h.nbucket) (ho : AH_ISEITHER h.flags x = 0)
    (hk : h.keys.getD x default = k) (hne : k2 ≠ k) (habs : ¬ present P h k2)
    (hstart : probe_start P h.nbucket k2 = x) :
    (h.nused < h.sup →
      ∃ h1 y, alignhash_set P (alignhash_del h x) k2 = some (h1, y, some AH_INS_DEL) ∧
        h1.size = (alignhash_del h x).size + 1 ∧ h1.nused = (alignhash_del h x).nused ∧
        h1.size = h.size ∧ h1.nused = h.nused ∧ h1.nbucket = h.nbucket) ∧
    (h.sup ≤ h.nused → h.nbucket < 2 ^ 31 →
      ∃ h1 y, alignhash_set P (alignhash_del h x) k2 = some (h1, y, some AH_INS_NEW) ∧
        h1.nbucket = 2 * h.nbucket ∧ h1.size = (alignhash_del h x).size + 1 ∧
        h1.size = h.size ∧ h1.nused = h.size ∧ (∀ i, AH_ISDEL h1.flags i = 0)) ∧
    (h.sup ≤ h.nused → h.nbucket = 2 ^ 31 →
      alignhash_set P (alignhash_del h x) k2 =
        some (alignhash_del h x, h.nbucket, none)) := by
  have hwd := del_wf P h hl hw x (Nat.le_of_lt hx)
  have hcov := wf_flags_cover P h hw x hx
  have hb := wf_size_lt P h hw
  have hsup := wf_sup_le P h hw
  have hpos : 1 ≤ h.size := by
    rw [hw.2.2.2.2.1]
    exact count_upto_pos _ _ x hx (by simpa using ho)
  rw [del_flags h x (Nat.ne_of_lt hx) ho] at hwd ⊢
  have hsz := sub_one_mod h.size hpos (by omega)
  have habs1 : ¬ present P (Table.mk h.nbucket ((h.size + 2 ^ 32 - 1) % 2 ^ 32) h.nused
      h.sup (AH_SET_DEL h.flags x) h.keys h.vals) k2 := by
    rintro ⟨i, hi, hoi, hq⟩
    have hoi : AH_ISEITHER (AH_SET_DEL h.flags x) i = 0 := hoi
    have hix : i ≠ x := by
      intro hix; rw [hix] at hoi; exact iseither_set_del_eq _ _ hcov hoi
    rw [iseither_set_del_ne _ _ _ hix] at hoi
    exact habs ⟨i, hi, hoi, hq⟩
  have htomb : tomb_before P (Table.mk h.nbucket ((h.size + 2 ^ 32 - 1) % 2 ^ 32) h.nused
      h.sup (AH_SET_DEL h.flags x) h.keys h.vals) k2 := by
    refine ⟨0, ?_, ?_⟩
    · show AH_ISDEL (AH_SET_DEL h.flags x) (probe_start P h.nbucket k2) ≠ 0
      rw [hstart, isdel_set_del_eq _ _ hcov]; decide
    · intro s hs
      have hs0 : s = 0 := by omega
      subst hs0
      show AH_ISEMPTY (AH_SET_DEL h.flags x) (probe_start P h.nbucket k2) = 0
      rw [hstart, isempty_set_del]
      exact ((iseither_zero _ _).mp ho).1
  refine ⟨?_, ?_, ?_⟩
  · intro hno
    rw [set_no_growth P (Table.mk h.nbucket ((h.size + 2 ^ 32 - 1) % 2 ^ 32) h.nused
      h.sup (AH_SET_DEL h.flags x) h.keys h.vals) k2 hno]
    obtain ⟨h1, y, r, hi, _, hnb1, _, _, _, _, _, hcase⟩ :=
      set_insert_spec P _ k2 hl hwd (show h.nused < h.nbucket by omega)
    rcases hcase with ⟨hp, _⟩ | ⟨_, _, _, _, hnt⟩ | ⟨_, _, _, hr, he, _⟩
    · exact absurd hp habs1
    · exact absurd htomb hnt
    · subst hr
      refine ⟨h1, y, hi, ?_, ?_, ?_, ?_, hnb1⟩
      · rw [he]; rfl
      · rw [he]; rfl
      · rw [he]; exact hsz
      · rw [he]; rfl
  · intro hg hsmall
    have hgs : grow_size (Table.mk h.nbucket ((h.size + 2 ^ 32 - 1) % 2 ^ 32) h.nused
        h.sup (AH_SET_DEL h.flags x) h.keys h.vals) = 2 * h.nbucket := by
      unfold grow_size
      show (if h.nbucket ≠ 0 then (h.nbucket * 2) % 2 ^ 32 else 2) = 2 * h.nbucket
      rw [if_pos (by omega), Nat.mod_eq_of_lt (by omega)]
      omega
    have hthr : h.nbucket ≤ load_threshold P.tier (2 * h.nbucket) := by
      unfold load_threshold
      split <;> omega
    have hf : (h.size + 2 ^ 32 - 1) % 2 ^ 32 <
        load_threshold P.tier (grow_size (Table.mk h.nbucket
          ((h.size + 2 ^ 32 - 1) % 2 ^ 32) h.nused h.sup (AH_SET_DEL h.flags x) h.keys
          h.vals)) := by
      rw [hgs]; omega
    obtain ⟨h0, hres, hw0, hnb0, hsz0, hsl0, _, hpres, hset⟩ :=
      set_grow_spec P _ k2 hl hwd (show h.sup ≤ h.nused from hg) hf
    rw [hgs] at hres hnb0
    have hsz0 : h0.size = (h.size + 2 ^ 32 - 1) % 2 ^ 32 := hsz0
    obtain ⟨h0a, hresa, _, _, _, hnua, _, hnda, _⟩ :=
      resize_spec P _ hl hwd (2 * h.nbucket)
        (by rw [← hgs]; exact (grow_size_pow2 P _ hwd hf).1)
        (by rw [hgs] at hf; exact hf)
    rw [hres] at hresa
    have e0 : h0 = h0a := congrArg Prod.snd (Option.some.inj hresa)
    rw [← e0] at hnua hnda
    have hnu0 : h0.nused = (h.size + 2 ^ 32 - 1) % 2 ^ 32 := hnua
    rw [hset]
    obtain ⟨h1, y, r, hi, _, hnb1, _, hy1, _, _, _, hcase⟩ :=
      set_insert_spec P h0 k2 hl hw0 hsl0
    rcases hcase with ⟨hp, _⟩ | ⟨_, _, hr, he, _⟩ | ⟨_, _, hd, _⟩
    · exact absurd ((hpres k2).mp hp) habs1
    · subst hr
      refine ⟨h1, y, hi, by rw [hnb1, hnb0], ?_, ?_, ?_, ?_⟩
      · rw [he]; show h0.size + 1 = _; rw [hsz0]
      · rw [he]; show h0.size + 1 = _; rw [hsz0]; exact hsz
      · rw [he]; show h0.nused + 1 = _; rw [hnu0]; exact hsz
      · intro i
        rw [he]
        show AH_ISDEL (AH_CLEAR_BOTH h0.flags y) i = 0
        by_cases hiy : i = y
        · rw [hiy]
          exact isdel_clear_both_eq _ _ (wf_flags_cover P h0 hw0 y (by omega))
        · rw [isdel_clear_both_ne _ _ _ hiy]; exact hnda i
    · exact absurd (hnda y) hd
  · intro hg hbig
    have hgs : grow_size (Table.mk h.nbucket ((h.size + 2 ^ 32 - 1) % 2 ^ 32) h.nused
        h.sup (AH_SET_DEL h.flags x) h.keys h.vals) = 0 := by
      unfold grow_size
      show (if h.nbucket ≠ 0 then (h.nbucket * 2) % 2 ^ 32 else 2) = 0
      rw [if_pos (by omega), hbig]
      norm_num
    exact set_fail P _ k2 (show h.sup ≤ h.nused from hg)
      (by rw [hgs, load_threshold_zero]; exact Nat.zero_le _)

/-- Instance of C11: in the table of keys 1, 2, 3 (8 buckets, `nused = 3 < sup = 4`) key 2
is deleted and key 10, which starts at the same bucket 2, takes over its tombstone. -/
theorem C11_witness :
    lawful_eq ex_params ∧ WF ex_params ex_table3 ∧ 2 < ex_table3.nbucket ∧
    AH_ISEITHER ex_table3.flags 2 = 0 ∧ ex_table3.keys.getD 2 default = 2 ∧ 10 ≠ 2 ∧
    ¬ present ex_params ex_table3 10 ∧ probe_start ex_params ex_table3.nbucket 10 = 2 ∧
    ex_table3.nused < ex_table3.sup ∧
    ((ex_table3.nused < ex_table3.sup →
      ∃ h1 y, alignhash_set ex_params (alignhash_del ex_table3 2) 10 =
          some (h1, y, some AH_INS_DEL) ∧
        h1.size = (alignhash_del ex_table3 2).size + 1 ∧
        h1.nused = (alignhash_del ex_table3 2).nused ∧
        h1.size = ex_table3.size ∧ h1.nused = ex_table3.nused ∧
        h1.nbucket = ex_table3.nbucket) ∧
    (ex_table3.sup ≤ ex_table3.nused → ex_table3.nbucket < 2 ^ 31 →
      ∃ h1 y, alignhash_set ex_params (alignhash_del ex_table3 2) 10 =
          some (h1, y, some AH_INS_NEW) ∧
        h1.nbucket = 2 * ex_table3.nbucket ∧
        h1.size = (alignhash_del ex_table3 2).size + 1 ∧
        h1.size = ex_table3.size ∧ h1.nused = ex_table3.size ∧
        (∀ i, AH_ISDEL h1.flags i = 0)) ∧
    (ex_table3.sup ≤ ex_table3.nused → ex_table3.nbucket = 2 ^ 31 →
      alignhash_set ex_params (alignhash_del ex_table3 2) 10 =
        some (alignhash_del ex_table3 2, ex_table3.nbucket, none))) :=
  ⟨ex_params_lawful, by decide, by decide, by decide, by decide, by decide, by decide,
    by decide, by decide,
    C11_tombstone_reuse ex_params ex_table3 ex_params_lawful (by decide) 2 10 2 (by decide)
      (by decide) (by decide) (by decide) (by decide) (by decide)⟩

/-- C11 (counterexample): the reachable, well-formed linear-probing table of keys 1, 2, 3,
11 has `nused = sup = 4`. Key 1 sits in bucket 1 and the absent key 9 starts at bucket 1
(`9 & 7 = 1`). After `alignhash_del(1)` the call `alignhash_set(9)` first grows the table
to 16 buckets, which drops the tombstone, and stores key 9 in the empty bucket 9 with
outcome `AH_INS_NEW`, not `AH_INS_DEL`. -/
theorem C11_counterexample :
    Reachable ex_params ex_table4 ∧ WF ex_params ex_table4 ∧
    1 < ex_table4.nbucket ∧ AH_ISEITHER ex_table4.flags 1 = 0 ∧
    ex_table4.keys.getD 1 default = 1 ∧ alignhash_get ex_params ex_table4 1 = some 1 ∧
    ¬ present ex_params ex_table4 9 ∧ probe_start ex_params ex_table4.nbucket 9 = 1 ∧
    (alignhash_del ex_table4 1).nused = 4 ∧ (alignhash_del ex_table4 1).sup = 4 ∧
    (alignhash_set ex_params (alignhash_del ex_table4 1) 9).map
      (fun r => (r.1.nbucket, r.2.1, r.2.2)) = some (16, 9, some AH_INS_NEW) ∧
    ¬ ∃ h1 y, alignhash_set ex_params (alignhash_del ex_table4 1) 9 =
        some (h1, y, some AH_INS_DEL) := by
  have h0 : (alignhash_set ex_params (alignhash_del ex_table4 1) 9).map
      (fun r => (r.1.nbucket, r.2.1, r.2.2)) = some (16, 9, some AH_INS_NEW) := by decide
  refine ⟨ex_table4_reachable, by decide, by decide, by decide, by decide, by decide,
    by decide, by decide, by decide, by decide, h0, ?_⟩
  rintro ⟨h1, y, hx⟩
  rw [hx] at h0
  have hr : some AH_INS_DEL = some AH_INS_NEW :=
    congrArg (fun r => r.2.2) (Option.some.inj h0)
  exact absurd hr (by decide)

/-- C12 (amended): on a well-formed table with `nused < sup` (no growth) and an absent
key whose probe path reaches its first empty bucket in round `t0`, `alignhash_set` stores
the key at, and returns, the LAST tombstone met before that empty bucket, with outcome
`AH_INS_DEL` and `nused` unchanged; when the path meets no tombstone it stores the key at
the empty bucket itself, with outcome `AH_INS_NEW`. -/
theorem C12_last_tombstone_target (P : Params K) (h : Table K V) (hw : WF P h) (key : K)
    (hno : h.nused < h.sup) (habs : ¬ present P h key) (t0 : Nat)
    (hempty : AH_ISEMPTY h.flags (probe_path P h key t0) ≠ 0)
    (hfirst : ∀ s, s < t0 → AH_ISEMPTY h.flags (probe_path P h key s) = 0) :
    (∀ s, s < t0 → AH_ISDEL h.flags (probe_path P h key s) ≠ 0 →
      (∀ u, s < u → u < t0 → AH_ISDEL h.flags (probe_path P h key u) = 0) →
      alignhash_set P h key =
        some (put h key (probe_path P h key s) (h.size + 1) h.nused, probe_path P h key s,
          some AH_INS_DEL)) ∧
    ((∀ s, s < t0 → AH_ISDEL h.flags (probe_path P h key s) = 0) →
      alignhash_set P h key =
        some (put h key (probe_path P h key t0) (h.size + 1) (h.nused + 1),
          probe_path P h key t0, some AH_INS_NEW)) := by
  have hb := wf_size_lt P h hw
  have hsup := wf_sup_le P h hw
  have hnz : h.nbucket ≠ 0 := by omega
  obtain ⟨m, hm, hnb⟩ : is_pow2 h.nbucket := by
    rcases hw.1 with h0 | h0
    · exact absurd h0 hnz
    · exact h0
  have hmask : (h.nbucket + 2 ^ 32 - 1) % 2 ^ 32 = 2 ^ m - 1 := by
    rw [mask_eq h.nbucket (by omega) hb.1, hnb]
  have hpath : ∀ t, probe_path P h key t =
      probe_seq (probe_step P key) (2 ^ m - 1) (probe_start P (2 ^ m) key) t := by
    intro t
    unfold probe_path
    rw [hmask, hnb]
  have hlt : ∀ t, probe_path P h key t < h.nbucket := by
    intro t
    rw [hpath, hnb]
    exact probe_seq_lt P m hm key t
  have ht0 : t0 < 2 ^ m :=
    first_empty_lt h (probe_step P key) m (probe_start P (2 ^ m) key) (Nat.le_of_lt hm)
      (probe_start_lt P m hm key) t0 (by rw [← hpath]; exact hempty)
      (fun s hs => by rw [← hpath]; exact hfirst s hs)
  have hc : ∀ s, s < t0 → probe_cont P h key
      (probe_seq (probe_step P key) (2 ^ m - 1) (probe_start P (2 ^ m) key) s) := by
    intro s hs
    rw [← hpath]
    refine ⟨hfirst s hs, ?_⟩
    by_cases hd : AH_ISDEL h.flags (probe_path P h key s) = 0
    · right
      by_contra hq
      have hq : P.hasheq (h.keys.getD (probe_path P h key s) default) key = true := by
        simpa using hq
      exact habs ⟨_, hlt s, (iseither_zero _ _).mpr ⟨hfirst s hs, hd⟩, hq⟩
    · exact Or.inl hd
  have hstop : ¬ probe_cont P h key
      (probe_seq (probe_step P key) (2 ^ m - 1) (probe_start P (2 ^ m) key) t0) := by
    rw [← hpath]
    exact fun hpc => hempty hpc.1
  have htg := set_target_eq P h key m hm hnb t0 ht0 hc hstop
  simp only [← hpath] at htg
  have hins : ∀ x, set_target P h key = some x →
      alignhash_set P h key = some ((set_store h key x).1, x, some (set_store h key x).2) := by
    intro x hx
    rw [set_no_growth P h key hno]
    unfold set_insert
    rw [hx]
  constructor
  · intro s hs hd hlast
    have hsite : site_seq h (probe_step P key) (2 ^ m - 1) (probe_start P (2 ^ m) key)
        (2 ^ m) t0 = probe_path P h key s := by
      rw [hpath]
      exact site_seq_last h _ _ _ _ t0 s hs (by rw [← hpath]; exact hd)
        (fun u h1 h2 => by rw [← hpath]; exact hlast u h1 h2)
    rw [hsite, if_pos ⟨hempty, by have := hlt s; omega⟩] at htg
    rw [hins _ htg, set_store_del h key _ (hfirst s hs) hd,
      add_one_mod h.size h.nbucket (by omega) hb.1]
  · intro hnone
    have hsite : site_seq h (probe_step P key) (2 ^ m - 1) (probe_start P (2 ^ m) key)
        (2 ^ m) t0 = 2 ^ m :=
      site_seq_none h _ _ _ _ t0 (fun u hu => by rw [← hpath]; exact hnone u hu)
    rw [hsite, if_neg (by simp)] at htg
    rw [hins _ htg, set_store_new h key _ hempty,
      add_one_mod h.size h.nbucket (by omega) hb.1,
      add_one_mod h.nused h.nbucket (by omega) hb.1]

/-- Instance of C12: key 24 probes buckets 0, 1, 2, 3 of the table with tombstones in
buckets 0 and 1, key 16 in bucket 2 and bucket 3 empty (`t0 = 3`). -/
theorem C12_witness :
    WF ex_params ex_table_tombs ∧ ex_table_tombs.nused < ex_table_tombs.sup ∧
    ¬ present ex_params ex_table_tombs 24 ∧
    AH_ISEMPTY ex_table_tombs.flags (probe_path ex_params ex_table_tombs 24 3) ≠ 0 ∧
    (∀ s, s < 3 → AH_ISEMPTY ex_table_tombs.flags (probe_path ex_params ex_table_tombs 24 s)
      = 0) ∧
    ((∀ s, s < 3 → AH_ISDEL ex_table_tombs.flags (probe_path ex_params ex_table_tombs 24 s)
        ≠ 0 →
      (∀ u, s < u → u < 3 →
        AH_ISDEL ex_table_tombs.flags (probe_path ex_params ex_table_tombs 24 u) = 0) →
      alignhash_set ex_params ex_table_tombs 24 =
        some (put ex_table_tombs 24 (probe_path ex_params ex_table_tombs 24 s)
          (ex_table_tombs.size + 1) ex_table_tombs.nused,
          probe_path ex_params ex_table_tombs 24 s, some AH_INS_DEL)) ∧
    ((∀ s, s < 3 → AH_ISDEL ex_table_tombs.flags (probe_path ex_params ex_table_tombs 24 s)
        = 0) →
      alignhash_set ex_params ex_table_tombs 24 =
        some (put ex_table_tombs 24 (probe_path ex_params ex_table_tombs 24 3)
          (ex_table_tombs.size + 1) (ex_table_tombs.nused + 1),
          probe_path ex_params ex_table_tombs 24 3, some AH_INS_NEW))) :=
  ⟨by decide, by decide, by decide, by decide, by decide,
    C12_last_tombstone_target ex_params ex_table_tombs (by decide) 24 (by decide) (by decide)
      3 (by decide) (by decide)⟩

/-- C12 (counterexample): in the reachable, well-formed table with tombstones in buckets
0 and 1, key 16 in bucket 2 and bucket 3 empty (`nused = 3 < sup = 4`), the absent key 24
probes buckets 0, 1, 2, 3. The first tombstone on its path is bucket 0, but
`alignhash_set` stores key 24 in bucket 1, the last tombstone before the empty bucket,
and returns 1. -/
theorem C12_counterexample :
    Reachable ex_params ex_table_tombs ∧ WF ex_params ex_table_tombs ∧
    ex_table_tombs.nused < ex_table_tombs.sup ∧ ¬ present ex_params ex_table_tombs 24 ∧
    probe_path ex_params ex_table_tombs 24 0 = 0 ∧
    probe_path ex_params ex_table_tombs 24 1 = 1 ∧
    probe_path ex_params ex_table_tombs 24 2 = 2 ∧
    probe_path ex_params ex_table_tombs 24 3 = 3 ∧
    AH_ISDEL ex_table_tombs.flags 0 ≠ 0 ∧ AH_ISEMPTY ex_table_tombs.flags 0 = 0 ∧
    AH_ISDEL ex_table_tombs.flags 1 ≠ 0 ∧ AH_ISEMPTY ex_table_tombs.flags 1 = 0 ∧
    AH_ISEITHER ex_table_tombs.flags 2 = 0 ∧ AH_ISEMPTY ex_table_tombs.flags 3 ≠ 0 ∧
    alignhash_set ex_params ex_table_tombs 24 =
      some (put ex_table_tombs 24 1 2 3, 1, some AH_INS_DEL) ∧
    (put ex_table_tombs 24 1 2 3).keys = [0, 24, 16, 0, 0, 0, 0, 0] ∧
    AH_ISDEL (put ex_table_tombs 24 1 2 3).flags 0 ≠ 0 := by
  refine ⟨ex_table_tombs_reachable, ?_⟩
  decide

/-- C13: on a well-formed table in which `alignhash_get(k)` returns the bucket
`x < nbucket`, an `alignhash_set` of a different key entered with `nused < sup` (no
growth) and an `alignhash_del` of any iterator `y <= nbucket` other than `x` leave
`nbucket` unchanged, `alignhash_get(k)` equal to `x`, bucket `x` occupied, and the key
and the value stored at `x` as they were. -/
theorem C13_index_stability (P : Params K) (h : Table K V) (hl : lawful_eq P) (hw : WF P h)
    (k : K) (x : Nat) (hx : x < h.nbucket) (hget : alignhash_get P h k = some x) :
    (∀ k2, k2 ≠ k → h.nused < h.sup →
      ∃ h1 y r, alignhash_set P h k2 = some (h1, y, some r) ∧ h1.nbucket = h.nbucket ∧
        alignhash_get P h1 k = some x ∧ AH_ISEITHER h1.flags x = 0 ∧
        h1.keys.getD x default = h.keys.getD x default ∧
        h1.vals.getD x default = h.vals.getD x default) ∧
    (∀ y, y ≤ h.nbucket → y ≠ x →
      (alignhash_del h y).nbucket = h.nbucket ∧
      alignhash_get P (alignhash_del h y) k = some x ∧
      AH_ISEITHER (alignhash_del h y).flags x = 0 ∧
      (alignhash_del h y).keys.getD x default = h.keys.getD x default ∧
      (alignhash_del h y).vals.getD x default = h.vals.getD x default) := by
  have hocc : AH_ISEITHER h.flags x = 0 ∧ h.keys.getD x default = k := by
    rcases alignhash_get_sound P h k x hget with hs | ⟨_, hs2, hs3⟩
    · omega
    · exact ⟨hs2, (hl _ _).mp hs3⟩
  obtain ⟨ho, hk⟩ := hocc
  have hb := wf_size_lt P h hw
  have hsup := wf_sup_le P h hw
  constructor
  · intro k2 hne hno
    rw [set_no_growth P h k2 hno]
    obtain ⟨h1, y, r, hi, hw1, hnb1, _, _, _, _, _, hcase⟩ :=
      set_insert_spec P h k2 hl hw (by omega)
    refine ⟨h1, y, r, hi, hnb1, ?_⟩
    have hput : ∀ sz nu, AH_ISEITHER h.flags y ≠ 0 → h1 = put h k2 y sz nu →
        alignhash_get P h1 k = some x ∧ AH_ISEITHER h1.flags x = 0 ∧
        h1.keys.getD x default = h.keys.getD x default ∧
        h1.vals.getD x default = h.vals.getD x default := by
      intro sz nu hy he
      have hxy : x ≠ y := by
        intro hxy; rw [hxy] at ho; exact hy ho
      have ho1 : AH_ISEITHER h1.flags x = 0 := by
        rw [he, put_iseither_ne h k2 y sz nu x hxy]; exact ho
      have hk1 : h1.keys.getD x default = h.keys.getD x default := by
        rw [he]
        show (h.keys.set y k2).getD x default = _
        exact getD_set_ne _ _ _ _ _ (Ne.symm hxy)
      have hg1 := wf_probe P h1 hw1 x (by omega) ho1
      rw [hk1, hk] at hg1
      refine ⟨hg1, ho1, hk1, ?_⟩
      rw [he]; rfl
    rcases hcase with ⟨_, _, he⟩ | ⟨_, hem, _, he, _⟩ | ⟨_, _, hd, _, he, _⟩
    · rw [he]; exact ⟨hget, ho, rfl, rfl⟩
    · refine hput _ _ ?_ he
      intro hz; exact hem ((iseither_zero _ _).mp hz).1
    · refine hput _ _ ?_ he
      intro hz; exact hd ((iseither_zero _ _).mp hz).2
  · intro y hy hyx
    have hfr : alignhash_get P (alignhash_del h y) k = alignhash_get P h k := by
      apply del_get_frame
      intro hyl hoy
      refine ⟨hasheq_ne P hl _ _ ?_, wf_flags_cover P h hw y hyl⟩
      intro hky
      exact hyx (wf_distinct P h hw y x hyl hx hoy ho (by rw [hky, hk]))
    rw [hfr]
    by_cases hd : y ≠ h.nbucket ∧ AH_ISEITHER h.flags y = 0
    · rw [del_flags h y hd.1 hd.2]
      refine ⟨rfl, hget, ?_, rfl, rfl⟩
      show AH_ISEITHER (AH_SET_DEL h.flags y) x = 0
      rw [iseither_set_del_ne _ _ _ hyx.symm]; exact ho
    · unfold alignhash_del
      rw [if_neg hd]
      exact ⟨rfl, hget, ho, rfl, rfl⟩

/-- Instance of C13: key 2 sits in bucket 2 of the table of keys 1, 2, 3; key 11 is
inserted without growth, or another bucket is deleted. -/
theorem C13_witness :
    lawful_eq ex_params ∧ WF ex_params ex_table3 ∧ 2 < ex_table3.nbucket ∧
    alignhash_get ex_params ex_table3 2 = some 2 ∧
    alignhash_set ex_params ex_table3 11 = some (ex_table4, 4, some AH_INS_NEW) ∧
    alignhash_get ex_params ex_table4 2 = some 2 ∧
    alignhash_get ex_params (alignhash_del ex_table3 3) 2 = some 2 ∧
    ((∀ k2, k2 ≠ 2 → ex_table3.nused < ex_table3.sup →
      ∃ h1 y r, alignhash_set ex_params ex_table3 k2 = some (h1, y, some r) ∧
        h1.nbucket = ex_table3.nbucket ∧
        alignhash_get ex_params h1 2 = some 2 ∧ AH_ISEITHER h1.flags 2 = 0 ∧
        h1.keys.getD 2 default = ex_table3.keys.getD 2 default ∧
        h1.vals.getD 2 default = ex_table3.vals.getD 2 default) ∧
    (∀ y, y ≤ ex_table3.nbucket → y ≠ 2 →
      (alignhash_del ex_table3 y).nbucket = ex_table3.nbucket ∧
      alignhash_get ex_params (alignhash_del ex_table3 y) 2 = some 2 ∧
      AH_ISEITHER (alignhash_del ex_table3 y).flags 2 = 0 ∧
      (alignhash_del ex_table3 y).keys.getD 2 default = ex_table3.keys.getD 2 default ∧
      (alignhash_del ex_table3 y).vals.getD 2 default =
        ex_table3.vals.getD 2 default)) :=
  ⟨ex_params_lawful, by decide, by decide, by decide, by decide, by decide, by decide,
    C13_index_stability ex_params ex_table3 ex_params_lawful (by decide) 2 2 (by decide)
      (by decide)⟩

/-- C14: on a well-formed table with tag storage, `alignhash_clear` fills the tag array
with empty tags, so every bucket is empty and not deleted, sets `size` and `nused` to 0
and keeps `nbucket`, `sup`, the keys and the values; afterwards `alignhash_get` returns
`nbucket` for every key and `alignhash_set` of any key reports `AH_INS_NEW` without
growing the table. On a table without tag storage `alignhash_clear` changes nothing. -/
theorem C14_clear (P : Params K) (h : Table K V) (hl : lawful_eq P) (hw : WF P h) :
    (h.flags ≠ [] →
      (alignhash_clear h).flags = List.replicate h.flags.length 0xaaaaaaaa ∧
      (∀ i, i < h.nbucket → AH_ISEMPTY (alignhash_clear h).flags i ≠ 0 ∧
        AH_ISDEL (alignhash_clear h).flags i = 0) ∧
      (alignhash_clear h).size = 0 ∧ (alignhash_clear h).nused = 0 ∧
      (alignhash_clear h).nbucket = h.nbucket ∧ (alignhash_clear h).sup = h.sup ∧
      (alignhash_clear h).keys = h.keys ∧ (alignhash_clear h).vals = h.vals ∧
      (∀ key, alignhash_get P (alignhash_clear h) key = some h.nbucket) ∧
      (∀ key, ∃ h1 x, alignhash_set P (alignhash_clear h) key =
        some (h1, x, some AH_INS_NEW) ∧ h1.nbucket = h.nbucket ∧ h1.size = 1 ∧
        h1.nused = 1)) ∧
    (h.flags = [] → alignhash_clear h = h) := by
  refine ⟨?_, clear_noalloc h⟩
  intro hne
  have hnb : h.nbucket ≠ 0 := by
    intro h0
    have hfl := hw.2.1
    rw [if_pos h0] at hfl
    exact hne (List.length_eq_zero.mp hfl)
  have hfl := hw.2.1
  rw [if_neg hnb] at hfl
  have hpow : is_pow2 h.nbucket := by
    rcases hw.1 with h0 | h0
    · exact absurd h0 hnb
    · exact h0
  have hwc := clear_wf P h hw
  have hsupc := wf_sup_le P _ hwc
  rw [clear_eq P h hw hnb] at hwc hsupc ⊢
  have hsupc : h.sup ≤ h.nbucket := hsupc
  have htag : ∀ i, i < h.nbucket →
      AH_ISEMPTY (List.replicate (AH_FLAGS_BYTE h.nbucket / 4) 0xaaaaaaaa) i = 2 :=
    fun i hi => isempty_fresh _ _ (flags_byte_cover h.nbucket i hpow hi)
  have hnocc : ∀ i, i < h.nbucket →
      AH_ISEITHER (List.replicate (AH_FLAGS_BYTE h.nbucket / 4) 0xaaaaaaaa) i ≠ 0 := by
    intro i hi hz
    have := ((iseither_zero _ _).mp hz).1
    rw [htag i hi] at this
    omega
  have hsup1 : 0 < h.sup := by
    rw [hw.2.2.2.2.2.2.1]
    unfold load_threshold
    split <;> omega
  refine ⟨by rw [hfl], ?_, rfl, rfl, rfl, rfl, rfl, rfl, ?_, ?_⟩
  · intro i hi
    refine ⟨?_, isdel_fresh _ _⟩
    show AH_ISEMPTY (List.replicate (AH_FLAGS_BYTE h.nbucket / 4) 0xaaaaaaaa) i ≠ 0
    rw [htag i hi]; decide
  · intro key
    obtain ⟨r, hr⟩ := alignhash_get_total P _ key hwc.1
    rw [hr]
    rcases alignhash_get_sound P _ key r hr with hs | ⟨hs1, hs2, _⟩
    · rw [hs]
    · exact absurd hs2 (hnocc r hs1)
  · intro key
    rw [set_no_growth P _ key (show 0 < h.sup from hsup1)]
    obtain ⟨h1, x, r, hi, _, hnb1, _, _, _, _, _, hcase⟩ :=
      set_insert_spec P _ key hl hwc (show 0 < h.nbucket by omega)
    rcases hcase with ⟨⟨i, hi1, hi2, _⟩, _⟩ | ⟨_, _, hr, he, _⟩ | ⟨_, _, hd, _⟩
    · exact absurd hi2 (hnocc i hi1)
    · subst hr
      refine ⟨h1, x, hi, hnb1, ?_, ?_⟩
      · rw [he]; rfl
      · rw [he]; rfl
    · exact absurd (isdel_fresh _ _) hd

/-- Instance of C14: the table of keys 1, 2, 3 is cleared. -/
theorem C14_witness :
    lawful_eq ex_params ∧ WF ex_params ex_table3 ∧
    alignhash_clear ex_table3 =
      Table.mk 8 0 0 4 [2863311530] ex_table3.keys ex_table3.vals ∧
    ((ex_table3.flags ≠ [] →
      (alignhash_clear ex_table3).flags = List.replicate ex_table3.flags.length 0xaaaaaaaa ∧
      (∀ i, i < ex_table3.nbucket → AH_ISEMPTY (alignhash_clear ex_table3).flags i ≠ 0 ∧
        AH_ISDEL (alignhash_clear ex_table3).flags i = 0) ∧
      (alignhash_clear ex_table3).size = 0 ∧ (alignhash_clear ex_table3).nused = 0 ∧
      (alignhash_clear ex_table3).nbucket = ex_table3.nbucket ∧
      (alignhash_clear ex_table3).sup = ex_table3.sup ∧
      (alignhash_clear ex_table3).keys = ex_table3.keys ∧
      (alignhash_clear ex_table3).vals = ex_table3.vals ∧
      (∀ key, alignhash_get ex_params (alignhash_clear ex_table3) key =
        some ex_table3.nbucket) ∧
      (∀ key, ∃ h1 x, alignhash_set ex_params (alignhash_clear ex_table3) key =
        some (h1, x, some AH_INS_NEW) ∧ h1.nbucket = ex_table3.nbucket ∧ h1.size = 1 ∧
        h1.nused = 1)) ∧
    (ex_table3.flags = [] → alignhash_clear ex_table3 = ex_table3)) :=
  ⟨ex_params_lawful, by decide, by decide,
    C14_clear ex_params ex_table3 ex_params_lawful (by decide)⟩

/-- C15: for every table whose `nbucket` is a power of two, whatever its tags, and every
key, the probe loop of `alignhash_get` returns within `nbucket` evaluations of its
condition; the step is odd, so the probe sequence visits `nbucket` different buckets in
its first `nbucket` rounds, reaches every bucket, and is back at its start in round
`nbucket`; on a table whose buckets are all tombstones `alignhash_get` returns
`nbucket`. -/
theorem C15_full_cycle_termination (P : Params K) (h : Table K V) (key : K)
    (hp : is_pow2 h.nbucket) :
    (∃ r, get_loop P h key (probe_step P key) ((h.nbucket + 2 ^ 32 - 1) % 2 ^ 32)
        (probe_start P h.nbucket key) h.nbucket (probe_start P h.nbucket key) = some r ∧
      alignhash_get P h key = some r) ∧
    probe_step P key % 2 = 1 ∧
    (∀ t1 t2, t1 < h.nbucket → t2 < h.nbucket →
      probe_path P h key t1 = probe_path P h key t2 → t1 = t2) ∧
    (∀ e, e < h.nbucket → ∃ t, t < h.nbucket ∧ probe_path P h key t = e) ∧
    probe_path P h key h.nbucket = probe_path P h key 0 ∧
    ((∀ i, i < h.nbucket → AH_ISEMPTY h.flags i = 0 ∧ AH_ISDEL h.flags i ≠ 0) →
      alignhash_get P h key = some h.nbucket) := by
  obtain ⟨m, hm, hnb⟩ := hp
  have hpos : 0 < 2 ^ m := Nat.two_pow_pos m
  have hlt : 2 ^ m < 2 ^ 32 := Nat.pow_lt_pow_right (by decide) hm
  have hnz : h.nbucket ≠ 0 := by omega
  have hmask : (h.nbucket + 2 ^ 32 - 1) % 2 ^ 32 = 2 ^ m - 1 := by
    rw [mask_eq h.nbucket (by omega) (by omega), hnb]
  have hpath : ∀ t, probe_path P h key t =
      probe_seq (probe_step P key) (2 ^ m - 1) (probe_start P (2 ^ m) key) t := by
    intro t
    unfold probe_path
    rw [hmask, hnb]
  have hst := probe_start_lt P m hm key
  have hodd := probe_step_odd2 P key
  obtain ⟨r, hr⟩ := alignhash_get_total P h key (Or.inr ⟨m, hm, hnb⟩)
  refine ⟨⟨r, ?_, hr⟩, hodd, ?_, ?_, ?_, ?_⟩
  · rw [← alignhash_get_eq P h key hnz]; exact hr
  · intro t1 t2 h1 h2 he
    rw [hpath, hpath] at he
    exact probe_seq_inj _ m _ (Nat.le_of_lt hm) hst hodd t1 t2 (by omega) (by omega) he
  · intro e he
    obtain ⟨t, ht, hte⟩ := probe_seq_cover (probe_step P key) m _ (Nat.le_of_lt hm) hst hodd
      e (by omega)
    exact ⟨t, by omega, by rw [hpath]; exact hte⟩
  · rw [hpath, hpath, hnb]
    exact probe_seq_cycle _ m _ (Nat.le_of_lt hm) hst
  · intro hall
    rw [hr]
    rcases alignhash_get_sound P h key r hr with hs | ⟨hs1, hs2, _⟩
    · rw [hs]
    · exact absurd ((iseither_zero _ _).mp hs2).2 (hall r hs1).2

/-- Instance of C15: key 6 in the table of 4 buckets that are all tombstones; the lookup
probes buckets 2, 3, 0, 1 and returns `nbucket`. -/
theorem C15_witness :
    is_pow2 ex_table_saturated.nbucket ∧
    (∀ i, i < ex_table_saturated.nbucket →
      AH_ISEMPTY ex_table_saturated.flags i = 0 ∧ AH_ISDEL ex_table_saturated.flags i ≠ 0) ∧
    ((∃ r, get_loop ex_params ex_table_saturated 6 (probe_step ex_params 6)
        ((ex_table_saturated.nbucket + 2 ^ 32 - 1) % 2 ^ 32)
        (probe_start ex_params ex_table_saturated.nbucket 6) ex_table_saturated.nbucket
        (probe_start ex_params ex_table_saturated.nbucket 6) = some r ∧
      alignhash_get ex_params ex_table_saturated 6 = some r) ∧
    probe_step ex_params 6 % 2 = 1 ∧
    (∀ t1 t2, t1 < ex_table_saturated.nbucket → t2 < ex_table_saturated.nbucket →
      probe_path ex_params ex_table_saturated 6 t1 =
        probe_path ex_params ex_table_saturated 6 t2 → t1 = t2) ∧
    (∀ e, e < ex_table_saturated.nbucket →
      ∃ t, t < ex_table_saturated.nbucket ∧ probe_path ex_params ex_table_saturated 6 t = e) ∧
    probe_path ex_params ex_table_saturated 6 ex_table_saturated.nbucket =
      probe_path ex_params ex_table_saturated 6 0 ∧
    ((∀ i, i < ex_table_saturated.nbucket →
        AH_ISEMPTY ex_table_saturated.flags i = 0 ∧
        AH_ISDEL ex_table_saturated.flags i ≠ 0) →
      alignhash_get ex_params ex_table_saturated 6 = some ex_table_saturated.nbucket)) :=
  ⟨by decide, by decide,
    C15_full_cycle_termination ex_params ex_table_saturated 6 (by decide)⟩

/-- C16 (amended): in every reachable table, `alignhash_del(nbucket)` leaves the table
unchanged without reading a tag; for an index `x >= nbucket` whose tag word `x >> 4` lies
inside the tag array, `alignhash_del(x)` leaves the table unchanged and
`alignhash_exist(x)` is false; for `x < nbucket` both are defined and
`alignhash_exist(x)` is true exactly when bucket `x` is neither empty nor deleted; for
an index whose tag word lies outside the tag array, `alignhash_exist(x)` reads outside
the array, and so does `alignhash_del(x)` unless `x = nbucket`. -/
theorem C16_index_totality (P : Params K) (hl : lawful_eq P) (h : Table K V)
    (hr : Reachable P h) (x : Nat) :
    alignhash_del_checked h h.nbucket = some h ∧
    (h.nbucket ≤ x → x >>> 4 < h.flags.length →
      alignhash_del_checked h x = some h ∧ alignhash_exist_checked h x = some false) ∧
    (x < h.nbucket →
      alignhash_del_checked h x = some (alignhash_del h x) ∧
      alignhash_exist_checked h x =
        some (decide (AH_ISEMPTY h.flags x = 0 ∧ AH_ISDEL h.flags x = 0))) ∧
    (¬ x >>> 4 < h.flags.length →
      alignhash_exist_checked h x = none ∧
      (x ≠ h.nbucket → alignhash_del_checked h x = none)) := by
  have hw := reach_wf P hl h hr
  have hpad := reach_pad P hl h hr
  have hsh : x >>> 4 = x / 16 := Nat.shiftRight_eq_div_pow x 4
  refine ⟨by unfold alignhash_del_checked; rw [if_pos rfl], ?_, ?_, ?_⟩
  · intro hx hin
    have hne : AH_ISEITHER h.flags x ≠ 0 := by
      intro hz
      exact hpad x hx (by omega) ((iseither_zero _ _).mp hz).1
    constructor
    · have hd : alignhash_del h x = h := by
        unfold alignhash_del
        rw [if_neg (fun hc => hne hc.2)]
      unfold alignhash_del_checked
      by_cases hxe : x = h.nbucket
      · rw [if_pos hxe]
      · rw [if_neg hxe, if_pos hin, hd]
    · unfold alignhash_exist_checked alignhash_exist
      rw [if_pos hin]
      simp [hne]
  · intro hx
    have hin : x >>> 4 < h.flags.length := by
      rw [hsh]; exact wf_flags_cover P h hw x hx
    constructor
    · unfold alignhash_del_checked
      rw [if_neg (by omega), if_pos hin]
    · unfold alignhash_exist_checked alignhash_exist
      rw [if_pos hin]
      congr 1
      simp only [iseither_zero]
  · intro hout
    constructor
    · unfold alignhash_exist_checked
      rw [if_neg hout]
    · intro hne
      unfold alignhash_del_checked
      rw [if_neg hne, if_neg hout]

/-- Instance of C16: index 9 in the reachable table of keys 1, 2, 3 (8 buckets, one tag
word). -/
theorem C16_witness :
    Reachable ex_params ex_table3 ∧
    (alignhash_del_checked ex_table3 ex_table3.nbucket = some ex_table3 ∧
    (ex_table3.nbucket ≤ 9 → 9 >>> 4 < ex_table3.flags.length →
      alignhash_del_checked ex_table3 9 = some ex_table3 ∧
      alignhash_exist_checked ex_table3 9 = some false) ∧
    (9 < ex_table3.nbucket →
      alignhash_del_checked ex_table3 9 = some (alignhash_del ex_table3 9) ∧
      alignhash_exist_checked ex_table3 9 =
        some (decide (AH_ISEMPTY ex_table3.flags 9 = 0 ∧ AH_ISDEL ex_table3.flags 9 = 0))) ∧
    (¬ 9 >>> 4 < ex_table3.flags.length →
      alignhash_exist_checked ex_table3 9 = none ∧
      (9 ≠ ex_table3.nbucket → alignhash_del_checked ex_table3 9 = none))) :=
  ⟨ex_table3_reachable,
    C16_index_totality ex_params ex_params_lawful ex_table3 ex_table3_reachable 9⟩

/-- C16 (counterexample): the reachable table of keys 1, 2, 3 has 8 buckets and a tag
array of one word. For the index 16, beyond `nbucket`, `alignhash_exist` and
`alignhash_del` read the tag word `16 >> 4 = 1`, outside the array, so neither is
defined. For the fresh table (`nbucket = 0`, no tag array) `alignhash_exist(nbucket)`
reads word 0 of an absent array, and for the empty table of 16 buckets
`alignhash_exist(nbucket)` reads the word after the only one. -/
theorem C16_counterexample :
    Reachable ex_params ex_table3 ∧ ex_table3.nbucket ≤ 16 ∧
    ex_table3.flags.length = 1 ∧ 16 >>> 4 = 1 ∧
    alignhash_exist_checked ex_table3 16 = none ∧
    alignhash_del_checked ex_table3 16 = none ∧
    ¬ (alignhash_del_checked ex_table3 16 = some ex_table3 ∧
      alignhash_exist_checked ex_table3 16 = some false) ∧
    alignhash_exist_checked (alignhash_init : Table Nat String)
      (alignhash_init : Table Nat String).nbucket = none ∧
    ∃ h : Table Nat String, Reachable ex_params h ∧ h.nbucket = 16 ∧
      h.flags.length = 1 ∧ alignhash_exist_checked h h.nbucket = none := by
  refine ⟨ex_table3_reachable, by decide, by decide, by decide, by decide, by decide,
    by decide, by decide, ?_⟩
  refine ⟨Table.mk 16 0 0 8 [2863311530] (List.replicate 16 0) (List.replicate 16 ""),
    Reachable.resize alignhash_init 16 _ Reachable.init (by decide) (by decide),
    by decide, by decide, by decide⟩

/-- C17: with the identity hash and `==` on a map, under linear probing (`tier = false`)
and under tier probing (`tier = true`), starting from `alignhash_init` and inserting keys
1..5 with the values a..e written at the returned indices, the first insertion allocates
2 buckets, `nbucket` changes at least twice afterwards, `size` is 5 and the value found
for key 3 is c; deleting the index of key 3 gives `size` 4 and `alignhash_get(3)` returns
`nbucket`; inserting key 6 with value f reports `AH_INS_DEL` or `AH_INS_NEW` and the
value found for key 6 is f. -/
theorem C17_concrete_scenario (tier : Bool) :
    ∃ t1 t2 t3 t4 t5 t6 t7 : Table Nat String, ∃ c1 c2 c3 c4 c5 c6 x3 : Nat,
      set_with_value (Params.mk (fun k => k) (fun a b => a == b) true tier)
        alignhash_init 1 "a" = some (t1, c1) ∧
      set_with_value (Params.mk (fun k => k) (fun a b => a == b) true tier)
        t1 2 "b" = some (t2, c2) ∧
      set_with_value (Params.mk (fun k => k) (fun a b => a == b) true tier)
        t2 3 "c" = some (t3, c3) ∧
      set_with_value (Params.mk (fun k => k) (fun a b => a == b) true tier)
        t3 4 "d" = some (t4, c4) ∧
      set_with_value (Params.mk (fun k => k) (fun a b => a == b) true tier)
        t4 5 "e" = some (t5, c5) ∧
      t1.nbucket = 2 ∧
      2 ≤ count_changes [t1.nbucket, t2.nbucket, t3.nbucket, t4.nbucket, t5.nbucket] ∧
      t5.size = 5 ∧
      get_value (Params.mk (fun k => k) (fun a b => a == b) true tier) t5 3 =
        some (some "c") ∧
      alignhash_get (Params.mk (fun k => k) (fun a b => a == b) true tier) t5 3 = some x3 ∧
      t6 = alignhash_del t5 x3 ∧ t6.size = 4 ∧
      alignhash_get (Params.mk (fun k => k) (fun a b => a == b) true tier) t6 3 =
        some t6.nbucket ∧
      set_with_value (Params.mk (fun k => k) (fun a b => a == b) true tier)
        t6 6 "f" = some (t7, c6) ∧
      (c6 = AH_INS_DEL ∨ c6 = AH_INS_NEW) ∧
      get_value (Params.mk (fun k => k) (fun a b => a == b) true tier) t7 6 =
        some (some "f") := by
  cases tier
  · exact ⟨Table.mk 2 1 1 1 [2863311522] [0, 1] ["", "a"],
      Table.mk 4 2 2 2 [2863311490] [0, 1, 2, 0] ["", "a", "b", ""],
      Table.mk 8 3 3 4 [2863311362] [0, 1, 2, 3, 0, 0, 0, 0]
        ["", "a", "b", "c", "", "", "", ""],
      Table.mk 8 4 4 4 [2863310850] [0, 1, 2, 3, 4, 0, 0, 0]
        ["", "a", "b", "c", "d", "", "", ""],
      Table.mk 16 5 5 8 [2863308802] [0, 1, 2, 3, 4, 5, 0, 0, 0, 0, 0, 0, 0, 0, 0, 0]
        ["", "a", "b", "c", "d", "e", "", "", "", "", "", "", "", "", "", ""],
      Table.mk 16 4 5 8 [2863308866] [0, 1, 2, 3, 4, 5, 0, 0, 0, 0, 0, 0, 0, 0, 0, 0]
        ["", "a", "b", "c", "d", "e", "", "", "", "", "", "", "", "", "", ""],
      Table.mk 16 5 6 8 [2863300674] [0, 1, 2, 3, 4, 5, 6, 0, 0, 0, 0, 0, 0, 0, 0, 0]
        ["", "a", "b", "c", "d", "e", "f", "", "", "", "", "", "", "", "", ""],
      1, 1, 1, 1, 1, 1, 3, by decide⟩
  · exact ⟨Table.mk 2 1 1 2 [2863311522] [0, 1] ["", "a"],
      Table.mk 2 2 2 2 [2863311520] [2, 1] ["b", "a"],
      Table.mk 4 3 3 3 [2863311362] [2, 1, 2, 3] ["b", "a", "b", "c"],
      Table.mk 8 4 4 6 [2863310850] [2, 1, 2, 3, 4, 0, 0, 0]
        ["b", "a", "b", "c", "d", "", "", ""],
      Table.mk 8 5 5 6 [2863308802] [2, 1, 2, 3, 4, 5, 0, 0]
        ["b", "a", "b", "c", "d", "e", "", ""],
      Table.mk 8 4 5 6 [2863308866] [2, 1, 2, 3, 4, 5, 0, 0]
        ["b", "a", "b", "c", "d", "e", "", ""],
      Table.mk 8 5 6 6 [2863300674] [2, 1, 2, 3, 4, 5, 6, 0]
        ["b", "a", "b", "c", "d", "e", "f", ""],
      1, 1, 1, 1, 1, 1, 3, by decide⟩

/-- C18 (amended): in every reachable table `size` is the number of occupied buckets,
`nused` is the number of occupied or deleted buckets, `size <= nused <= nbucket`, and
`nbucket` is 0 or a power of two; `alignhash_del` never changes `nused`; an
`alignhash_set` entered with `nused < sup` never decreases it; an `alignhash_set`
entered with `nused >= sup` either has its resize refused (`size` at least the threshold
of the requested bucket count) and returns `nbucket` with no outcome and the table
unchanged, or grows the table and leaves `nused` equal to the old `size` when the key
was present (outcome `AH_INS_ERR`) and to the old `size` plus one when it was absent
(outcome `AH_INS_NEW`); so an `alignhash_set` decreases `nused` exactly when its growth
succeeds and the table held at least one tombstone (key present) or at least two (key
absent). -/
theorem C18_counter_invariant (P : Params K) (hl : lawful_eq P) (h : Table K V)
    (hr : Reachable P h) :
    h.size = count_upto (fun i => decide (AH_ISEITHER h.flags i = 0)) h.nbucket ∧
    h.nused = count_upto (fun i => decide (AH_ISEMPTY h.flags i = 0)) h.nbucket ∧
    h.size ≤ h.nused ∧ h.nused ≤ h.nbucket ∧ (h.nbucket = 0 ∨ is_pow2 h.nbucket) ∧
    (∀ x, (alignhash_del h x).nused = h.nused) ∧
    (∀ key h1 x r, alignhash_set P h key = some (h1, x, r) → h.nused < h.sup →
      h.nused ≤ h1.nused) ∧
    (∀ key h1 x r, alignhash_set P h key = some (h1, x, r) → h.sup ≤ h.nused →
      (load_threshold P.tier (grow_size h) ≤ h.size ∧ h1 = h ∧ x = h.nbucket ∧ r = none) ∨
      (h.size < load_threshold P.tier (grow_size h) ∧ h1.nbucket = grow_size h ∧
        ((present P h key ∧ r = some AH_INS_ERR ∧ h1.nused = h.size) ∨
          (¬ present P h key ∧ r = some AH_INS_NEW ∧ h1.nused = h.size + 1)))) ∧
    (∀ key h1 x r, alignhash_set P h key = some (h1, x, r) →
      (h1.nused < h.nused ↔
        h.sup ≤ h.nused ∧ h.size < load_threshold P.tier (grow_size h) ∧
          ((present P h key ∧ h.size < h.nused) ∨
            (¬ present P h key ∧ h.size + 1 < h.nused)))) := by
  have hw := reach_wf P hl h hr
  have hb := wf_size_lt P h hw
  have hsup := wf_sup_le P h hw
  have hnog : ∀ key h1 x r, alignhash_set P h key = some (h1, x, r) → h.nused < h.sup →
      h.nused ≤ h1.nused := by
    intro key h1 x r hs hno
    rw [set_no_growth P h key hno] at hs
    obtain ⟨h2, x2, r2, hi, _, _, _, _, _, _, _, hcase⟩ :=
      set_insert_spec P h key hl hw (by omega)
    rw [hi] at hs
    have e2 : h2 = h1 := congrArg Prod.fst (Option.some.inj hs)
    rw [← e2]
    rcases hcase with ⟨_, _, e⟩ | ⟨_, _, _, e, _⟩ | ⟨_, _, _, _, e, _⟩
    · rw [e]
    · rw [e]; exact Nat.le_succ _
    · rw [e]; exact Nat.le_refl _
  have hgrow : ∀ key h1 x r, alignhash_set P h key = some (h1, x, r) → h.sup ≤ h.nused →
      (load_threshold P.tier (grow_size h) ≤ h.size ∧ h1 = h ∧ x = h.nbucket ∧ r = none) ∨
      (h.size < load_threshold P.tier (grow_size h) ∧ h1.nbucket = grow_size h ∧
        ((present P h key ∧ r = some AH_INS_ERR ∧ h1.nused = h.size) ∨
          (¬ present P h key ∧ r = some AH_INS_NEW ∧ h1.nused = h.size + 1))) := by
    intro key h1 x r hs hg
    rcases set_cases P h key hl hw with ⟨_, h0, hw0, hsl, _, hpres, hor, he⟩ | ⟨_, hf, he⟩
    · rcases hor with ⟨hlt, _⟩ | ⟨_, hres, hnb0, _⟩
      · omega
      · have hf : h.size < load_threshold P.tier (grow_size h) := by
          rcases resize_fields P h _ 0 h0 hres with ⟨g1, _⟩ | ⟨_, _, _, _, _, g6⟩
          · exact absurd g1 (by decide)
          · exact g6
        obtain ⟨h0a, hresa, _, _, _, hnua, _, hnda, _⟩ :=
          resize_spec P h hl hw (grow_size h) (grow_size_pow2 P h hw hf).1 hf
        rw [hres] at hresa
        have e0 : h0 = h0a := congrArg Prod.snd (Option.some.inj hresa)
        rw [← e0] at hnua hnda
        obtain ⟨h2, x2, r2, hi, _, hnb2, _, _, _, _, _, hcase⟩ :=
          set_insert_spec P h0 key hl hw0 hsl
        rw [he, hi] at hs
        have hs := Option.some.inj hs
        have e2 : h2 = h1 := congrArg Prod.fst hs
        have er : some r2 = r := congrArg (fun t => t.2.2) hs
        rw [← e2, ← er]
        refine Or.inr ⟨hf, by rw [hnb2, hnb0], ?_⟩
        rcases hcase with ⟨hp, hr2, e⟩ | ⟨hnp, _, hr2, e, _⟩ | ⟨_, _, hd, _⟩
        · left
          exact ⟨(hpres key).mp hp, by rw [hr2], by rw [e]; exact hnua⟩
        · right
          refine ⟨fun hp => hnp ((hpres key).mpr hp), by rw [hr2], ?_⟩
          rw [e]; show h0.nused + 1 = h.size + 1; rw [hnua]
        · exact absurd (hnda x2) hd
    · rw [he] at hs
      have hs := Option.some.inj hs
      have e2 : h = h1 := congrArg Prod.fst hs
      have ex : h.nbucket = x := congrArg (fun t => t.2.1) hs
      have er : none = r := congrArg (fun t => t.2.2) hs
      exact Or.inl ⟨hf, e2.symm, ex.symm, er.symm⟩
  refine ⟨hw.2.2.2.2.1, hw.2.2.2.2.2.1, hb.2.1, hb.2.2, hw.1, ?_, hnog, hgrow, ?_⟩
  · intro x
    unfold alignhash_del
    split <;> rfl
  · intro key h1 x r hs
    by_cases hno : h.nused < h.sup
    · have := hnog key h1 x r hs hno
      constructor
      · intro hlt; omega
      · rintro ⟨hg, _⟩; omega
    · rcases hgrow key h1 x r hs (by omega) with ⟨hf, e, _, _⟩ | ⟨hf, _, hc⟩
      · rw [e]
        constructor
        · intro hlt; omega
        · rintro ⟨_, hf2, _⟩; omega
      · rcases hc with ⟨hp, _, hnu⟩ | ⟨hnp, _, hnu⟩
        · rw [hnu]
          constructor
          · intro hlt; exact ⟨by omega, hf, Or.inl ⟨hp, hlt⟩⟩
          · rintro ⟨_, _, ⟨_, hlt⟩ | ⟨hnp, _⟩⟩
            · exact hlt
            · exact absurd hp hnp
        · rw [hnu]
          constructor
          · intro hlt; exact ⟨by omega, hf, Or.inr ⟨hnp, hlt⟩⟩
          · rintro ⟨_, _, ⟨hp, _⟩ | ⟨_, hlt⟩⟩
            · exact absurd hp hnp
            · exact hlt

/-- Instance of C18: the reachable table with keys 16 and 24 and tombstones in buckets 0
and 1 (`size = 2`, `nused = 4 = sup`). -/
theorem C18_witness :
    Reachable ex_params ex_table_chain4_tombs ∧
    (ex_table_chain4_tombs.size =
      count_upto (fun i => decide (AH_ISEITHER ex_table_chain4_tombs.flags i = 0))
        ex_table_chain4_tombs.nbucket ∧
    ex_table_chain4_tombs.nused =
      count_upto (fun i => decide (AH_ISEMPTY ex_table_chain4_tombs.flags i = 0))
        ex_table_chain4_tombs.nbucket ∧
    ex_table_chain4_tombs.size ≤ ex_table_chain4_tombs.nused ∧
    ex_table_chain4_tombs.nused ≤ ex_table_chain4_tombs.nbucket ∧
    (ex_table_chain4_tombs.nbucket = 0 ∨ is_pow2 ex_table_chain4_tombs.nbucket) ∧
    (∀ x, (alignhash_del ex_table_chain4_tombs x).nused = ex_table_chain4_tombs.nused) ∧
    (∀ key h1 x r, alignhash_set ex_params ex_table_chain4_tombs key = some (h1, x, r) →
      ex_table_chain4_tombs.nused < ex_table_chain4_tombs.sup →
      ex_table_chain4_tombs.nused ≤ h1.nused) ∧
    (∀ key h1 x r, alignhash_set ex_params ex_table_chain4_tombs key = some (h1, x, r) →
      ex_table_chain4_tombs.sup ≤ ex_table_chain4_tombs.nused →
      (load_threshold ex_params.tier (grow_size ex_table_chain4_tombs) ≤
          ex_table_chain4_tombs.size ∧
        h1 = ex_table_chain4_tombs ∧ x = ex_table_chain4_tombs.nbucket ∧ r = none) ∨
      (ex_table_chain4_tombs.size <
          load_threshold ex_params.tier (grow_size ex_table_chain4_tombs) ∧
        h1.nbucket = grow_size ex_table_chain4_tombs ∧
        ((present ex_params ex_table_chain4_tombs key ∧ r = some AH_INS_ERR ∧
            h1.nused = ex_table_chain4_tombs.size) ∨
          (¬ present ex_params ex_table_chain4_tombs key ∧ r = some AH_INS_NEW ∧
            h1.nused = ex_table_chain4_tombs.size + 1)))) ∧
    (∀ key h1 x r, alignhash_set ex_params ex_table_chain4_tombs key = some (h1, x, r) →
      (h1.nused < ex_table_chain4_tombs.nused ↔
        ex_table_chain4_tombs.sup ≤ ex_table_chain4_tombs.nused ∧
        ex_table_chain4_tombs.size <
          load_threshold ex_params.tier (grow_size ex_table_chain4_tombs) ∧
          ((present ex_params ex_table_chain4_tombs key ∧
              ex_table_chain4_tombs.size < ex_table_chain4_tombs.nused) ∨
            (¬ present ex_params ex_table_chain4_tombs key ∧
              ex_table_chain4_tombs.size + 1 < ex_table_chain4_tombs.nused))))) :=
  ⟨ex_table_chain4_tombs_reachable,
    C18_counter_invariant ex_params ex_params_lawful ex_table_chain4_tombs
      ex_table_chain4_tombs_reachable⟩

/-- C18 (counterexample): the table with keys 16 and 24 in buckets 2 and 3 and
tombstones in buckets 0 and 1 is reachable (resize to 8, set 0, 8, 16, 24, delete
buckets 0 and 1) and has `nused = 4 = sup`. `alignhash_set(5)` grows it to 16 buckets,
which drops the two tombstones, and returns with `nused = 3`: a call of `alignhash_set`
has decreased `nused` from 4 to 3. -/
theorem C18_counterexample :
    Reachable ex_params ex_table_chain4_tombs ∧ ex_table_chain4_tombs.nused = 4 ∧
    (alignhash_set ex_params ex_table_chain4_tombs 5).map
      (fun r => (r.1.nbucket, r.1.size, r.1.nused, r.2.1, r.2.2)) =
      some (16, 3, 3, 5, some AH_INS_NEW) ∧
    ∃ h1 x r, alignhash_set ex_params ex_table_chain4_tombs 5 = some (h1, x, r) ∧
      h1.nused < ex_table_chain4_tombs.nused := by
  refine ⟨ex_table_chain4_tombs_reachable, by decide, by decide, ?_⟩
  exact ⟨Table.mk 16 3 3 8 [2863178408]
      [16, 8, 16, 24, 0, 5, 0, 0, 24, 0, 0, 0, 0, 0, 0, 0] (List.replicate 16 ""),
    5, some AH_INS_NEW, by decide, by decide⟩

/-- C19: the probe invariant (for every occupied bucket `i`, `alignhash_get(keys[i])`
returns `i`) holds for the table of `alignhash_init`; on a well-formed table, of which
it is a part, every `alignhash_set`, every `alignhash_del` of an iterator
`x <= nbucket`, `alignhash_clear` and every successful `alignhash_resize` to a power of
two leave a well-formed table with the probe invariant, so every reachable table has
it; and in a table with the invariant every occupied bucket is reached from the probe
start of its key without crossing an empty bucket, and no key sits in two occupied
buckets. -/
theorem C19_probe_invariant (P : Params K) (hl : lawful_eq P) :
    probe_inv P (alignhash_init : Table K V) ∧
    (∀ h : Table K V, WF P h →
      probe_inv P h ∧
      (∀ key h1 x r, alignhash_set P h key = some (h1, x, r) → WF P h1 ∧ probe_inv P h1) ∧
      (∀ x, x ≤ h.nbucket → WF P (alignhash_del h x) ∧ probe_inv P (alignhash_del h x)) ∧
      (WF P (alignhash_clear h) ∧ probe_inv P (alignhash_clear h)) ∧
      (∀ n h1, is_pow2 n → alignhash_resize P h n = some (0, h1) →
        WF P h1 ∧ probe_inv P h1)) ∧
    (∀ h : Table K V, Reachable P h → probe_inv P h) ∧
    (∀ h : Table K V, probe_inv P h → ∀ i, i < h.nbucket → AH_ISEITHER h.flags i = 0 →
      (∃ t, t < h.nbucket ∧ probe_path P h (h.keys.getD i default) t = i ∧
        ∀ s, s ≤ t → AH_ISEMPTY h.flags (probe_path P h (h.keys.getD i default) s) = 0) ∧
      (∀ j, j < h.nbucket → AH_ISEITHER h.flags j = 0 →
        h.keys.getD j default = h.keys.getD i default → j = i)) := by
  have hwp : ∀ h : Table K V, WF P h → probe_inv P h := fun h hw => hw.2.2.2.2.2.2.2
  refine ⟨?_, ?_, ?_, ?_⟩
  · intro i hi
    exact absurd hi (Nat.not_lt_zero i)
  · intro h hw
    refine ⟨hwp h hw, ?_, ?_, ?_, ?_⟩
    · intro key h1 x r hs
      have hw1 := set_wf_any P h key hl hw h1 x r hs
      exact ⟨hw1, hwp h1 hw1⟩
    · intro x hx
      have hw1 := del_wf P h hl hw x hx
      exact ⟨hw1, hwp _ hw1⟩
    · have hw1 := clear_wf P h hw
      exact ⟨hw1, hwp _ hw1⟩
    · intro n h1 hn hres
      have hf : h.size < load_threshold P.tier n := by
        rcases resize_fields P h n 0 h1 hres with ⟨g1, _⟩ | ⟨_, _, _, _, _, g6⟩
        · exact absurd g1 (by decide)
        · exact g6
      obtain ⟨h2, he, hw2, _⟩ := resize_spec P h hl hw n hn hf
      rw [he] at hres
      have e2 : h2 = h1 := congrArg Prod.snd (Option.some.inj hres)
      rw [← e2]
      exact ⟨hw2, hwp h2 hw2⟩
  · intro h hr
    exact hwp h (reach_wf P hl h hr)
  · intro h hp i hi ho
    refine ⟨probe_inv_path P h hp i hi ho, ?_⟩
    intro j hj hoj hk
    have h1 := hp j hj hoj
    rw [hk, hp i hi ho] at h1
    exact (Option.some.inj h1).symm

/-- Instance of C19: the identity hash with `==` under linear probing, on tables of
`Nat` keys and `String` values. -/
theorem C19_witness :
    lawful_eq ex_params ∧
    probe_inv ex_params ex_table_tombs ∧
    (probe_inv ex_params (alignhash_init : Table Nat String) ∧
    (∀ h : Table Nat String, WF ex_params h →
      probe_inv ex_params h ∧
      (∀ key h1 x r, alignhash_set ex_params h key = some (h1, x, r) →
        WF ex_params h1 ∧ probe_inv ex_params h1) ∧
      (∀ x, x ≤ h.nbucket →
        WF ex_params (alignhash_del h x) ∧ probe_inv ex_params (alignhash_del h x)) ∧
      (WF ex_params (alignhash_clear h) ∧ probe_inv ex_params (alignhash_clear h)) ∧
      (∀ n h1, is_pow2 n → alignhash_resize ex_params h n = some (0, h1) →
        WF ex_params h1 ∧ probe_inv ex_params h1)) ∧
    (∀ h : Table Nat String, Reachable ex_params h → probe_inv ex_params h) ∧
    (∀ h : Table Nat String, probe_inv ex_params h → ∀ i, i < h.nbucket →
      AH_ISEITHER h.flags i = 0 →
      (∃ t, t < h.nbucket ∧ probe_path ex_params h (h.keys.getD i default) t = i ∧
        ∀ s, s ≤ t →
          AH_ISEMPTY h.flags (probe_path ex_params h (h.keys.getD i default) s) = 0) ∧
      (∀ j, j < h.nbucket → AH_ISEITHER h.flags j = 0 →
        h.keys.getD j default = h.keys.getD i default → j = i))) :=
  ⟨ex_params_lawful, by decide, C19_probe_invariant ex_params ex_params_lawful⟩

/-- C20: on a well-formed table `alignhash_resize` to a power of two returns, with code
0 when `size` is below the new threshold; whenever it returns 0 the resulting table is
well formed with `nbucket = new_nbucket`, `size` unchanged, `nused = size`,
`sup = floor(new_nbucket * load_factor + 0.5)` (load factor 4/5 under tier probing, 1/2
otherwise), no deleted tag anywhere, so every bucket is empty or occupied, and exactly
`size` occupied buckets below `new_nbucket`; every previously occupied entry sits, with
its key and value, in exactly one occupied bucket of the new layout, distinct entries in
distinct buckets, and every occupied bucket of the new layout holds exactly one of
them. -/
theorem C20_resize_postconditions (P : Params K) (h : Table K V) (hl : lawful_eq P)
    (hw : WF P h) (n : Nat) (hn : is_pow2 n) :
    (∃ r h1, alignhash_resize P h n = some (r, h1)) ∧
    (h.size < load_threshold P.tier n → ∃ h1, alignhash_resize P h n = some (0, h1)) ∧
    ∀ h1, alignhash_resize P h n = some (0, h1) →
      WF P h1 ∧ h1.nbucket = n ∧ h1.size = h.size ∧ h1.nused = h1.size ∧
      h1.sup = ⌊(n : ℚ) * (if P.tier then 4 / 5 else 1 / 2) + 1 / 2⌋₊ ∧
      (∀ i, AH_ISDEL h1.flags i = 0) ∧
      (∀ i, AH_ISEMPTY h1.flags i ≠ 0 ∨ AH_ISEITHER h1.flags i = 0) ∧
      h1.size = count_upto (fun i => decide (AH_ISEITHER h1.flags i = 0)) n ∧
      (∀ i, i < h.nbucket → AH_ISEITHER h.flags i = 0 →
        ∃! x, x < n ∧ AH_ISEITHER h1.flags x = 0 ∧
          h1.keys.getD x default = h.keys.getD i default ∧
          (P.ismap = true → h1.vals.getD x default = h.vals.getD i default)) ∧
      (∀ i j x, i < h.nbucket → j < h.nbucket → AH_ISEITHER h.flags i = 0 →
        AH_ISEITHER h.flags j = 0 → h1.keys.getD x default = h.keys.getD i default →
        h1.keys.getD x default = h.keys.getD j default → i = j) ∧
      (∀ x, x < n → AH_ISEITHER h1.flags x = 0 →
        ∃! i, i < h.nbucket ∧ AH_ISEITHER h.flags i = 0 ∧
          h.keys.getD i default = h1.keys.getD x default ∧
          (P.ismap = true → h.vals.getD i default = h1.vals.getD x default)) := by
  have htot : h.size < load_threshold P.tier n →
      ∃ h1, alignhash_resize P h n = some (0, h1) := by
    intro hf
    obtain ⟨h1, he, _⟩ := resize_spec P h hl hw n hn hf
    exact ⟨h1, he⟩
  refine ⟨?_, htot, ?_⟩
  · by_cases hf : h.size < load_threshold P.tier n
    · obtain ⟨h1, he⟩ := htot hf
      exact ⟨0, h1, he⟩
    · exact ⟨-1, h, alignhash_resize_fail P h n (by omega)⟩
  · intro h1 hres
    have hf : h.size < load_threshold P.tier n := by
      rcases resize_fields P h n 0 h1 hres with ⟨g1, _⟩ | ⟨_, _, _, _, _, g6⟩
      · exact absurd g1 (by decide)
      · exact g6
    obtain ⟨h2, he, hw2, hnb, hsz, hnu, hsup, hnd, hfw, hbw⟩ := resize_spec P h hl hw n hn hf
    rw [he] at hres
    have e2 : h2 = h1 := congrArg Prod.snd (Option.some.inj hres)
    subst e2
    refine ⟨hw2, hnb, hsz, by rw [hnu, hsz], ?_, hnd, ?_, ?_, ?_, ?_, ?_⟩
    · rw [hsup]; exact load_threshold_floor P.tier n
    · intro i
      by_cases hem : AH_ISEMPTY h2.flags i = 0
      · exact Or.inr ((iseither_zero _ _).mpr ⟨hem, hnd i⟩)
      · exact Or.inl hem
    · have := hw2.2.2.2.2.1
      rw [hnb] at this
      exact this
    · intro i hi ho
      obtain ⟨x, hx, hox, hkx, hvx⟩ := hfw i hi ho
      refine ⟨x, ⟨hx, hox, hkx, hvx⟩, ?_⟩
      rintro y ⟨hy, hoy, hky, _⟩
      exact wf_distinct P h2 hw2 y x (by omega) (by omega) hoy hox (by rw [hky, hkx])
    · intro i j x hi hj hoi hoj hki hkj
      exact wf_distinct P h hw i j hi hj hoi hoj (by rw [← hki, hkj])
    · intro x hx hox
      obtain ⟨i, hi, hoi, hki, hvi⟩ := hbw x hx hox
      refine ⟨i, ⟨hi, hoi, hki, hvi⟩, ?_⟩
      rintro j ⟨hj, hoj, hkj, _⟩
      exact wf_distinct P h hw j i hj hi hoj hoi (by rw [hkj, hki])

/-- Instance of C20: the table of keys 1, 2, 3 with 8 buckets is resized to 16 buckets. -/
theorem C20_witness :
    lawful_eq ex_params ∧ WF ex_params ex_table3 ∧ is_pow2 16 ∧
    (alignhash_resize ex_params ex_table3 16).map (fun r => (r.1, r.2.nbucket, r.2.size,
      r.2.nused, r.2.sup)) = some ((0 : Int), 16, 3, 3, 8) ∧
    ((∃ r h1, alignhash_resize ex_params ex_table3 16 = some (r, h1)) ∧
    (ex_table3.size < load_threshold ex_params.tier 16 →
      ∃ h1, alignhash_resize ex_params ex_table3 16 = some (0, h1)) ∧
    ∀ h1, alignhash_resize ex_params ex_table3 16 = some (0, h1) →
      WF ex_params h1 ∧ h1.nbucket = 16 ∧ h1.size = ex_table3.size ∧ h1.nused = h1.size ∧
      h1.sup = ⌊((16 : ℕ) : ℚ) * (if ex_params.tier then 4 / 5 else 1 / 2) + 1 / 2⌋₊ ∧
      (∀ i, AH_ISDEL h1.flags i = 0) ∧
      (∀ i, AH_ISEMPTY h1.flags i ≠ 0 ∨ AH_ISEITHER h1.flags i = 0) ∧
      h1.size = count_upto (fun i => decide (AH_ISEITHER h1.flags i = 0)) 16 ∧
      (∀ i, i < ex_table3.nbucket → AH_ISEITHER ex_table3.flags i = 0 →
        ∃! x, x < 16 ∧ AH_ISEITHER h1.flags x = 0 ∧
          h1.keys.getD x default = ex_table3.keys.getD i default ∧
          (ex_params.ismap = true →
            h1.vals.getD x default = ex_table3.vals.getD i default)) ∧
      (∀ i j x, i < ex_table3.nbucket → j < ex_table3.nbucket →
        AH_ISEITHER ex_table3.flags i = 0 → AH_ISEITHER ex_table3.flags j = 0 →
        h1.keys.getD x default = ex_table3.keys.getD i default →
        h1.keys.getD x default = ex_table3.keys.getD j default → i = j) ∧
      (∀ x, x < 16 → AH_ISEITHER h1.flags x = 0 →
        ∃! i, i < ex_table3.nbucket ∧ AH_ISEITHER ex_table3.flags i = 0 ∧
          ex_table3.keys.getD i default = h1.keys.getD x default ∧
          (ex_params.ismap = true →
            ex_table3.vals.getD i default = h1.vals.getD x default))) :=
  ⟨ex_params_lawful, by decide, by decide, by decide,
    C20_resize_postconditions ex_params ex_table3 ex_params_lawful (by decide) 16
      (by decide)⟩

end Claims

end AlignHash
